import Mathlib

/-!
# grafana-loader: the ConfigMap-to-directory reconciler

A shallow embedding of `controller.go` (`eventHandler.addConfigMap` and
`eventHandler.deleteConfigMap`) together with the parts of the Go standard
library the two handlers call: `path/filepath` (`Join`, `Clean`, `Ext`) and the
file operations `os.MkdirAll`, `ioutil.ReadDir`, `ioutil.WriteFile`,
`os.Remove`, `os.RemoveAll`.

How the program is modelled:

* Go strings are `List Char`; the only bytes the path functions inspect are `/`
  and `.`, both ASCII.
* `filepath.Clean` works on the elements of the path (the pieces between
  separators) instead of on bytes; its output is the same string.
* The file system is a finite table from absolute paths to files and
  directories, with a working directory; path strings are resolved element by
  element. Symbolic links are left out.
* What the environment makes fail, and the order in which a `range` loop visits
  a Go map, come from an `Env` value the theorems quantify over.
* The handlers run on a `World`: the file system, the two error counters and the
  record of the file system calls made. Log lines are left out; the type
  assertion `obj.(*corev1.ConfigMap)` is the type of the argument.
-/

set_option autoImplicit false

namespace GrafanaLoader

/-! ## Strings and `path/filepath` (Unix) -/

/-- A Go string. -/
abbrev Str := List Char

/-- The path elements of a string: the pieces between the `/` separators
(`strings.Split(p, "/")`). -/
def splitSlash : Str → List Str
  | [] => [[]]
  | c :: cs =>
    if c = '/' then [] :: splitSlash cs
    else
      match splitSlash cs with
      | [] => [[c]]
      | h :: t => (c :: h) :: t

/-- The elements glued with `/` between them (`strings.Join(elems, "/")`). -/
def joinSlash : List Str → Str
  | [] => []
  | [x] => x
  | x :: y :: rest => x ++ '/' :: joinSlash (y :: rest)

/-- The element `..`. -/
def dotdot : Str := ['.', '.']

/-- The element `.`. -/
def dot : Str := ['.']

/-- One element of the loop of `filepath.Clean`. The output built so far is kept
as the stack of its elements, last element first. An empty element and `.` are
dropped; `..` removes the last element when that is a name (`out.w > dotdot`),
is appended when the path is not rooted, and is dropped at the root; any other
element is appended. -/
def cleanStep (rooted : Bool) (st : List Str) (c : Str) : List Str :=
  if c = [] ∨ c = dot then st
  else if c = dotdot then
    match st with
    | top :: rest =>
      if top = dotdot then (if rooted then st else c :: st) else rest
    | [] => if rooted then st else [c]
  else c :: st

/-- The string `filepath.Clean` returns for a stack of output elements (given
first element first): a rooted path keeps its leading `/`, and an empty
relative result is `.`. -/
def render (rooted : Bool) (elems : List Str) : Str :=
  if rooted then '/' :: joinSlash elems
  else if elems = [] then dot
  else joinSlash elems

/-- Whether the path starts with a separator. -/
def isRooted : Str → Bool
  | c :: _ => decide (c = '/')
  | [] => false

/-- Go's `filepath.Clean` on Unix: the shortest path name equivalent to `path`
by purely lexical processing. -/
def Clean (path : Str) : Str :=
  if path = [] then dot
  else render (isRooted path) ((splitSlash path).foldl (cleanStep (isRooted path)) []).reverse

/-- Go's `filepath.Join`: the elements from the first non-empty one on, joined
with `/` and cleaned; the empty string when every element is empty. -/
def Join : List Str → Str
  | [] => []
  | e :: rest => if e = [] then Join rest else Clean (joinSlash (e :: rest))

/-- The backward scan of `filepath.Ext`: `rev` is what is left of the path read
from its end, `acc` the characters already passed. -/
def extScan : List Char → Str → Str
  | [], _ => []
  | c :: rest, acc =>
    if c = '/' then []
    else if c = '.' then c :: acc
    else extScan rest (c :: acc)

/-- Go's `filepath.Ext`: the suffix beginning at the final dot in the final
element of the path, empty when there is no dot. -/
def Ext (path : Str) : Str := extScan path.reverse []

/-- The extension `addConfigMap` looks for. -/
def jsonExt : Str := ".json".toList

/-- An element `filepath.Clean` may put in its output: not empty, not `.`, and
free of separators. -/
def OutElem (c : Str) : Prop := c ≠ [] ∧ c ≠ dot ∧ '/' ∉ c

/-- An ordinary file or directory name: an output element other than `..`. -/
def PlainName (c : Str) : Prop := c ≠ [] ∧ c ≠ dot ∧ c ≠ dotdot ∧ '/' ∉ c

instance (c : Str) : Decidable (OutElem c) := by unfold OutElem; infer_instance

instance (c : Str) : Decidable (PlainName c) := by unfold PlainName; infer_instance

/-- The invariant of the output stack of `filepath.Clean`. -/
def StackOK (rooted : Bool) (st : List Str) : Prop :=
  (∀ c ∈ st, OutElem c) ∧ (rooted = true → dotdot ∉ st)

/-- The output stack of `filepath.Clean` after the whole path was read. -/
def cleanStack (p : Str) : List Str := (splitSlash p).foldl (cleanStep (isRooted p)) []

/-- The root flag and output stack `filepath.Join` starts from when `dir` is its
first element: those of `dir`, or an empty relative stack when `dir` is empty and
the join starts at the next element. -/
def baseOf (dir : Str) : Bool × List Str :=
  if dir = [] then (false, []) else (isRooted dir, cleanStack dir)

/-! ## The file system

The state of the file system is a finite table from absolute paths to nodes.
Symbolic links are not modelled. Failures that depend on the environment
(permissions, a full disk, an I/O error) come from an `Env` oracle that the
theorems quantify over; failures that depend on the shape of the tree (a missing
parent, a directory where a file is expected, a directory that is not empty) are
computed from the state. -/

/-- An absolute path, as its elements from the root down. -/
abbrev AbsPath := List Str

/-- What a path names: a regular file with its content, or a directory. -/
inductive Node
  | file (content : Str)
  | dir
  deriving DecidableEq

/-- The error a file operation returns. -/
inductive Errno
  | ENOENT | ENOTDIR | EISDIR | ENOTEMPTY | EINVAL | EBUSY | EACCES | ENOSPC | EIO
  deriving DecidableEq

/-- The file system: the working directory of the process and the table of
nodes. The root directory is always present and has no table entry. -/
structure FS where
  cwd : AbsPath
  nodes : List (AbsPath × Node)
  deriving DecidableEq

/-- The first table entry for a path. -/
def lookupNode : List (AbsPath × Node) → AbsPath → Option Node
  | [], _ => none
  | (q, n) :: rest, p => if q = p then some n else lookupNode rest p

/-- The node a path names, if any. -/
def FS.get (s : FS) (p : AbsPath) : Option Node :=
  if p = [] then some Node.dir else lookupNode s.nodes p

/-- Create or replace the node at a path. -/
def FS.put (s : FS) (p : AbsPath) (n : Node) : FS :=
  { s with nodes := (p, n) :: s.nodes.filter (fun e => decide (e.1 ≠ p)) }

/-- Remove the node at a path. -/
def FS.erase (s : FS) (p : AbsPath) : FS :=
  { s with nodes := s.nodes.filter (fun e => decide (e.1 ≠ p)) }

/-- Remove a path and everything beneath it. -/
def FS.eraseTree (s : FS) (p : AbsPath) : FS :=
  { s with nodes := s.nodes.filter (fun e => decide (¬ p <+: e.1)) }

/-- Remove, of the paths strictly beneath `p`, those listed in `gone`. -/
def FS.erasePart (s : FS) (p : AbsPath) (gone : List AbsPath) : FS :=
  { s with nodes := s.nodes.filter (fun e => decide (¬ (p <+: e.1 ∧ e.1 ≠ p ∧ e.1 ∈ gone))) }

/-- The name `n` when `q` is the entry `d/n` of directory `d`. -/
def childName : AbsPath → AbsPath → Option Str
  | [], [n] => some n
  | [], _ => none
  | _ :: _, [] => none
  | a :: d, b :: q => if a = b then childName d q else none

/-- The names of the entries of directory `d`. -/
def FS.children (s : FS) (d : AbsPath) : List Str :=
  s.nodes.filterMap (fun e => childName d e.1)

/-- Whether some node lies strictly beneath `d`. -/
def FS.hasBelow (s : FS) (d : AbsPath) : Bool :=
  s.nodes.any (fun e => decide (d <+: e.1 ∧ e.1 ≠ d))

/-- One element of path resolution: an empty element and `.` stay in place, `..`
moves to the parent (the parent of the root is the root), a name descends. The
position is a stack of elements, last element first. -/
def resolveStep (st : List Str) (c : Str) : List Str :=
  if c = [] ∨ c = dot then st
  else if c = dotdot then st.tail
  else c :: st

/-- The absolute path a path string names: a rooted path is walked from the
root, any other from the working directory. -/
def resolve (cwd : AbsPath) (p : Str) : AbsPath :=
  ((splitSlash p).foldl resolveStep (if isRooted p then [] else cwd.reverse)).reverse

/-- Whether the last element of the path string is `.` or `..`. -/
def endsWithDot (p : Str) : Bool :=
  decide ((splitSlash p).getLast? = some dot ∨ (splitSlash p).getLast? = some dotdot)

/-- The environment: its failures, per absolute path, and the order of a `range`
loop over a Go map. `mkdirAll` fails a whole `os.MkdirAll` call before anything
is created, `mkdir` the creation of one directory, `readDir` a listing, `remove` an `os.Remove`. `writeFile` fails an
`ioutil.WriteFile` and tells what the file holds afterwards when the failure came
after the file was opened (created or truncated), `none` when the file was not
touched. `removeAll` fails an `os.RemoveAll`; `removeAllGone` tells which paths
beneath the directory a failing `os.RemoveAll` removed all the same. A failure
belongs to the path: it is the same for every call on that path. `rank` fixes
the order in which `range` visits the keys of the map `filesToRemove` (lower rank
first), which Go leaves unspecified. -/
structure Env where
  mkdirAll : AbsPath → Option Errno
  mkdir : AbsPath → Option Errno
  readDir : AbsPath → Option Errno
  writeFile : AbsPath → Option (Errno × Option Str)
  remove : AbsPath → Option Errno
  removeAll : AbsPath → Option Errno
  removeAllGone : AbsPath → List AbsPath
  rank : Str → Nat

/-- The recursion of `os.MkdirAll` on the reversed absolute path: a directory
that is there ends it with success, a file with `ENOTDIR`; otherwise the parent
is made first and then the directory itself. What was created stays when a later
step fails. -/
def mkdirAllRev (env : Env) (s : FS) : List Str → Option Errno × FS
  | [] => (none, s)
  | c :: parent =>
    match s.get (c :: parent).reverse with
    | some Node.dir => (none, s)
    | some (Node.file _) => (some Errno.ENOTDIR, s)
    | none =>
      match mkdirAllRev env s parent with
      | (some e, s1) => (some e, s1)
      | (none, s1) =>
        match env.mkdir (c :: parent).reverse with
        | some e => (some e, s1)
        | none => (none, s1.put (c :: parent).reverse Node.dir)

/-- Go's `os.MkdirAll(path, 0755)`. -/
def mkdirAll (env : Env) (s : FS) (path : Str) : Option Errno × FS :=
  if path = [] then (some Errno.ENOENT, s)
  else
    match env.mkdirAll (resolve s.cwd path) with
    | some e => (some e, s)
    | none => mkdirAllRev env s (resolve s.cwd path).reverse

/-- Go's `ioutil.ReadDir(dirname)`, reduced to the names of the entries. Go sorts
the entries by name; the caller only inserts the names into a map, so the order
is left as it is in the table. -/
def readDir (env : Env) (s : FS) (dirname : Str) : Except Errno (List Str) :=
  if dirname = [] then Except.error Errno.ENOENT
  else
    match s.get (resolve s.cwd dirname) with
    | none => Except.error Errno.ENOENT
    | some (Node.file _) => Except.error Errno.ENOTDIR
    | some Node.dir =>
      match env.readDir (resolve s.cwd dirname) with
      | some e => Except.error e
      | none => Except.ok (s.children (resolve s.cwd dirname))

/-- Go's `ioutil.WriteFile(filename, data, 0644)`: the file is created, or
truncated and overwritten. It fails on a directory and when the parent is not a
directory. -/
def writeFile (env : Env) (s : FS) (filename : Str) (data : Str) : Option Errno × FS :=
  if filename = [] then (some Errno.ENOENT, s)
  else
    match s.get (resolve s.cwd filename) with
    | some Node.dir => (some Errno.EISDIR, s)
    | _ =>
      match s.get (resolve s.cwd filename).dropLast with
      | none => (some Errno.ENOENT, s)
      | some (Node.file _) => (some Errno.ENOTDIR, s)
      | some Node.dir =>
        match env.writeFile (resolve s.cwd filename) with
        | some (e, none) => (some e, s)
        | some (e, some left) => (some e, s.put (resolve s.cwd filename) (Node.file left))
        | none => (none, s.put (resolve s.cwd filename) (Node.file data))

/-- Go's `os.Remove(name)`: removes a file or an empty directory. -/
def remove (env : Env) (s : FS) (name : Str) : Option Errno × FS :=
  if name = [] then (some Errno.ENOENT, s)
  else
    match s.get (resolve s.cwd name) with
    | none => (some Errno.ENOENT, s)
    | some n =>
      if resolve s.cwd name = [] then (some Errno.EBUSY, s)
      else if endsWithDot name then (some Errno.EINVAL, s)
      else if n = Node.dir ∧ s.hasBelow (resolve s.cwd name) = true then
        (some Errno.ENOTEMPTY, s)
      else
        match env.remove (resolve s.cwd name) with
        | some e => (some e, s)
        | none => (none, s.erase (resolve s.cwd name))

/-- Go's `os.RemoveAll(path)`: removes the path and everything beneath it; a
path that does not exist is no error, and neither is the empty path. The root and
a path ending in `.` or `..` cannot be removed. A failing call may have removed
part of the tree. -/
def removeAll (env : Env) (s : FS) (path : Str) : Option Errno × FS :=
  if path = [] then (none, s)
  else if resolve s.cwd path = [] then
    (some Errno.EBUSY, s.erasePart (resolve s.cwd path) (env.removeAllGone (resolve s.cwd path)))
  else if endsWithDot path then
    (some Errno.EINVAL, s.erasePart (resolve s.cwd path) (env.removeAllGone (resolve s.cwd path)))
  else
    match env.removeAll (resolve s.cwd path) with
    | some e =>
      (some e, s.erasePart (resolve s.cwd path) (env.removeAllGone (resolve s.cwd path)))
    | none => (none, s.eraseTree (resolve s.cwd path))

/-! ## `controller.go` -/

/-- A call the handlers made to the file system, with the error it returned. -/
inductive Call
  | mkdirAll (path : Str) (err : Option Errno)
  | readDir (path : Str) (err : Option Errno)
  | writeFile (path : Str) (data : Str) (err : Option Errno)
  | remove (path : Str) (err : Option Errno)
  | removeAll (path : Str) (err : Option Errno)
  deriving DecidableEq

/-- Everything the handlers read and change: the file system, the two
Prometheus counters `createErrors` and `deleteErrors`, and the record of the file
system calls made so far (oldest first). Log lines are not modelled. -/
structure World where
  fs : FS
  createErrors : Nat
  deleteErrors : Nat
  calls : List Call
  deriving DecidableEq

/-- The fields of `corev1.ConfigMap` the handler reads. `Data` is a Go map: the
list holds its entries in the order the `range` loop visits them, and a
well-formed map has no key twice. -/
structure ConfigMap where
  Namespace : Str
  Name : Str
  Data : List (Str × Str)
  deriving DecidableEq

/-- The assignment `filesToRemove[f] = true` on the set of names. -/
def insertName (m : List Str) (f : Str) : List Str :=
  if f ∈ m then m else m ++ [f]

/-- The statement `delete(filesToRemove, name)`. -/
def deleteName (m : List Str) (name : Str) : List Str :=
  m.filter (fun x => decide (x ≠ name))

/-- The loop `for name, content := range cm.Data` of `addConfigMap`: an entry
without the `.json` extension is skipped; a failed write is counted and the loop
goes on; after a successful write the name leaves `filesToRemove`. -/
def writeEntries (env : Env) (dir : Str) :
    List (Str × Str) → World → List Str → World × List Str
  | [], w, filesToRemove => (w, filesToRemove)
  | (name, content) :: rest, w, filesToRemove =>
    if Ext name ≠ jsonExt then writeEntries env dir rest w filesToRemove
    else
      match writeFile env w.fs (Join [dir, name]) content with
      | (some err, fs1) =>
        writeEntries env dir rest
          { w with fs := fs1, createErrors := w.createErrors + 1,
                   calls := w.calls ++ [Call.writeFile (Join [dir, name]) content (some err)] }
          filesToRemove
      | (none, fs1) =>
        writeEntries env dir rest
          { w with fs := fs1,
                   calls := w.calls ++ [Call.writeFile (Join [dir, name]) content none] }
          (deleteName filesToRemove name)

/-- The order in which `range` visits the keys of a map holding `keys`. -/
def rangeOrder (env : Env) (keys : List Str) : List Str :=
  keys.insertionSort (fun a b => env.rank a ≤ env.rank b)

/-- The loop `for f := range filesToRemove` of `addConfigMap`: a failed removal
is counted and the loop goes on. -/
def removeFiles (env : Env) (dir : Str) : List Str → World → World
  | [], w => w
  | f :: rest, w =>
    match remove env w.fs (Join [dir, f]) with
    | (some err, fs1) =>
      removeFiles env dir rest
        { w with fs := fs1, deleteErrors := w.deleteErrors + 1,
                 calls := w.calls ++ [Call.remove (Join [dir, f]) (some err)] }
    | (none, fs1) =>
      removeFiles env dir rest
        { w with fs := fs1, calls := w.calls ++ [Call.remove (Join [dir, f]) none] }

/-- The directory of a resource: `filepath.Join(*outdir, cm.Namespace, cm.Name)`. -/
def dirOf (outdir : Str) (cm : ConfigMap) : Str := Join [outdir, cm.Namespace, cm.Name]

/-- The handler `eventHandler.addConfigMap`, with the value of the `--outdir` flag
as a parameter. Returns the error (`none` for `nil`) and the world afterwards. -/
def addConfigMap (env : Env) (outdir : Str) (cm : ConfigMap) (w : World) :
    Option Errno × World :=
  match mkdirAll env w.fs (dirOf outdir cm) with
  | (some err, fs1) =>
    (some err, { w with fs := fs1, createErrors := w.createErrors + 1,
                        calls := w.calls ++ [Call.mkdirAll (dirOf outdir cm) (some err)] })
  | (none, fs1) =>
    match readDir env fs1 (dirOf outdir cm) with
    | Except.error err =>
      (some err, { w with fs := fs1, createErrors := w.createErrors + 1,
                          calls := w.calls ++ [Call.mkdirAll (dirOf outdir cm) none,
                            Call.readDir (dirOf outdir cm) (some err)] })
    | Except.ok existingFiles =>
      match writeEntries env (dirOf outdir cm) cm.Data
          { w with fs := fs1,
                   calls := w.calls ++ [Call.mkdirAll (dirOf outdir cm) none,
                     Call.readDir (dirOf outdir cm) none] }
          (existingFiles.foldl insertName []) with
      | (w2, filesToRemove) =>
        (none, removeFiles env (dirOf outdir cm) (rangeOrder env filesToRemove) w2)

/-- The handler `eventHandler.deleteConfigMap`, given the resource key `s`. -/
def deleteConfigMap (env : Env) (outdir : Str) (s : Str) (w : World) :
    Option Errno × World :=
  match removeAll env w.fs (Join [outdir, s]) with
  | (some err, fs1) =>
    (some err, { w with fs := fs1, deleteErrors := w.deleteErrors + 1,
                        calls := w.calls ++ [Call.removeAll (Join [outdir, s]) (some err)] })
  | (none, fs1) =>
    (none, { w with fs := fs1, calls := w.calls ++ [Call.removeAll (Join [outdir, s]) none] })

/-- The oracle of an environment in which nothing fails. -/
def calmEnv : Env :=
  { mkdirAll := fun _ => none, mkdir := fun _ => none, readDir := fun _ => none,
    writeFile := fun _ => none, remove := fun _ => none, removeAll := fun _ => none,
    removeAllGone := fun _ => [], rank := fun _ => 0 }

/-! ## Sample states -/

/-- The scenario of the specification: resource `default/demo`, working root
`/tmp/dashboards`. -/
def demoFS : FS :=
  { cwd := [], nodes := [(["tmp".toList], Node.dir), (["tmp".toList, "dashboards".toList], Node.dir)] }

/-- The demo tree with both counters at zero and no call made. -/
def demoWorld : World := { fs := demoFS, createErrors := 0, deleteErrors := 0, calls := [] }

/-- The resource of the scenario. -/
def demoCM : ConfigMap :=
  { Namespace := "default".toList, Name := "demo".toList,
    Data := [("a.json".toList, "\x7b\x7d".toList), ("readme.txt".toList, "hi".toList)] }

/-! ## Auxiliary notions for the proofs -/

/-- Whether `ioutil.WriteFile` on `filename` fails in state `s` (whatever the
data). -/
def writeFails (env : Env) (s : FS) (filename : Str) : Bool :=
  (writeFile env s filename []).1.isSome

/-- Whether `os.Remove` on `name` fails in state `s`. -/
def removeFails (env : Env) (s : FS) (name : Str) : Bool :=
  (remove env s name).1.isSome

/-- Two states with the same working directory and the same directories. -/
def SameDirs (s t : FS) : Prop :=
  s.cwd = t.cwd ∧ ∀ q, s.get q = some Node.dir ↔ t.get q = some Node.dir

/-- Every element of every path of the table is a plain name, and so is every
element of the working directory: the shape of an actual file system. -/
def FS.ValidNames (s : FS) : Prop :=
  (∀ c ∈ s.cwd, PlainName c) ∧ ∀ e ∈ s.nodes, ∀ c ∈ e.1, PlainName c

instance (s : FS) : Decidable s.ValidNames := by unfold FS.ValidNames; infer_instance

/-- The test `filepath.Ext(name) == ".json"` as a boolean. -/
def isJson (k : Str) : Bool := decide (Ext k = jsonExt)

/-- The world after the write of one `.json` entry in `addConfigMap`. -/
def writeStep (env : Env) (dir k v : Str) (w : World) : World :=
  { w with fs := (writeFile env w.fs (Join [dir, k]) v).2,
           createErrors := w.createErrors + (if writeFails env w.fs (Join [dir, k]) then 1 else 0),
           calls := w.calls ++ [Call.writeFile (Join [dir, k]) v (writeFile env w.fs (Join [dir, k]) v).1] }

/-- The world after the removal of one stale name in `addConfigMap`. -/
def removeStep (env : Env) (dir f : Str) (w : World) : World :=
  { w with fs := (remove env w.fs (Join [dir, f])).2,
           deleteErrors := w.deleteErrors + (if removeFails env w.fs (Join [dir, f]) then 1 else 0),
           calls := w.calls ++ [Call.remove (Join [dir, f]) (remove env w.fs (Join [dir, f])).1] }

/-- The `.json` entries whose write fails in state `s`. -/
def failedWrites (env : Env) (s : FS) (dir : Str) (entries : List (Str × Str)) :
    List (Str × Str) :=
  entries.filter (fun e => isJson e.1 && writeFails env s (Join [dir, e.1]))

/-- The names whose removal fails in state `s`. -/
def failedRemoves (env : Env) (s : FS) (dir : Str) (names : List Str) : List Str :=
  names.filter (fun f => removeFails env s (Join [dir, f]))

/-- The file system after the `os.MkdirAll` call of `addConfigMap`. -/
def madeFS (env : Env) (outdir : Str) (cm : ConfigMap) (w : World) : FS :=
  (mkdirAll env w.fs (dirOf outdir cm)).2

/-- The error, if any, of the two calls `addConfigMap` makes before its loops:
`os.MkdirAll` and `ioutil.ReadDir`. -/
def setupError (env : Env) (outdir : Str) (cm : ConfigMap) (w : World) : Option Errno :=
  match (mkdirAll env w.fs (dirOf outdir cm)).1 with
  | some e => some e
  | none =>
    match readDir env (madeFS env outdir cm w) (dirOf outdir cm) with
    | Except.error e => some e
    | Except.ok _ => none

/-- The world at the start of the write loop of `addConfigMap`. -/
def loopStart (env : Env) (outdir : Str) (cm : ConfigMap) (w : World) : World :=
  { w with fs := madeFS env outdir cm w,
           calls := w.calls ++ [Call.mkdirAll (dirOf outdir cm) none,
             Call.readDir (dirOf outdir cm) none] }

/-- The set `filesToRemove` as first built from the listing of the directory. -/
def listed (env : Env) (outdir : Str) (cm : ConfigMap) (w : World) : List Str :=
  ((madeFS env outdir cm w).children (resolve w.fs.cwd (dirOf outdir cm))).foldl insertName []

/-- The world and the set `filesToRemove` after the write loop. -/
def afterWrites (env : Env) (outdir : Str) (cm : ConfigMap) (w : World) : World × List Str :=
  writeEntries env (dirOf outdir cm) cm.Data (loopStart env outdir cm w) (listed env outdir cm w)

/-- The names the removal loop visits, in the order it visits them. -/
def staleOrder (env : Env) (outdir : Str) (cm : ConfigMap) (w : World) : List Str :=
  rangeOrder env (afterWrites env outdir cm w).2

/-- The calls made between two worlds. -/
def newCalls (w w' : World) : List Call := w'.calls.drop w.calls.length

/-- Every entry of directory `d` has a plain name. -/
def NamesOK (s : FS) (d : AbsPath) : Prop :=
  ∀ n, s.get (d ++ [n]) ≠ none → PlainName n

/-- The error a recorded call returned. -/
def Call.err : Call → Option Errno
  | Call.mkdirAll _ e => e
  | Call.readDir _ e => e
  | Call.writeFile _ _ e => e
  | Call.remove _ e => e
  | Call.removeAll _ e => e

/-- A tree in which the directory of `default/demo` already holds a stale
dashboard and a leftover text file. -/
def staleFS : FS :=
  { cwd := [],
    nodes := [(["tmp".toList], Node.dir), (["tmp".toList, "dashboards".toList], Node.dir),
      (["tmp".toList, "dashboards".toList, "default".toList], Node.dir),
      (["tmp".toList, "dashboards".toList, "default".toList, "demo".toList], Node.dir),
      (["tmp".toList, "dashboards".toList, "default".toList, "demo".toList, "old.json".toList],
        Node.file "[1]".toList),
      (["tmp".toList, "dashboards".toList, "default".toList, "demo".toList, "notes.txt".toList],
        Node.file "todo".toList)] }

/-- The stale tree with both counters at zero and no call made. -/
def staleWorld : World := { fs := staleFS, createErrors := 0, deleteErrors := 0, calls := [] }

/-- The absolute path of the directory of `default/demo` under `/tmp/dashboards`. -/
def demoDir : AbsPath := ["tmp".toList, "dashboards".toList, "default".toList, "demo".toList]

/-- The value of the `--outdir` flag in the sample runs. -/
def demoOut : Str := "/tmp/dashboards".toList

/-- A resource whose only key names its file through `./`. -/
def dotSlashCM : ConfigMap :=
  { Namespace := "default".toList, Name := "demo".toList,
    Data := [("./foo.json".toList, "x".toList)] }

/-- An environment in which no directory can be made. -/
def denyMkdir : Env := { calmEnv with mkdir := fun _ => some Errno.EACCES }

/-- An environment in which every write is refused before the file is opened. -/
def denyWrite : Env := { calmEnv with writeFile := fun _ => some (Errno.EACCES, none) }

/-- An environment in which no file can be removed. -/
def denyRemove : Env := { calmEnv with remove := fun _ => some Errno.EACCES }

/-- An environment in which no directory can be listed. -/
def denyReadDir : Env := { calmEnv with readDir := fun _ => some Errno.EACCES }

/-- A resource with two dashboards and a text entry. -/
def twoCM : ConfigMap :=
  { Namespace := "default".toList, Name := "demo".toList,
    Data := [("a.json".toList, "A".toList), ("old.json".toList, "B".toList),
      ("readme.txt".toList, "hi".toList)] }

/-- An environment in which only the file `old.json` of `default/demo` cannot
be written; the refused write leaves the file as it was. -/
def denyOld : Env :=
  { calmEnv with
    writeFile := fun p =>
      if p = demoDir ++ ["old.json".toList] then some (Errno.EACCES, none) else none }

/-- An environment in which the file `old.json` of `default/demo` can be
neither written nor removed. -/
def lockOld : Env :=
  { denyOld with
    remove := fun p => if p = demoDir ++ ["old.json".toList] then some Errno.EACCES else none }

/-- The parent of every node of the table is a directory: the shape of an actual
file system. -/
def FS.ParentsAreDirs (s : FS) : Prop :=
  ∀ e ∈ s.nodes, s.get e.1.dropLast = some Node.dir

instance (s : FS) : Decidable s.ParentsAreDirs := by unfold FS.ParentsAreDirs; infer_instance

/-- A resource with a key that ends in a separator next to the `.json` key it
collides with. -/
def slashCM : ConfigMap :=
  { Namespace := "default".toList, Name := "demo".toList,
    Data := [("a.json/".toList, "x".toList), ("a.json".toList, "y".toList)] }

/-- A resource whose only entry is the text file `notes.txt`. -/
def notesCM : ConfigMap :=
  { Namespace := "default".toList, Name := "demo".toList,
    Data := [("notes.txt".toList, "new".toList)] }

/-- A resource with two keys for one file: `a.json` and `./a.json`. -/
def collideCM : ConfigMap :=
  { Namespace := "default".toList, Name := "demo".toList,
    Data := [("a.json".toList, "1".toList), ("./a.json".toList, "2".toList)] }

/-- The same resource with its entries visited in the other order. -/
def collideCMrev : ConfigMap :=
  { Namespace := "default".toList, Name := "demo".toList,
    Data := [("./a.json".toList, "2".toList), ("a.json".toList, "1".toList)] }

/-! ## Facts about the path functions -/

/-- Rows of the table `cleantests` of Go's `path/filepath` tests. -/
theorem Clean_go_tests :
    Clean "abc/def/ghi/../jkl".toList = "abc/def/jkl".toList
      ∧ Clean "abc/def/../..".toList = ".".toList
      ∧ Clean "/abc/def/../../..".toList = "/".toList
      ∧ Clean "abc/def/../../../ghi/jkl/../../../mno".toList = "../../mno".toList
      ∧ Clean "/../abc".toList = "/abc".toList
      ∧ Clean "abc//./../def".toList = "def".toList
      ∧ Clean "abc/../../././../def".toList = "../../def".toList
      ∧ Clean [] = ".".toList
      ∧ Clean "//".toList = "/".toList := by
  decide

/-- Rows of the tables `jointests` and `exttests` of Go's `path/filepath` tests. -/
theorem Join_Ext_go_tests :
    Join ["a".toList, []] = "a".toList
      ∧ Join [[], "b".toList] = "b".toList
      ∧ Join ["/".toList, "a/b".toList] = "/a/b".toList
      ∧ Join ["//".toList, "a".toList] = "/a".toList
      ∧ Join ["a/".toList, "b".toList] = "a/b".toList
      ∧ Join [[], []] = []
      ∧ Ext "path.pb.go".toList = ".go".toList
      ∧ Ext "a.dir/b".toList = []
      ∧ Ext "a.dir/b.go".toList = ".go".toList
      ∧ Ext "a.dir/".toList = [] := by
  decide

theorem Clean_sample_rooted : Clean "/tmp//dash/./a/../b/".toList = "/tmp/dash/b".toList := by decide
theorem Clean_sample_dotdot : Clean "../../a/..".toList = "../..".toList := by decide
theorem Clean_sample_root_parent : Clean "/../a".toList = "/a".toList := by decide
theorem Clean_sample_empty : Clean "a/..".toList = ".".toList := by decide
theorem Join_sample : Join ["/tmp/dashboards".toList, "default".toList, "demo".toList]
    = "/tmp/dashboards/default/demo".toList := by decide
theorem Join_sample_empty_elems : Join [[], [], "x".toList] = "x".toList := by decide
theorem Ext_sample_last_element : Ext "a.b/c.json".toList = ".json".toList := by decide
theorem Ext_sample_trailing_slash : Ext "a.json/".toList = [] := by decide
theorem Ext_sample_dot : Ext "a.json/.".toList = ".".toList := by decide
theorem Ext_sample_bare : Ext ".json".toList = ".json".toList := by decide


theorem splitSlash_ne_nil (p : Str) : splitSlash p ≠ [] := by
  cases p with
  | nil => simp [splitSlash]
  | cons c cs =>
    unfold splitSlash
    split
    · simp
    · split <;> simp

theorem splitSlash_noSlash (p : Str) : ∀ c ∈ splitSlash p, '/' ∉ c := by
  induction p with
  | nil => simp [splitSlash]
  | cons a as ih =>
    unfold splitSlash
    split
    · intro c hc
      rcases List.mem_cons.1 hc with h | h
      · simp [h]
      · exact ih c h
    · rename_i hne
      split
      · intro c hc
        simp only [List.mem_singleton] at hc
        subst hc
        simpa using Ne.symm hne
      · rename_i h t heq
        intro c hc
        rw [heq] at ih
        rcases List.mem_cons.1 hc with h1 | h1
        · subst h1
          have := ih h (List.mem_cons_self _ _)
          simp only [List.mem_cons, not_or]
          exact ⟨Ne.symm hne, this⟩
        · exact ih c (List.mem_cons_of_mem _ h1)

theorem splitSlash_of_noSlash (c : Str) (h : '/' ∉ c) : splitSlash c = [c] := by
  induction c with
  | nil => rfl
  | cons a as ih =>
    have ha : a ≠ '/' := fun e => h (by simp [e])
    have has : '/' ∉ as := fun e => h (List.mem_cons_of_mem _ e)
    simp [splitSlash, ha, ih has]

theorem splitSlash_append_slash (a b : Str) :
    splitSlash (a ++ '/' :: b) = splitSlash a ++ splitSlash b := by
  induction a with
  | nil => simp [splitSlash]
  | cons x xs ih =>
    by_cases hx : x = '/'
    · simp [splitSlash, hx, ih]
    · cases hs : splitSlash xs with
      | nil => exact absurd hs (splitSlash_ne_nil xs)
      | cons h t =>
        rw [hs] at ih
        simp [splitSlash, hx, ih, hs]

theorem splitSlash_joinSlash (l : List Str) (hne : l ≠ []) (h : ∀ c ∈ l, '/' ∉ c) :
    splitSlash (joinSlash l) = l := by
  induction l with
  | nil => exact absurd rfl hne
  | cons x rest ih =>
    cases rest with
    | nil => simpa [joinSlash] using splitSlash_of_noSlash x (h x (List.mem_cons_self _ _))
    | cons y ys =>
      have hx := splitSlash_of_noSlash x (h x (List.mem_cons_self _ _))
      have := ih (by simp) (fun c hc => h c (List.mem_cons_of_mem _ hc))
      simp only [joinSlash, splitSlash_append_slash, hx, this, List.singleton_append]


theorem PlainName.outElem {c : Str} (h : PlainName c) : OutElem c := ⟨h.1, h.2.1, h.2.2.2⟩

theorem outElem_dotdot : OutElem dotdot := by decide

theorem cleanStep_ok (r : Bool) (st : List Str) (c : Str) (hst : StackOK r st)
    (hc : '/' ∉ c) : StackOK r (cleanStep r st c) := by
  unfold cleanStep
  split
  · exact hst
  · rename_i h1
    push_neg at h1
    split
    · rename_i h2
      subst h2
      cases st with
      | nil =>
        cases r with
        | true => simpa using hst
        | false => exact ⟨by simpa using outElem_dotdot, by simp⟩
      | cons top rest =>
        simp only
        split
        · cases r with
          | true => simpa using hst
          | false =>
            refine ⟨?_, by simp⟩
            intro x hx
            rcases List.mem_cons.1 hx with h | h
            · exact h ▸ outElem_dotdot
            · exact hst.1 x h
        · exact ⟨fun x hx => hst.1 x (List.mem_cons_of_mem _ hx),
            fun hr hm => hst.2 hr (List.mem_cons_of_mem _ hm)⟩
    · rename_i h2
      refine ⟨?_, ?_⟩
      · intro x hx
        rcases List.mem_cons.1 hx with h | h
        · exact h ▸ ⟨h1.1, h1.2, hc⟩
        · exact hst.1 x h
      · intro hr hm
        rcases List.mem_cons.1 hm with h | h
        · exact h2 h.symm
        · exact hst.2 hr h

theorem cleanFold_ok (r : Bool) (cs : List Str) (st : List Str) (hst : StackOK r st)
    (hcs : ∀ c ∈ cs, '/' ∉ c) : StackOK r (cs.foldl (cleanStep r) st) := by
  induction cs generalizing st with
  | nil => exact hst
  | cons c rest ih =>
    exact ih _ (cleanStep_ok r st c hst (hcs c (List.mem_cons_self _ _)))
      (fun x hx => hcs x (List.mem_cons_of_mem _ hx))

theorem stackOK_nil (r : Bool) : StackOK r [] := ⟨by simp, by simp⟩

theorem cleanStack_ok (p : Str) : StackOK (isRooted p) (cleanStack p) :=
  cleanFold_ok _ _ _ (stackOK_nil _) (splitSlash_noSlash p)

theorem cleanStep_plain (r : Bool) (st : List Str) (c : Str) (h : PlainName c) :
    cleanStep r st c = c :: st := by
  unfold cleanStep
  rw [if_neg (by rintro (e | e); exact h.1 e; exact h.2.1 e), if_neg h.2.2.1]

theorem joinSlash_cons_ne_nil (x : Str) (rest : List Str) (hx : x ≠ []) :
    joinSlash (x :: rest) ≠ [] := by
  cases rest with
  | nil => simpa [joinSlash] using hx
  | cons y ys => simp [joinSlash]

theorem joinSlash_injective (A B : List Str) (hA : ∀ c ∈ A, OutElem c)
    (hB : ∀ c ∈ B, OutElem c) (h : joinSlash A = joinSlash B) : A = B := by
  cases A with
  | nil =>
    cases B with
    | nil => rfl
    | cons b bs =>
      exact absurd h.symm (joinSlash_cons_ne_nil b bs (hB b (List.mem_cons_self _ _)).1)
  | cons a as =>
    cases B with
    | nil => exact absurd h (joinSlash_cons_ne_nil a as (hA a (List.mem_cons_self _ _)).1)
    | cons b bs =>
      have h1 := splitSlash_joinSlash (a :: as) (by simp) (fun c hc => (hA c hc).2.2)
      have h2 := splitSlash_joinSlash (b :: bs) (by simp) (fun c hc => (hB c hc).2.2)
      rw [← h1, ← h2, h]

theorem render_injective (r : Bool) (A B : List Str) (hA : ∀ c ∈ A, OutElem c)
    (hB : ∀ c ∈ B, OutElem c) (h : render r A = render r B) : A = B := by
  have key : ∀ X : List Str, (∀ c ∈ X, OutElem c) → X ≠ [] → joinSlash X ≠ dot := by
    intro X hX hne e
    have := splitSlash_joinSlash X hne (fun c hc => (hX c hc).2.2)
    rw [e] at this
    have hmem : dot ∈ X := by rw [← this]; decide
    exact (hX dot hmem).2.1 rfl
  cases r with
  | true =>
    simp only [render, if_true, List.cons.injEq, true_and] at h
    exact joinSlash_injective A B hA hB h
  | false =>
    simp only [render, Bool.false_eq_true, if_false] at h
    by_cases ha : A = [] <;> by_cases hb : B = []
    · rw [ha, hb]
    · rw [if_pos ha, if_neg hb] at h
      exact absurd h.symm (key B hB hb)
    · rw [if_neg ha, if_pos hb] at h
      exact absurd h (key A hA ha)
    · rw [if_neg ha, if_neg hb] at h
      exact joinSlash_injective A B hA hB h

theorem isRooted_append (a b : Str) (ha : a ≠ []) : isRooted (a ++ b) = isRooted a := by
  cases a with
  | nil => exact absurd rfl ha
  | cons x xs => rfl

theorem isRooted_of_noSlash (c : Str) (h : '/' ∉ c) : isRooted c = false := by
  cases c with
  | nil => rfl
  | cons x xs =>
    have : x ≠ '/' := fun e => h (by simp [e])
    simp [isRooted, this]

/-- Cleaning `a/b` continues the scan of `a` with the elements of `b`. -/
theorem Clean_append_slash (a b : Str) (ha : a ≠ []) :
    Clean (a ++ '/' :: b)
      = render (isRooted a)
          ((splitSlash b).foldl (cleanStep (isRooted a)) (cleanStack a)).reverse := by
  have hne : a ++ '/' :: b ≠ [] := by simp
  unfold Clean
  rw [if_neg hne, isRooted_append a _ ha, splitSlash_append_slash, List.foldl_append]
  rfl

theorem baseOf_ok (dir : Str) : StackOK (baseOf dir).1 (baseOf dir).2 := by
  unfold baseOf
  split
  · exact stackOK_nil _
  · exact cleanStack_ok dir

theorem Clean_of_noSlash (k : Str) (hk : k ≠ []) (hs : '/' ∉ k) :
    Clean k = render false (cleanStep false [] k).reverse := by
  unfold Clean
  rw [if_neg hk, isRooted_of_noSlash k hs, splitSlash_of_noSlash k hs]
  rfl

/-- The path of an entry `k` without separators inside `dir`. -/
theorem Join_pair (dir k : Str) (hk : k ≠ []) (hs : '/' ∉ k) :
    Join [dir, k]
      = render (baseOf dir).1 (cleanStep (baseOf dir).1 (baseOf dir).2 k).reverse := by
  by_cases hd : dir = []
  · subst hd
    simp only [Join, baseOf, if_true, if_neg hk, joinSlash]
    exact Clean_of_noSlash k hk hs
  · simp only [Join, baseOf, if_neg hd, joinSlash]
    rw [Clean_append_slash dir k hd, splitSlash_of_noSlash k hs]
    rfl

/-- The directory of a resource whose namespace and name are plain names. -/
theorem Join_triple (outdir ns name : Str) (hns : PlainName ns) (hname : PlainName name) :
    Join [outdir, ns, name]
      = render (baseOf outdir).1 ((baseOf outdir).2.reverse ++ [ns, name]) := by
  by_cases hd : outdir = []
  · subst hd
    simp only [Join, baseOf, if_true, if_neg hns.1, joinSlash]
    rw [Clean_append_slash ns name hns.1, splitSlash_of_noSlash name hname.2.2.2,
      isRooted_of_noSlash ns hns.2.2.2]
    simp [cleanStack, splitSlash_of_noSlash ns hns.2.2.2, isRooted_of_noSlash ns hns.2.2.2,
      cleanStep_plain _ _ _ hns, cleanStep_plain _ _ _ hname]
  · simp only [Join, baseOf, if_neg hd, joinSlash]
    rw [Clean_append_slash outdir _ hd, splitSlash_append_slash,
      splitSlash_of_noSlash ns hns.2.2.2, splitSlash_of_noSlash name hname.2.2.2]
    simp [cleanStep_plain _ _ _ hns, cleanStep_plain _ _ _ hname]


/-! ## Facts about the file system -/

theorem lookupNode_filter (f : AbsPath → Bool) (l : List (AbsPath × Node)) (p : AbsPath) :
    lookupNode (l.filter (fun e => f e.1)) p = if f p = true then lookupNode l p else none := by
  induction l with
  | nil => simp [lookupNode]
  | cons e rest ih =>
    obtain ⟨q, n⟩ := e
    by_cases hq : f q = true
    · rw [List.filter_cons_of_pos (by simpa using hq)]
      by_cases hqp : q = p
      · subst hqp
        simp [lookupNode, hq]
      · simp only [lookupNode, if_neg hqp, ih]
    · rw [List.filter_cons_of_neg (by simpa using hq)]
      by_cases hqp : q = p
      · subst hqp
        simp only [ih, if_neg hq]
      · simp only [lookupNode, if_neg hqp, ih]

theorem lookupNode_ne_none (l : List (AbsPath × Node)) (p : AbsPath) :
    lookupNode l p ≠ none ↔ ∃ n, (p, n) ∈ l := by
  induction l with
  | nil => simp [lookupNode]
  | cons e rest ih =>
    obtain ⟨q, n⟩ := e
    by_cases hqp : q = p
    · subst hqp
      simp only [lookupNode, if_true, ne_eq, reduceCtorEq, not_false_eq_true, true_iff]
      exact ⟨n, List.mem_cons_self _ _⟩
    · simp only [lookupNode, if_neg hqp, ih, List.mem_cons, Prod.mk.injEq]
      constructor
      · rintro ⟨m, hm⟩
        exact ⟨m, Or.inr hm⟩
      · rintro ⟨m, hm | hm⟩
        · exact absurd hm.1.symm hqp
        · exact ⟨m, hm⟩

theorem FS.get_put (s : FS) (p : AbsPath) (n : Node) (q : AbsPath) :
    (s.put p n).get q
      = if q = [] then some Node.dir else if q = p then some n else s.get q := by
  unfold FS.get FS.put
  by_cases hq : q = []
  · simp [hq]
  · simp only [if_neg hq]
    by_cases hqp : q = p
    · subst hqp
      simp [lookupNode]
    · have hpq : ¬ p = q := fun e => hqp e.symm
      simp only [lookupNode, if_neg hqp, if_neg hpq]
      rw [lookupNode_filter (fun x => decide (x ≠ p))]
      simp [hqp]

theorem FS.get_erase (s : FS) (p q : AbsPath) :
    (s.erase p).get q
      = if q = [] then some Node.dir else if q = p then none else s.get q := by
  unfold FS.get FS.erase
  by_cases hq : q = []
  · simp [hq]
  · simp only [if_neg hq]
    rw [lookupNode_filter (fun x => decide (x ≠ p))]
    by_cases hqp : q = p <;> simp [hqp]

theorem FS.get_eraseTree (s : FS) (p q : AbsPath) :
    (s.eraseTree p).get q
      = if q = [] then some Node.dir else if p <+: q then none else s.get q := by
  unfold FS.get FS.eraseTree
  by_cases hq : q = []
  · simp [hq]
  · simp only [if_neg hq]
    rw [lookupNode_filter (fun x => decide (¬ p <+: x))]
    by_cases hqp : p <+: q <;> simp [hqp]

theorem childName_eq_some (d q : AbsPath) (n : Str) :
    childName d q = some n ↔ q = d ++ [n] := by
  induction d generalizing q with
  | nil =>
    cases q with
    | nil => simp [childName]
    | cons a rest =>
      cases rest with
      | nil => simp [childName]
      | cons b rest2 => simp [childName]
  | cons a d ih =>
    cases q with
    | nil => simp [childName]
    | cons b q =>
      by_cases hab : a = b
      · subst hab
        simp [childName, ih]
      · simp only [childName, if_neg hab, List.cons_append, List.cons.injEq]
        constructor
        · intro h; cases h
        · rintro ⟨h, _⟩; exact absurd h.symm hab

theorem FS.mem_children (s : FS) (d : AbsPath) (n : Str) :
    n ∈ s.children d ↔ s.get (d ++ [n]) ≠ none := by
  have hne : d ++ [n] ≠ [] := by simp
  unfold FS.children FS.get
  rw [if_neg hne, lookupNode_ne_none, List.mem_filterMap]
  constructor
  · rintro ⟨⟨q, m⟩, hmem, hq⟩
    rw [childName_eq_some] at hq
    exact ⟨m, hq ▸ hmem⟩
  · rintro ⟨m, hm⟩
    exact ⟨(d ++ [n], m), hm, (childName_eq_some _ _ _).2 rfl⟩

/-! ## Path resolution and `filepath.Clean` -/

theorem resolveStep_plain (st : List Str) (c : Str) (h : PlainName c) :
    resolveStep st c = c :: st := by
  unfold resolveStep
  rw [if_neg (by rintro (e | e); exact h.1 e; exact h.2.1 e), if_neg h.2.2.1]

/-- Walking the cleaned elements reaches the same place as walking the elements
as written. -/
theorem resolve_cleanStep (r : Bool) (init st : List Str) (c : Str)
    (hst : StackOK r st) (hr : r = true → init = []) :
    (cleanStep r st c).reverse.foldl resolveStep init
      = resolveStep (st.reverse.foldl resolveStep init) c := by
  unfold cleanStep
  split
  · rename_i h
    simp only [resolveStep, if_pos h]
  · rename_i h1
    split
    · rename_i h2
      subst h2
      cases st with
      | nil =>
        cases r with
        | true => simp [resolveStep, hr rfl, dotdot, dot]
        | false => simp
      | cons top rest =>
        simp only
        split
        · rename_i htop
          cases r with
          | true => exact absurd (List.mem_cons_self _ _) (htop ▸ hst.2 rfl)
          | false => simp
        · rename_i htop
          have hplain : PlainName top :=
            ⟨(hst.1 top (List.mem_cons_self _ _)).1, (hst.1 top (List.mem_cons_self _ _)).2.1,
              htop, (hst.1 top (List.mem_cons_self _ _)).2.2⟩
          simp only [List.reverse_cons, List.foldl_append, List.foldl_cons, List.foldl_nil]
          rw [resolveStep_plain _ _ hplain]
          simp [resolveStep, dotdot, dot]
    · simp

theorem resolve_cleanFold (r : Bool) (init : List Str) (cs st : List Str)
    (hst : StackOK r st) (hr : r = true → init = []) (hcs : ∀ c ∈ cs, '/' ∉ c) :
    (cs.foldl (cleanStep r) st).reverse.foldl resolveStep init
      = cs.foldl resolveStep (st.reverse.foldl resolveStep init) := by
  induction cs generalizing st with
  | nil => rfl
  | cons c rest ih =>
    simp only [List.foldl_cons]
    rw [ih _ (cleanStep_ok r st c hst (hcs c (List.mem_cons_self _ _)))
      (fun x hx => hcs x (List.mem_cons_of_mem _ hx)), resolve_cleanStep r init st c hst hr]

/-- Resolving a string `filepath.Clean` could return walks its elements. -/
theorem resolve_render (cwd : AbsPath) (r : Bool) (X : List Str) (hX : ∀ c ∈ X, OutElem c) :
    resolve cwd (render r X)
      = (X.foldl resolveStep (if r = true then [] else cwd.reverse)).reverse := by
  have hsplit : X ≠ [] → splitSlash (joinSlash X) = X := fun hne =>
    splitSlash_joinSlash X hne (fun c hc => (hX c hc).2.2)
  cases r with
  | true =>
    have h1 : isRooted (render true X) = true := by simp [render, isRooted]
    unfold resolve
    rw [h1]
    simp only [render, if_true]
    by_cases hne : X = []
    · subst hne
      simp [joinSlash, splitSlash, resolveStep]
    · simp [splitSlash, hsplit hne, resolveStep]
  | false =>
    unfold resolve
    by_cases hne : X = []
    · subst hne
      simp [render, dot, isRooted, splitSlash, resolveStep]
    · have h1 : isRooted (render false X) = false := by
        simp only [render, Bool.false_eq_true, if_false, if_neg hne]
        cases X with
        | nil => exact absurd rfl hne
        | cons x xs =>
          have hx := hX x (List.mem_cons_self _ _)
          cases x with
          | nil => exact absurd rfl hx.1
          | cons a as =>
            have ha : a ≠ '/' := fun e => hx.2.2 (by simp [e])
            cases xs <;> simp [joinSlash, isRooted, ha]
      rw [h1]
      simp [render, hne, hsplit hne]

theorem resolve_Clean (cwd : AbsPath) (p : Str) (hp : p ≠ []) :
    resolve cwd (Clean p) = resolve cwd p := by
  have hok := cleanStack_ok p
  unfold Clean
  rw [if_neg hp, resolve_render cwd _ _ (by
    intro c hc
    exact hok.1 c (List.mem_reverse.1 hc))]
  unfold resolve
  congr 1
  have := resolve_cleanFold (isRooted p) (if isRooted p = true then [] else cwd.reverse)
    (splitSlash p) [] (stackOK_nil _) (by intro h; simp [h]) (splitSlash_noSlash p)
  simpa [cleanStack] using this

/-- An entry with a plain name resolves to the child of that name. -/
theorem resolve_Join_child (cwd : AbsPath) (dir k : Str) (hd : dir ≠ []) (hk : PlainName k) :
    resolve cwd (Join [dir, k]) = resolve cwd dir ++ [k] := by
  simp only [Join, if_neg hd, joinSlash]
  rw [resolve_Clean cwd _ (by simp)]
  unfold resolve
  rw [isRooted_append dir _ hd, splitSlash_append_slash, splitSlash_of_noSlash k hk.2.2.2,
    List.foldl_append]
  simp [resolveStep_plain _ _ hk]

/-! ## The extension test -/

theorem extScan_eq (rev acc e : Str) (h : extScan rev acc = e) (hne : e ≠ []) :
    ∃ pre rest, rev = pre ++ '.' :: rest ∧ e = '.' :: (pre.reverse ++ acc) := by
  induction rev generalizing acc with
  | nil => simp only [extScan] at h; exact absurd h.symm hne
  | cons c rest ih =>
    unfold extScan at h
    split at h
    · exact absurd h.symm hne
    · split at h
      · rename_i hc
        exact ⟨[], rest, by simp [hc], by simp [← h, hc]⟩
      · obtain ⟨pre, rest2, h1, h2⟩ := ih (c :: acc) h
        exact ⟨c :: pre, rest2, by simp [h1], by simp [h2]⟩

/-- A key that passes the test `filepath.Ext(name) == ".json"` ends in `.json`. -/
theorem Ext_json_suffix (k : Str) (h : Ext k = jsonExt) : ∃ q, k = q ++ jsonExt := by
  obtain ⟨pre, rest, h1, h2⟩ := extScan_eq k.reverse [] jsonExt h (by decide)
  refine ⟨rest.reverse, ?_⟩
  have : k = (pre ++ '.' :: rest).reverse := by rw [← h1, List.reverse_reverse]
  rw [this, h2]
  simp

/-- A key without separators that passes the extension test is a plain name. -/
theorem plainName_of_json (k : Str) (h : Ext k = jsonExt) (hs : '/' ∉ k) : PlainName k := by
  obtain ⟨q, hq⟩ := Ext_json_suffix k h
  have hlen : 5 ≤ k.length := by
    rw [hq, List.length_append]
    have : jsonExt.length = 5 := by decide
    omega
  refine ⟨?_, ?_, ?_, hs⟩
  · intro e; rw [e] at hlen; simp at hlen
  · intro e; rw [e] at hlen; simp [dot] at hlen
  · intro e; rw [e] at hlen; simp [dotdot] at hlen

/-! ## Facts about the file operations -/

theorem writeFile_cwd (env : Env) (s : FS) (p data : Str) :
    (writeFile env s p data).2.cwd = s.cwd := by
  unfold writeFile
  repeat' split
  all_goals rfl

theorem writeFails_eq_false_iff (env : Env) (s : FS) (p : Str) :
    writeFails env s p = false ↔
      p ≠ [] ∧ s.get (resolve s.cwd p) ≠ some Node.dir
        ∧ s.get (resolve s.cwd p).dropLast = some Node.dir
        ∧ env.writeFile (resolve s.cwd p) = none := by
  unfold writeFails writeFile
  by_cases hp : p = []
  · simp [hp]
  · rw [if_neg hp]
    cases h1 : s.get (resolve s.cwd p) with
    | none =>
      cases h2 : s.get (resolve s.cwd p).dropLast with
      | none => simp [hp]
      | some n =>
        cases n with
        | file c => simp [hp]
        | dir =>
          cases h3 : env.writeFile (resolve s.cwd p) with
          | none => simp [hp]
          | some el => obtain ⟨e, l⟩ := el; cases l <;> simp [hp]
    | some n =>
      cases n with
      | dir => simp [hp]
      | file c0 =>
        cases h2 : s.get (resolve s.cwd p).dropLast with
        | none => simp [hp]
        | some n =>
          cases n with
          | file c => simp [hp]
          | dir =>
            cases h3 : env.writeFile (resolve s.cwd p) with
            | none => simp [hp]
            | some el => obtain ⟨e, l⟩ := el; cases l <;> simp [hp]

/-- What a write does: on success the file holds the data; on failure the state
is unchanged or the file holds what the failed write left. -/
theorem writeFile_cases (env : Env) (s : FS) (p data : Str) :
    (writeFails env s p = false
        ∧ writeFile env s p data = (none, s.put (resolve s.cwd p) (Node.file data)))
      ∨ (writeFails env s p = true
        ∧ ∃ e, (writeFile env s p data).1 = some e
          ∧ ((writeFile env s p data).2 = s
            ∨ ∃ left, (writeFile env s p data).2 = s.put (resolve s.cwd p) (Node.file left)
                ∧ s.get (resolve s.cwd p) ≠ some Node.dir)) := by
  unfold writeFails writeFile
  by_cases hp : p = []
  · simp [hp]
  · rw [if_neg hp, if_neg hp]
    cases h1 : s.get (resolve s.cwd p) with
    | none =>
      cases h2 : s.get (resolve s.cwd p).dropLast with
      | none => simp
      | some n =>
        cases n with
        | file c => simp
        | dir =>
          cases h3 : env.writeFile (resolve s.cwd p) with
          | none => simp
          | some el =>
            obtain ⟨e, l⟩ := el
            cases l with
            | none => simp
            | some left => simp only [Option.isSome_some, Bool.true_eq_false, false_and, reduceCtorEq, Option.some.injEq, exists_eq_left', true_and, false_or]; exact Or.inr ⟨left, rfl, by simp [h1]⟩
    | some n =>
      cases n with
      | dir => simp
      | file c0 =>
        cases h2 : s.get (resolve s.cwd p).dropLast with
        | none => simp
        | some n =>
          cases n with
          | file c => simp
          | dir =>
            cases h3 : env.writeFile (resolve s.cwd p) with
            | none => simp
            | some el =>
            obtain ⟨e, l⟩ := el
            cases l with
            | none => simp
            | some left => simp only [Option.isSome_some, Bool.true_eq_false, false_and, reduceCtorEq, Option.some.injEq, exists_eq_left', true_and, false_or]; exact Or.inr ⟨left, rfl, by simp [h1]⟩

theorem writeFile_isSome (env : Env) (s : FS) (p data : Str) :
    (writeFile env s p data).1.isSome = writeFails env s p := by
  rcases writeFile_cases env s p data with ⟨h1, h2⟩ | ⟨h1, e, h2, _⟩
  · rw [h1, h2]; rfl
  · rw [h1, h2]; rfl

theorem writeFile_get_other (env : Env) (s : FS) (p data : Str) (q : AbsPath)
    (hq : q ≠ resolve s.cwd p) : (writeFile env s p data).2.get q = s.get q := by
  have hput : ∀ n, (s.put (resolve s.cwd p) n).get q = s.get q := by
    intro n
    rw [FS.get_put]
    by_cases h0 : q = []
    · simp [h0, FS.get]
    · rw [if_neg h0, if_neg hq]
  rcases writeFile_cases env s p data with ⟨_, h2⟩ | ⟨_, e, _, h2 | ⟨left, h2, _⟩⟩
  · rw [h2]; exact hput _
  · rw [h2]
  · rw [h2]; exact hput _

theorem sameDirs_refl (s : FS) : SameDirs s s := ⟨rfl, fun _ => Iff.rfl⟩

theorem SameDirs.trans {s t u : FS} (h1 : SameDirs s t) (h2 : SameDirs t u) : SameDirs s u :=
  ⟨h1.1.trans h2.1, fun q => (h1.2 q).trans (h2.2 q)⟩

theorem SameDirs.symm {s t : FS} (h : SameDirs s t) : SameDirs t s :=
  ⟨h.1.symm, fun q => (h.2 q).symm⟩

theorem sameDirs_put_file (s : FS) (a : AbsPath) (c : Str) (h : s.get a ≠ some Node.dir) :
    SameDirs s (s.put a (Node.file c)) := by
  refine ⟨rfl, fun q => ?_⟩
  rw [FS.get_put]
  by_cases h0 : q = []
  · simp [h0, FS.get]
  · rw [if_neg h0]
    by_cases hqa : q = a
    · subst hqa
      simp [h]
    · rw [if_neg hqa]

theorem writeFile_sameDirs (env : Env) (s : FS) (p data : Str) :
    SameDirs s (writeFile env s p data).2 := by
  rcases writeFile_cases env s p data with ⟨h1, h2⟩ | ⟨_, e, _, h2 | ⟨left, h2, h3⟩⟩
  · rw [h2]
    exact sameDirs_put_file s _ _ ((writeFails_eq_false_iff env s p).1 h1).2.1
  · rw [h2]; exact sameDirs_refl s
  · rw [h2]; exact sameDirs_put_file s _ _ h3

theorem writeFails_congr (env : Env) (s t : FS) (p : Str) (h : SameDirs s t) :
    writeFails env s p = writeFails env t p := by
  have key : writeFails env s p = false ↔ writeFails env t p = false := by
    rw [writeFails_eq_false_iff, writeFails_eq_false_iff, ← h.1]
    constructor
    · rintro ⟨a, b, c, d⟩
      exact ⟨a, fun e => b ((h.2 _).2 e), (h.2 _).1 c, d⟩
    · rintro ⟨a, b, c, d⟩
      exact ⟨a, fun e => b ((h.2 _).1 e), (h.2 _).2 c, d⟩
  cases h1 : writeFails env s p <;> cases h2 : writeFails env t p <;> simp_all

theorem remove_cwd (env : Env) (s : FS) (p : Str) : (remove env s p).2.cwd = s.cwd := by
  unfold remove
  repeat' split
  all_goals rfl

theorem removeFails_eq_false_iff (env : Env) (s : FS) (p : Str) :
    removeFails env s p = false ↔
      p ≠ [] ∧ s.get (resolve s.cwd p) ≠ none ∧ resolve s.cwd p ≠ []
        ∧ endsWithDot p = false
        ∧ ¬ (s.get (resolve s.cwd p) = some Node.dir ∧ s.hasBelow (resolve s.cwd p) = true)
        ∧ env.remove (resolve s.cwd p) = none := by
  unfold removeFails remove
  by_cases hp : p = []
  · simp [hp]
  · rw [if_neg hp]
    cases h1 : s.get (resolve s.cwd p) with
    | none => simp [hp]
    | some n =>
      simp only []
      by_cases h2 : resolve s.cwd p = []
      · simp [h2]
      · rw [if_neg h2]
        by_cases h3 : endsWithDot p = true
        · simp [h3]
        · rw [if_neg h3]
          by_cases h4 : n = Node.dir ∧ s.hasBelow (resolve s.cwd p) = true
          · rw [if_pos h4]
            simp [hp, h2, h4]
          · rw [if_neg h4]
            have h4' : ¬ (some n = some Node.dir ∧ s.hasBelow (resolve s.cwd p) = true) := by
              simpa using h4
            cases h5 : env.remove (resolve s.cwd p) with
            | none =>
              simp only [Option.isSome_none, ne_eq, hp, not_false_eq_true, reduceCtorEq, h2,
                Option.some.injEq, not_and, Bool.not_eq_true, and_true, true_and, true_iff]
              refine ⟨by simpa using h3, fun hn => ?_⟩
              cases hb : s.hasBelow (resolve s.cwd p) with
              | false => rfl
              | true => exact absurd ⟨hn, hb⟩ h4
            | some e => simp [hp, h2, h3, h4']

/-- What a removal does: on success the node is gone, on failure nothing
changes. -/
theorem remove_cases (env : Env) (s : FS) (p : Str) :
    (removeFails env s p = false ∧ remove env s p = (none, s.erase (resolve s.cwd p)))
      ∨ (removeFails env s p = true ∧ ∃ e, remove env s p = (some e, s)) := by
  unfold removeFails remove
  by_cases hp : p = []
  · simp [hp]
  · rw [if_neg hp]
    cases h1 : s.get (resolve s.cwd p) with
    | none => simp
    | some n =>
      simp only []
      by_cases h2 : resolve s.cwd p = []
      · simp [h2]
      · rw [if_neg h2]
        by_cases h3 : endsWithDot p = true
        · simp [h3]
        · rw [if_neg h3]
          by_cases h4 : n = Node.dir ∧ s.hasBelow (resolve s.cwd p) = true
          · rw [if_pos h4]
            simp
          · rw [if_neg h4]
            cases h5 : env.remove (resolve s.cwd p) with
            | none => simp
            | some e => simp

theorem FS.hasBelow_erase (s : FS) (x y : AbsPath) (h : ¬ (y <+: x ∧ x ≠ y)) :
    (s.erase x).hasBelow y = s.hasBelow y := by
  unfold FS.hasBelow FS.erase
  simp only
  induction s.nodes with
  | nil => rfl
  | cons e rest ih =>
    by_cases he : e.1 = x
    · rw [List.filter_cons_of_neg (by simpa using he), ih, List.any_cons]
      have : decide (y <+: e.1 ∧ e.1 ≠ y) = false := by
        rw [he]; simpa using h
      rw [this, Bool.false_or]
    · rw [List.filter_cons_of_pos (by simpa using he), List.any_cons, List.any_cons, ih]

theorem splitSlash_render_getLast (r : Bool) (X : List Str) (f : Str)
    (hX : ∀ c ∈ X ++ [f], OutElem c) :
    (splitSlash (render r (X ++ [f]))).getLast? = some f := by
  have hne : X ++ [f] ≠ [] := by simp
  have hs := splitSlash_joinSlash (X ++ [f]) hne (fun c hc => (hX c hc).2.2)
  cases r with
  | true => simp [render, splitSlash, hs, List.getLast?_cons]
  | false => simp [render, hs]

theorem splitSlash_Join_getLast (dir f : Str) (hf : PlainName f) :
    (splitSlash (Join [dir, f])).getLast? = some f := by
  rw [Join_pair dir f hf.1 hf.2.2.2, cleanStep_plain _ _ _ hf, List.reverse_cons]
  apply splitSlash_render_getLast
  intro c hc
  rcases List.mem_append.1 hc with h | h
  · exact (baseOf_ok dir).1 c (List.mem_reverse.1 h)
  · simp only [List.mem_singleton] at h
    exact h ▸ hf.outElem

theorem endsWithDot_Join_plain (dir f : Str) (hf : PlainName f) :
    endsWithDot (Join [dir, f]) = false := by
  unfold endsWithDot
  rw [splitSlash_Join_getLast dir f hf]
  simp only [Option.some.injEq, decide_eq_false_iff_not, not_or]
  exact ⟨hf.2.1, hf.2.2.1⟩

theorem Join_plain_ne_nil (dir f : Str) (hf : PlainName f) : Join [dir, f] ≠ [] := by
  intro e
  have := splitSlash_Join_getLast dir f hf
  rw [e] at this
  simp only [splitSlash, List.getLast?_singleton, Option.some.injEq] at this
  exact hf.1 this.symm

/-- When the removal of the entry `f` of `dir` fails. -/
theorem removeFails_child (env : Env) (s : FS) (dir f : Str) (hd : dir ≠ [])
    (hf : PlainName f) :
    removeFails env s (Join [dir, f]) = false ↔
      s.get (resolve s.cwd dir ++ [f]) ≠ none
        ∧ ¬ (s.get (resolve s.cwd dir ++ [f]) = some Node.dir
              ∧ s.hasBelow (resolve s.cwd dir ++ [f]) = true)
        ∧ env.remove (resolve s.cwd dir ++ [f]) = none := by
  rw [removeFails_eq_false_iff, resolve_Join_child s.cwd dir f hd hf,
    endsWithDot_Join_plain dir f hf]
  simp [Join_plain_ne_nil dir f hf]

/-- What `os.MkdirAll` can change: nothing that is there, and what it adds are
directories on the way to the target; on success the target is a directory. -/
theorem mkdirAllRev_spec (env : Env) (s : FS) (rev : List Str) :
    (mkdirAllRev env s rev).2.cwd = s.cwd
      ∧ (∀ q, s.get q ≠ none → (mkdirAllRev env s rev).2.get q = s.get q)
      ∧ (∀ q, s.get q = none → (mkdirAllRev env s rev).2.get q = none
            ∨ ((mkdirAllRev env s rev).2.get q = some Node.dir ∧ q <+: rev.reverse))
      ∧ ((mkdirAllRev env s rev).1 = none
            → (mkdirAllRev env s rev).2.get rev.reverse = some Node.dir) := by
  induction rev with
  | nil =>
    refine ⟨rfl, fun _ _ => rfl, fun q hq => Or.inl hq, fun _ => ?_⟩
    simp [mkdirAllRev, FS.get]
  | cons c parent ih =>
    unfold mkdirAllRev
    cases hget : s.get (c :: parent).reverse with
    | some n =>
      cases n with
      | dir => exact ⟨rfl, fun _ _ => rfl, fun q hq => Or.inl hq, fun _ => hget⟩
      | file x => exact ⟨rfl, fun _ _ => rfl, fun q hq => Or.inl hq, fun h => by cases h⟩
    | none =>
      simp only []
      have hpre : ∀ q : AbsPath, q <+: parent.reverse → q <+: (c :: parent).reverse := by
        intro q hq
        rw [List.reverse_cons]
        exact hq.trans (List.prefix_append _ _)
      cases hrec : mkdirAllRev env s parent with
      | mk e1 s1 =>
        rw [hrec] at ih
        cases e1 with
        | some e =>
          refine ⟨ih.1, ih.2.1, fun q hq => ?_, fun h => by cases h⟩
          rcases ih.2.2.1 q hq with h | ⟨h1, h2⟩
          · exact Or.inl h
          · exact Or.inr ⟨h1, hpre q h2⟩
        | none =>
          cases hmk : env.mkdir (c :: parent).reverse with
          | some e =>
            refine ⟨ih.1, ih.2.1, fun q hq => ?_, fun h => by cases h⟩
            rcases ih.2.2.1 q hq with h | ⟨h1, h2⟩
            · exact Or.inl h
            · exact Or.inr ⟨h1, hpre q h2⟩
          | none =>
            have hne : (c :: parent).reverse ≠ [] := by simp
            refine ⟨ih.1, fun q hq => ?_, fun q hq => ?_, fun _ => ?_⟩
            · simp only [FS.get_put]
              by_cases h0 : q = []
              · simp [h0, FS.get]
              · rw [if_neg h0, if_neg (fun e : q = (c :: parent).reverse => hq (e ▸ hget))]
                exact ih.2.1 q hq
            · simp only [FS.get_put]
              by_cases h0 : q = []
              · simp [h0, FS.get] at hq
              · rw [if_neg h0]
                by_cases hqp : q = (c :: parent).reverse
                · rw [if_pos hqp]
                  exact Or.inr ⟨rfl, hqp ▸ List.prefix_refl _⟩
                · rw [if_neg hqp]
                  rcases ih.2.2.1 q hq with h | ⟨h1, h2⟩
                  · exact Or.inl h
                  · exact Or.inr ⟨h1, hpre q h2⟩
            · simp only [FS.get_put, if_neg hne, if_true]

theorem mkdirAll_spec (env : Env) (s : FS) (dir : Str) :
    (mkdirAll env s dir).2.cwd = s.cwd
      ∧ (∀ q, s.get q ≠ none → (mkdirAll env s dir).2.get q = s.get q)
      ∧ (∀ q, s.get q = none → (mkdirAll env s dir).2.get q = none
            ∨ ((mkdirAll env s dir).2.get q = some Node.dir ∧ q <+: resolve s.cwd dir))
      ∧ ((mkdirAll env s dir).1 = none
            → dir ≠ [] ∧ (mkdirAll env s dir).2.get (resolve s.cwd dir) = some Node.dir) := by
  unfold mkdirAll
  by_cases hd : dir = []
  · rw [if_pos hd]
    exact ⟨rfl, fun _ _ => rfl, fun q hq => Or.inl hq, fun h => by cases h⟩
  · rw [if_neg hd]
    cases hf : env.mkdirAll (resolve s.cwd dir) with
    | some e => exact ⟨rfl, fun _ _ => rfl, fun q hq => Or.inl hq, fun h => by cases h⟩
    | none =>
      have := mkdirAllRev_spec env s (resolve s.cwd dir).reverse
      rw [List.reverse_reverse] at this
      exact ⟨this.1, this.2.1, this.2.2.1, fun h => ⟨hd, this.2.2.2 h⟩⟩

/-- Regular files are neither made nor lost by `os.MkdirAll`. -/
theorem mkdirAll_file_iff (env : Env) (s : FS) (dir : Str) (q : AbsPath) (c : Str) :
    (mkdirAll env s dir).2.get q = some (Node.file c) ↔ s.get q = some (Node.file c) := by
  have h := mkdirAll_spec env s dir
  cases hq : s.get q with
  | some n => rw [h.2.1 q (by simp [hq])]; rw [hq]
  | none =>
    rcases h.2.2.1 q hq with h1 | ⟨h1, _⟩ <;> simp [h1]

/-- What lies strictly beneath the target is left alone by `os.MkdirAll`. -/
theorem mkdirAll_get_child (env : Env) (s : FS) (dir : Str) (n : Str) :
    (mkdirAll env s dir).2.get (resolve s.cwd dir ++ [n]) = s.get (resolve s.cwd dir ++ [n]) := by
  have h := mkdirAll_spec env s dir
  cases hq : s.get (resolve s.cwd dir ++ [n]) with
  | some m => rw [h.2.1 (resolve s.cwd dir ++ [n]) (by simp [hq]), hq]
  | none =>
    rcases h.2.2.1 _ hq with h1 | ⟨_, h2⟩
    · exact h1
    · have := h2.length_le
      simp at this

theorem mkdirAll_of_dir (env : Env) (s : FS) (dir : Str) (hd : dir ≠ [])
    (hget : s.get (resolve s.cwd dir) = some Node.dir)
    (hf : env.mkdirAll (resolve s.cwd dir) = none) : mkdirAll env s dir = (none, s) := by
  unfold mkdirAll
  rw [if_neg hd, hf]
  simp only []
  cases hr : (resolve s.cwd dir).reverse with
  | nil => rfl
  | cons c parent =>
    have : (c :: parent).reverse = resolve s.cwd dir := by
      rw [← hr, List.reverse_reverse]
    unfold mkdirAllRev
    rw [this, hget]

theorem readDir_ok (env : Env) (s : FS) (dir : Str) (l : List Str)
    (h : readDir env s dir = Except.ok l) :
    dir ≠ [] ∧ s.get (resolve s.cwd dir) = some Node.dir
      ∧ env.readDir (resolve s.cwd dir) = none ∧ l = s.children (resolve s.cwd dir) := by
  unfold readDir at h
  by_cases hd : dir = []
  · rw [if_pos hd] at h; cases h
  · rw [if_neg hd] at h
    cases hg : s.get (resolve s.cwd dir) with
    | none => rw [hg] at h; cases h
    | some n =>
      rw [hg] at h
      cases n with
      | file c => cases h
      | dir =>
        simp only [] at h
        cases hf : env.readDir (resolve s.cwd dir) with
        | some e => rw [hf] at h; cases h
        | none =>
          rw [hf] at h
          simp only [Except.ok.injEq] at h
          exact ⟨hd, rfl, rfl, h.symm⟩

theorem readDir_of_dir (env : Env) (s : FS) (dir : Str) (hd : dir ≠ [])
    (hget : s.get (resolve s.cwd dir) = some Node.dir)
    (hf : env.readDir (resolve s.cwd dir) = none) :
    readDir env s dir = Except.ok (s.children (resolve s.cwd dir)) := by
  unfold readDir
  rw [if_neg hd, hget]
  simp only [hf]

/-! ## The write loop -/

theorem writeEntries_skip (env : Env) (dir k v : Str) (rest : List (Str × Str)) (w : World)
    (rm : List Str) (h : isJson k = false) :
    writeEntries env dir ((k, v) :: rest) w rm = writeEntries env dir rest w rm := by
  have h' : Ext k ≠ jsonExt := by simpa [isJson] using h
  rw [writeEntries, if_pos h']

theorem writeEntries_json (env : Env) (dir k v : Str) (rest : List (Str × Str)) (w : World)
    (rm : List Str) (h : isJson k = true) :
    writeEntries env dir ((k, v) :: rest) w rm
      = writeEntries env dir rest (writeStep env dir k v w)
          (if writeFails env w.fs (Join [dir, k]) then rm else deleteName rm k) := by
  have h' : ¬ Ext k ≠ jsonExt := by simpa [isJson] using h
  rw [writeEntries, if_neg h']
  have hs := writeFile_isSome env w.fs (Join [dir, k]) v
  unfold writeStep
  cases hw : writeFile env w.fs (Join [dir, k]) v with
  | mk e1 s1 =>
    rw [hw] at hs
    cases e1 with
    | some e =>
      have : writeFails env w.fs (Join [dir, k]) = true := by simpa using hs.symm
      simp [this]
    | none =>
      have : writeFails env w.fs (Join [dir, k]) = false := by simpa using hs.symm
      simp [this]

theorem writeStep_sameDirs (env : Env) (dir k v : Str) (w : World) :
    SameDirs w.fs (writeStep env dir k v w).fs :=
  writeFile_sameDirs env w.fs _ v

theorem failedWrites_congr (env : Env) (s t : FS) (dir : Str) (entries : List (Str × Str))
    (h : SameDirs s t) : failedWrites env s dir entries = failedWrites env t dir entries := by
  unfold failedWrites
  congr 1
  funext e
  rw [writeFails_congr env s t _ h]

theorem writeEntries_sameDirs (env : Env) (dir : Str) (entries : List (Str × Str)) (w : World)
    (rm : List Str) : SameDirs w.fs (writeEntries env dir entries w rm).1.fs := by
  induction entries generalizing w rm with
  | nil => exact sameDirs_refl _
  | cons e rest ih =>
    obtain ⟨k, v⟩ := e
    cases hj : isJson k with
    | false => rw [writeEntries_skip env dir k v rest w rm hj]; exact ih w rm
    | true =>
      rw [writeEntries_json env dir k v rest w rm hj]
      exact (writeStep_sameDirs env dir k v w).trans (ih _ _)

theorem writeEntries_deleteErrors (env : Env) (dir : Str) (entries : List (Str × Str))
    (w : World) (rm : List Str) :
    (writeEntries env dir entries w rm).1.deleteErrors = w.deleteErrors := by
  induction entries generalizing w rm with
  | nil => rfl
  | cons e rest ih =>
    obtain ⟨k, v⟩ := e
    cases hj : isJson k with
    | false => rw [writeEntries_skip env dir k v rest w rm hj]; exact ih w rm
    | true =>
      rw [writeEntries_json env dir k v rest w rm hj, ih]
      rfl

/-- The create-error counter grows by one for each `.json` entry whose write
fails. -/
theorem writeEntries_createErrors (env : Env) (dir : Str) (entries : List (Str × Str))
    (w : World) (rm : List Str) :
    (writeEntries env dir entries w rm).1.createErrors
      = w.createErrors + (failedWrites env w.fs dir entries).length := by
  induction entries generalizing w rm with
  | nil => rfl
  | cons e rest ih =>
    obtain ⟨k, v⟩ := e
    cases hj : isJson k with
    | false =>
      rw [writeEntries_skip env dir k v rest w rm hj, ih]
      simp [failedWrites, hj]
    | true =>
      rw [writeEntries_json env dir k v rest w rm hj, ih,
        ← failedWrites_congr env w.fs _ dir rest (writeStep_sameDirs env dir k v w)]
      cases hf : writeFails env w.fs (Join [dir, k]) with
      | false => simp [failedWrites, writeStep, hj, hf]
      | true =>
        simp only [failedWrites, writeStep, hj, hf, if_true, List.filter_cons, Bool.and_self,
          List.length_cons]
        omega

/-- A name is still in `filesToRemove` after the loop when it was there before
and no `.json` entry of that name was written. -/
theorem writeEntries_mem (env : Env) (dir : Str) (entries : List (Str × Str)) (w : World)
    (rm : List Str) (f : Str) :
    f ∈ (writeEntries env dir entries w rm).2 ↔
      f ∈ rm ∧ ∀ e ∈ entries, e.1 = f → isJson e.1 = true →
        writeFails env w.fs (Join [dir, e.1]) = true := by
  induction entries generalizing w rm with
  | nil => simp [writeEntries]
  | cons e rest ih =>
    obtain ⟨k, v⟩ := e
    cases hj : isJson k with
    | false =>
      rw [writeEntries_skip env dir k v rest w rm hj, ih]
      constructor
      · rintro ⟨h1, h2⟩
        refine ⟨h1, fun e he => ?_⟩
        rcases List.mem_cons.1 he with h | h
        · subst h
          intro _ hjj
          rw [hj] at hjj
          cases hjj
        · exact h2 e h
      · rintro ⟨h1, h2⟩
        exact ⟨h1, fun e he => h2 e (List.mem_cons_of_mem _ he)⟩
    | true =>
      rw [writeEntries_json env dir k v rest w rm hj, ih]
      have hcongr : ∀ p, writeFails env (writeStep env dir k v w).fs p = writeFails env w.fs p :=
        fun p => (writeFails_congr env _ _ p (writeStep_sameDirs env dir k v w)).symm
      simp only [hcongr]
      cases hf : writeFails env w.fs (Join [dir, k]) with
      | true =>
        simp only [if_true]
        constructor
        · rintro ⟨h1, h2⟩
          refine ⟨h1, fun e he => ?_⟩
          rcases List.mem_cons.1 he with h | h
          · subst h
            intro _ _
            exact hf
          · exact h2 e h
        · rintro ⟨h1, h2⟩
          exact ⟨h1, fun e he => h2 e (List.mem_cons_of_mem _ he)⟩
      | false =>
        simp only [Bool.false_eq_true, if_false, deleteName, List.mem_filter,
          decide_eq_true_eq]
        constructor
        · rintro ⟨⟨h1, hne⟩, h2⟩
          refine ⟨h1, fun e he => ?_⟩
          rcases List.mem_cons.1 he with h | h
          · subst h
            intro hk
            exact absurd hk.symm hne
          · exact h2 e h
        · rintro ⟨h1, h2⟩
          refine ⟨⟨h1, fun hfk => ?_⟩, fun e he => h2 e (List.mem_cons_of_mem _ he)⟩
          have := h2 (k, v) (List.mem_cons_self _ _) hfk.symm hj
          rw [hf] at this
          cases this

theorem writeEntries_nodup (env : Env) (dir : Str) (entries : List (Str × Str)) (w : World)
    (rm : List Str) (h : rm.Nodup) : (writeEntries env dir entries w rm).2.Nodup := by
  induction entries generalizing w rm with
  | nil => exact h
  | cons e rest ih =>
    obtain ⟨k, v⟩ := e
    cases hj : isJson k with
    | false => rw [writeEntries_skip env dir k v rest w rm hj]; exact ih w rm h
    | true =>
      rw [writeEntries_json env dir k v rest w rm hj]
      apply ih
      split
      · exact h
      · exact h.filter _

/-- A path no `.json` entry resolves to is left alone by the write loop. -/
theorem writeEntries_get_other (env : Env) (dir : Str) (entries : List (Str × Str))
    (w : World) (rm : List Str) (q : AbsPath)
    (hq : ∀ e ∈ entries, isJson e.1 = true → resolve w.fs.cwd (Join [dir, e.1]) ≠ q) :
    (writeEntries env dir entries w rm).1.fs.get q = w.fs.get q := by
  induction entries generalizing w rm with
  | nil => rfl
  | cons e rest ih =>
    obtain ⟨k, v⟩ := e
    cases hj : isJson k with
    | false =>
      rw [writeEntries_skip env dir k v rest w rm hj]
      exact ih w rm (fun e he => hq e (List.mem_cons_of_mem _ he))
    | true =>
      rw [writeEntries_json env dir k v rest w rm hj]
      have hcwd : (writeStep env dir k v w).fs.cwd = w.fs.cwd := writeFile_cwd _ _ _ _
      rw [ih _ _ (fun e he => by rw [hcwd]; exact hq e (List.mem_cons_of_mem _ he))]
      exact writeFile_get_other env w.fs _ v q
        (fun e => hq (k, v) (List.mem_cons_self _ _) hj e.symm)

theorem writeFile_fst_eq_none_iff (env : Env) (s : FS) (p data : Str) :
    (writeFile env s p data).1 = none ↔ writeFails env s p = false := by
  rw [← writeFile_isSome env s p data]
  cases (writeFile env s p data).1 <;> simp

/-- After the loop a `.json` entry without separators whose write succeeded is a
file of the directory holding the entry's content. -/
theorem writeEntries_get_written (env : Env) (dir : Str) (entries : List (Str × Str))
    (w : World) (rm : List Str) (hd : dir ≠ [])
    (hkeys : ∀ e ∈ entries, isJson e.1 = true → '/' ∉ e.1)
    (hnd : (entries.map Prod.fst).Nodup) (k v : Str) (hmem : (k, v) ∈ entries)
    (hj : isJson k = true) (hok : writeFails env w.fs (Join [dir, k]) = false) :
    (writeEntries env dir entries w rm).1.fs.get (resolve w.fs.cwd dir ++ [k])
      = some (Node.file v) := by
  induction entries generalizing w rm with
  | nil => cases hmem
  | cons e rest ih =>
    obtain ⟨k0, v0⟩ := e
    have hnd' : (rest.map Prod.fst).Nodup := (List.nodup_cons.1 (by simpa using hnd)).2
    have hk0 : k0 ∉ rest.map Prod.fst := (List.nodup_cons.1 (by simpa using hnd)).1
    have hkeys' : ∀ e ∈ rest, isJson e.1 = true → '/' ∉ e.1 :=
      fun e he => hkeys e (List.mem_cons_of_mem _ he)
    rcases List.mem_cons.1 hmem with hhead | htail
    · obtain ⟨rfl, rfl⟩ := Prod.mk.inj hhead
      rw [writeEntries_json env dir k v rest w rm hj]
      have hplain := plainName_of_json k (by simpa [isJson] using hj)
        (hkeys (k, v) (List.mem_cons_self _ _) hj)
      have hcwd : (writeStep env dir k v w).fs.cwd = w.fs.cwd := writeFile_cwd _ _ _ _
      rw [writeEntries_get_other]
      · rcases writeFile_cases env w.fs (Join [dir, k]) v with ⟨_, h2⟩ | ⟨h1, _⟩
        · simp only [writeStep, h2, FS.get_put, resolve_Join_child w.fs.cwd dir k hd hplain]
          simp
        · rw [hok] at h1; cases h1
      · intro e he hje
        rw [hcwd, resolve_Join_child w.fs.cwd dir e.1 hd
          (plainName_of_json e.1 (by simpa [isJson] using hje) (hkeys' e he hje))]
        intro heq
        have : e.1 = k := by simpa using heq
        exact hk0 (this ▸ List.mem_map_of_mem Prod.fst he)
    · cases hj0 : isJson k0 with
      | false =>
        rw [writeEntries_skip env dir k0 v0 rest w rm hj0]
        exact ih w rm hkeys' hnd' htail hok
      | true =>
        rw [writeEntries_json env dir k0 v0 rest w rm hj0]
        have hcwd : (writeStep env dir k0 v0 w).fs.cwd = w.fs.cwd := writeFile_cwd _ _ _ _
        have := ih (writeStep env dir k0 v0 w)
          (if writeFails env w.fs (Join [dir, k0]) then rm else deleteName rm k0) hkeys' hnd'
          htail (by
            rw [← writeFails_congr env _ _ _ (writeStep_sameDirs env dir k0 v0 w)]
            exact hok)
        rw [hcwd] at this
        exact this

/-- The calls of the write loop: one `ioutil.WriteFile` per `.json` entry, with
the entry's path and content, and nothing else. -/
theorem writeEntries_calls (env : Env) (dir : Str) (entries : List (Str × Str)) (w : World)
    (rm : List Str) :
    ∃ new, (writeEntries env dir entries w rm).1.calls = w.calls ++ new
      ∧ (∀ c ∈ new, ∃ e ∈ entries, isJson e.1 = true ∧ ∃ err,
            c = Call.writeFile (Join [dir, e.1]) e.2 err
              ∧ (err = none ↔ writeFails env w.fs (Join [dir, e.1]) = false))
      ∧ (∀ e ∈ entries, isJson e.1 = true → ∃ err,
            Call.writeFile (Join [dir, e.1]) e.2 err ∈ new
              ∧ (err = none ↔ writeFails env w.fs (Join [dir, e.1]) = false)) := by
  induction entries generalizing w rm with
  | nil => exact ⟨[], by simp [writeEntries], by simp, by simp⟩
  | cons e rest ih =>
    obtain ⟨k, v⟩ := e
    cases hj : isJson k with
    | false =>
      rw [writeEntries_skip env dir k v rest w rm hj]
      obtain ⟨new, h1, h2, h3⟩ := ih w rm
      refine ⟨new, h1, ?_, ?_⟩
      · intro c hc
        obtain ⟨e, he, r⟩ := h2 c hc
        exact ⟨e, List.mem_cons_of_mem _ he, r⟩
      · intro e he hje
        rcases List.mem_cons.1 he with h | h
        · subst h
          rw [hj] at hje
          cases hje
        · exact h3 e h hje
    | true =>
      rw [writeEntries_json env dir k v rest w rm hj]
      obtain ⟨new, h1, h2, h3⟩ := ih (writeStep env dir k v w)
        (if writeFails env w.fs (Join [dir, k]) then rm else deleteName rm k)
      have hcongr : ∀ p, writeFails env (writeStep env dir k v w).fs p = writeFails env w.fs p :=
        fun p => (writeFails_congr env _ _ p (writeStep_sameDirs env dir k v w)).symm
      simp only [hcongr] at h2 h3
      refine ⟨Call.writeFile (Join [dir, k]) v (writeFile env w.fs (Join [dir, k]) v).1 :: new,
        ?_, ?_, ?_⟩
      · rw [h1]
        simp [writeStep]
      · intro c hc
        rcases List.mem_cons.1 hc with h | h
        · exact ⟨(k, v), List.mem_cons_self _ _, hj, _, h, writeFile_fst_eq_none_iff _ _ _ _⟩
        · obtain ⟨e, he, r⟩ := h2 c h
          exact ⟨e, List.mem_cons_of_mem _ he, r⟩
      · intro e he hje
        rcases List.mem_cons.1 he with h | h
        · subst h
          exact ⟨_, List.mem_cons_self _ _, writeFile_fst_eq_none_iff _ _ _ _⟩
        · obtain ⟨err, r1, r2⟩ := h3 e h hje
          exact ⟨err, List.mem_cons_of_mem _ r1, r2⟩

/-! ## The removal loop -/

theorem removeFiles_cons (env : Env) (dir f : Str) (rest : List Str) (w : World) :
    removeFiles env dir (f :: rest) w = removeFiles env dir rest (removeStep env dir f w) := by
  rw [removeFiles]
  unfold removeStep
  rcases remove_cases env w.fs (Join [dir, f]) with ⟨h1, h2⟩ | ⟨h1, e, h2⟩
  · simp [h1, h2]
  · simp [h1, h2]

theorem remove_fst_eq_none_iff (env : Env) (s : FS) (p : Str) :
    (remove env s p).1 = none ↔ removeFails env s p = false := by
  unfold removeFails
  cases (remove env s p).1 <;> simp

/-- Removing one entry does not change whether removing another one fails. -/
theorem removeFails_step (env : Env) (s : FS) (dir f g : Str) (hd : dir ≠ [])
    (hf : PlainName f) (hg : PlainName g) (hne : g ≠ f) :
    removeFails env (remove env s (Join [dir, f])).2 (Join [dir, g])
      = removeFails env s (Join [dir, g]) := by
  rcases remove_cases env s (Join [dir, f]) with ⟨_, h2⟩ | ⟨_, e, h2⟩
  · rw [h2]
    simp only
    have hpath : resolve s.cwd dir ++ [g] ≠ resolve s.cwd dir ++ [f] := by simpa using hne
    have key : removeFails env (s.erase (resolve s.cwd (Join [dir, f]))) (Join [dir, g]) = false
        ↔ removeFails env s (Join [dir, g]) = false := by
      rw [removeFails_child env _ dir g hd hg, removeFails_child env s dir g hd hg]
      have hcwd : (s.erase (resolve s.cwd (Join [dir, f]))).cwd = s.cwd := rfl
      rw [hcwd, resolve_Join_child s.cwd dir f hd hf, FS.get_erase,
        if_neg (by simp), if_neg hpath, FS.hasBelow_erase]
      rintro ⟨h, _⟩
      have := h.eq_of_length (by simp)
      exact hpath this
    cases h1 : removeFails env (s.erase (resolve s.cwd (Join [dir, f]))) (Join [dir, g]) <;>
      cases h3 : removeFails env s (Join [dir, g]) <;> simp_all
  · rw [h2]

theorem removeFiles_cwd (env : Env) (dir : Str) (names : List Str) (w : World) :
    (removeFiles env dir names w).fs.cwd = w.fs.cwd := by
  induction names generalizing w with
  | nil => rfl
  | cons f rest ih =>
    rw [removeFiles_cons, ih]
    exact remove_cwd env w.fs _

theorem removeFiles_createErrors (env : Env) (dir : Str) (names : List Str) (w : World) :
    (removeFiles env dir names w).createErrors = w.createErrors := by
  induction names generalizing w with
  | nil => rfl
  | cons f rest ih =>
    rw [removeFiles_cons, ih]
    rfl

theorem failedRemoves_step (env : Env) (dir f : Str) (rest : List Str) (w : World)
    (hd : dir ≠ []) (hplain : ∀ g ∈ f :: rest, PlainName g) (hnd : (f :: rest).Nodup) :
    failedRemoves env (removeStep env dir f w).fs dir rest = failedRemoves env w.fs dir rest := by
  unfold failedRemoves
  apply List.filter_congr
  intro g hg
  have hne : g ≠ f := fun e => (List.nodup_cons.1 hnd).1 (e ▸ hg)
  exact removeFails_step env w.fs dir f g hd (hplain f (List.mem_cons_self _ _))
    (hplain g (List.mem_cons_of_mem _ hg)) hne

/-- The delete-error counter grows by one for each name whose removal fails. -/
theorem removeFiles_deleteErrors (env : Env) (dir : Str) (names : List Str) (w : World)
    (hd : dir ≠ []) (hplain : ∀ g ∈ names, PlainName g) (hnd : names.Nodup) :
    (removeFiles env dir names w).deleteErrors
      = w.deleteErrors + (failedRemoves env w.fs dir names).length := by
  induction names generalizing w with
  | nil => rfl
  | cons f rest ih =>
    rw [removeFiles_cons, ih _ (fun g hg => hplain g (List.mem_cons_of_mem _ hg))
      (List.nodup_cons.1 hnd).2, failedRemoves_step env dir f rest w hd hplain hnd]
    cases hf : removeFails env w.fs (Join [dir, f]) with
    | false => simp [failedRemoves, removeStep, hf]
    | true =>
      simp only [failedRemoves, removeStep, hf, if_true, List.filter_cons, List.length_cons]
      omega

/-- A path that is not an entry removed with success is left alone by the
removal loop. -/
theorem removeFiles_get_other (env : Env) (dir : Str) (names : List Str) (w : World)
    (hd : dir ≠ []) (hplain : ∀ g ∈ names, PlainName g) (hnd : names.Nodup) (q : AbsPath)
    (hq : ∀ f ∈ names, removeFails env w.fs (Join [dir, f]) = false →
      q ≠ resolve w.fs.cwd dir ++ [f]) :
    (removeFiles env dir names w).fs.get q = w.fs.get q := by
  induction names generalizing w with
  | nil => rfl
  | cons f rest ih =>
    have hcwd : (removeStep env dir f w).fs.cwd = w.fs.cwd := remove_cwd env w.fs _
    have hpf := hplain f (List.mem_cons_self _ _)
    rw [removeFiles_cons, ih _ (fun g hg => hplain g (List.mem_cons_of_mem _ hg))
      (List.nodup_cons.1 hnd).2]
    · rcases remove_cases env w.fs (Join [dir, f]) with ⟨h1, h2⟩ | ⟨_, e, h2⟩
      · have hne := hq f (List.mem_cons_self _ _) h1
        simp only [removeStep, h2, FS.get_erase, resolve_Join_child w.fs.cwd dir f hd hpf]
        by_cases h0 : q = []
        · simp [h0, FS.get]
        · rw [if_neg h0, if_neg hne]
      · simp only [removeStep, h2]
    · intro g hg hfail
      rw [hcwd]
      have hne : g ≠ f := fun e => (List.nodup_cons.1 hnd).1 (e ▸ hg)
      refine hq g (List.mem_cons_of_mem _ hg) ?_
      rw [← removeFails_step env w.fs dir f g hd hpf (hplain g (List.mem_cons_of_mem _ hg)) hne]
      exact hfail

/-- A name whose removal succeeds is gone after the removal loop. -/
theorem removeFiles_get_removed (env : Env) (dir : Str) (names : List Str) (w : World)
    (hd : dir ≠ []) (hplain : ∀ g ∈ names, PlainName g) (hnd : names.Nodup) (f : Str)
    (hf : f ∈ names) (hok : removeFails env w.fs (Join [dir, f]) = false) :
    (removeFiles env dir names w).fs.get (resolve w.fs.cwd dir ++ [f]) = none := by
  induction names generalizing w with
  | nil => cases hf
  | cons f0 rest ih =>
    have hcwd : (removeStep env dir f0 w).fs.cwd = w.fs.cwd := remove_cwd env w.fs _
    have hpf0 := hplain f0 (List.mem_cons_self _ _)
    have hplain' : ∀ g ∈ rest, PlainName g := fun g hg => hplain g (List.mem_cons_of_mem _ hg)
    rw [removeFiles_cons]
    rcases List.mem_cons.1 hf with h | h
    · subst h
      rw [removeFiles_get_other env dir rest _ hd hplain' (List.nodup_cons.1 hnd).2]
      · rcases remove_cases env w.fs (Join [dir, f]) with ⟨_, h2⟩ | ⟨h1, _⟩
        · simp only [removeStep, h2, FS.get_erase, resolve_Join_child w.fs.cwd dir f hd hpf0]
          simp
        · rw [hok] at h1; cases h1
      · intro g hg _
        rw [hcwd]
        intro heq
        have : f = g := by simpa using heq
        exact (List.nodup_cons.1 hnd).1 (this ▸ hg)
    · have hne : f ≠ f0 := fun e => (List.nodup_cons.1 hnd).1 (e ▸ h)
      have := ih (removeStep env dir f0 w) hplain' (List.nodup_cons.1 hnd).2 h (by
        show removeFails env (remove env w.fs (Join [dir, f0])).2 (Join [dir, f]) = false
        rw [removeFails_step env w.fs dir f0 f hd hpf0 (hplain f hf) hne]
        exact hok)
      rw [hcwd] at this
      exact this

/-- The calls of the removal loop: one `os.Remove` per name, and nothing else. -/
theorem removeFiles_calls (env : Env) (dir : Str) (names : List Str) (w : World)
    (hd : dir ≠ []) (hplain : ∀ g ∈ names, PlainName g) (hnd : names.Nodup) :
    ∃ new, (removeFiles env dir names w).calls = w.calls ++ new
      ∧ (∀ c ∈ new, ∃ f ∈ names, ∃ err, c = Call.remove (Join [dir, f]) err
            ∧ (err = none ↔ removeFails env w.fs (Join [dir, f]) = false))
      ∧ (∀ f ∈ names, ∃ err, Call.remove (Join [dir, f]) err ∈ new
            ∧ (err = none ↔ removeFails env w.fs (Join [dir, f]) = false)) := by
  induction names generalizing w with
  | nil => exact ⟨[], by simp [removeFiles], by simp, by simp⟩
  | cons f rest ih =>
    have hpf := hplain f (List.mem_cons_self _ _)
    rw [removeFiles_cons]
    obtain ⟨new, h1, h2, h3⟩ := ih (removeStep env dir f w)
      (fun g hg => hplain g (List.mem_cons_of_mem _ hg)) (List.nodup_cons.1 hnd).2
    refine ⟨Call.remove (Join [dir, f]) (remove env w.fs (Join [dir, f])).1 :: new, ?_, ?_, ?_⟩
    · rw [h1]
      simp [removeStep]
    · intro c hc
      rcases List.mem_cons.1 hc with h | h
      · exact ⟨f, List.mem_cons_self _ _, _, h, remove_fst_eq_none_iff _ _ _⟩
      · obtain ⟨g, hg, err, r1, r2⟩ := h2 c h
        have hne : g ≠ f := fun e => (List.nodup_cons.1 hnd).1 (e ▸ hg)
        refine ⟨g, List.mem_cons_of_mem _ hg, err, r1, ?_⟩
        rw [r2]
        show removeFails env (remove env w.fs (Join [dir, f])).2 (Join [dir, g]) = false ↔ _
        rw [removeFails_step env w.fs dir f g hd hpf
          (hplain g (List.mem_cons_of_mem _ hg)) hne]
    · intro g hg
      rcases List.mem_cons.1 hg with h | h
      · subst h
        exact ⟨_, List.mem_cons_self _ _, remove_fst_eq_none_iff _ _ _⟩
      · obtain ⟨err, r1, r2⟩ := h3 g h
        have hne : g ≠ f := fun e => (List.nodup_cons.1 hnd).1 (e ▸ h)
        refine ⟨err, List.mem_cons_of_mem _ r1, ?_⟩
        rw [r2]
        show removeFails env (remove env w.fs (Join [dir, f])).2 (Join [dir, g]) = false ↔ _
        rw [removeFails_step env w.fs dir f g hd hpf (hplain g hg) hne]

/-! ## The structure of `addConfigMap` -/

theorem mem_foldl_insertName (l acc : List Str) (x : Str) :
    x ∈ l.foldl insertName acc ↔ x ∈ acc ∨ x ∈ l := by
  induction l generalizing acc with
  | nil => simp
  | cons a rest ih =>
    rw [List.foldl_cons, ih]
    unfold insertName
    split
    · rename_i h
      constructor
      · rintro (h1 | h1)
        · exact Or.inl h1
        · exact Or.inr (List.mem_cons_of_mem _ h1)
      · rintro (h1 | h1)
        · exact Or.inl h1
        · rcases List.mem_cons.1 h1 with h2 | h2
          · exact Or.inl (h2 ▸ h)
          · exact Or.inr h2
    · simp only [List.mem_append, List.mem_singleton, List.mem_cons]
      tauto

theorem nodup_foldl_insertName (l acc : List Str) (h : acc.Nodup) :
    (l.foldl insertName acc).Nodup := by
  induction l generalizing acc with
  | nil => exact h
  | cons a rest ih =>
    rw [List.foldl_cons]
    apply ih
    unfold insertName
    split
    · exact h
    · rename_i hna
      rw [List.nodup_append]
      refine ⟨h, List.nodup_singleton a, ?_⟩
      intro x hx hxa
      simp only [List.mem_singleton] at hxa
      exact hna (hxa ▸ hx)

theorem rangeOrder_perm (env : Env) (keys : List Str) : (rangeOrder env keys).Perm keys :=
  List.perm_insertionSort _ _

theorem madeFS_cwd (env : Env) (outdir : Str) (cm : ConfigMap) (w : World) :
    (madeFS env outdir cm w).cwd = w.fs.cwd :=
  (mkdirAll_spec env w.fs (dirOf outdir cm)).1

/-- The three ways through `addConfigMap`: the directory cannot be made, it
cannot be listed, or both loops run. -/
theorem addConfigMap_cases (env : Env) (outdir : Str) (cm : ConfigMap) (w : World) :
    (∃ e, (mkdirAll env w.fs (dirOf outdir cm)).1 = some e ∧ setupError env outdir cm w = some e
        ∧ addConfigMap env outdir cm w
          = (some e, { w with fs := madeFS env outdir cm w,
                              createErrors := w.createErrors + 1,
                              calls := w.calls ++ [Call.mkdirAll (dirOf outdir cm) (some e)] }))
    ∨ (∃ e, (mkdirAll env w.fs (dirOf outdir cm)).1 = none
        ∧ readDir env (madeFS env outdir cm w) (dirOf outdir cm) = Except.error e
        ∧ setupError env outdir cm w = some e
        ∧ addConfigMap env outdir cm w
          = (some e, { w with fs := madeFS env outdir cm w,
                              createErrors := w.createErrors + 1,
                              calls := w.calls ++ [Call.mkdirAll (dirOf outdir cm) none,
                                Call.readDir (dirOf outdir cm) (some e)] }))
    ∨ ((mkdirAll env w.fs (dirOf outdir cm)).1 = none
        ∧ dirOf outdir cm ≠ []
        ∧ (madeFS env outdir cm w).get (resolve w.fs.cwd (dirOf outdir cm)) = some Node.dir
        ∧ env.readDir (resolve w.fs.cwd (dirOf outdir cm)) = none
        ∧ setupError env outdir cm w = none
        ∧ addConfigMap env outdir cm w
          = (none, removeFiles env (dirOf outdir cm) (staleOrder env outdir cm w)
              (afterWrites env outdir cm w).1)) := by
  unfold addConfigMap setupError staleOrder afterWrites loopStart listed madeFS
  cases hmk : mkdirAll env w.fs (dirOf outdir cm) with
  | mk e1 s1 =>
    cases e1 with
    | some e => exact Or.inl ⟨e, rfl, rfl, rfl⟩
    | none =>
      right
      simp only []
      cases hrd : readDir env s1 (dirOf outdir cm) with
      | error e => exact Or.inl ⟨e, trivial, rfl, rfl, rfl⟩
      | ok l =>
        right
        have hcwd : s1.cwd = w.fs.cwd := by
          have := (mkdirAll_spec env w.fs (dirOf outdir cm)).1
          rw [hmk] at this
          exact this
        obtain ⟨h1, h2, h3, h4⟩ := readDir_ok env s1 _ l hrd
        rw [hcwd] at h2 h3 h4
        subst h4
        exact ⟨trivial, h1, h2, h3, rfl, rfl⟩

theorem namesOK_of_validNames (s : FS) (d : AbsPath) (h : s.ValidNames) : NamesOK s d := by
  intro n hn
  have hne : d ++ [n] ≠ [] := by simp
  unfold FS.get at hn
  rw [if_neg hne, lookupNode_ne_none] at hn
  obtain ⟨m, hm⟩ := hn
  exact h.2 _ hm n (by simp)

theorem listed_mem (env : Env) (outdir : Str) (cm : ConfigMap) (w : World) (n : Str) :
    n ∈ listed env outdir cm w ↔ w.fs.get (resolve w.fs.cwd (dirOf outdir cm) ++ [n]) ≠ none := by
  unfold listed madeFS
  rw [mem_foldl_insertName, FS.mem_children, mkdirAll_get_child]
  simp

theorem listed_nodup (env : Env) (outdir : Str) (cm : ConfigMap) (w : World) :
    (listed env outdir cm w).Nodup :=
  nodup_foldl_insertName _ _ List.nodup_nil

theorem afterWrites_sameDirs (env : Env) (outdir : Str) (cm : ConfigMap) (w : World) :
    SameDirs (madeFS env outdir cm w) (afterWrites env outdir cm w).1.fs :=
  writeEntries_sameDirs env _ cm.Data (loopStart env outdir cm w) _

theorem afterWrites_cwd (env : Env) (outdir : Str) (cm : ConfigMap) (w : World) :
    (afterWrites env outdir cm w).1.fs.cwd = w.fs.cwd :=
  (afterWrites_sameDirs env outdir cm w).1.symm.trans (madeFS_cwd env outdir cm w)

/-- The names the removal loop visits: the entries the directory had, except
those a `.json` entry of the ConfigMap was written to. -/
theorem staleOrder_mem (env : Env) (outdir : Str) (cm : ConfigMap) (w : World) (f : Str) :
    f ∈ staleOrder env outdir cm w ↔
      w.fs.get (resolve w.fs.cwd (dirOf outdir cm) ++ [f]) ≠ none
        ∧ ∀ e ∈ cm.Data, e.1 = f → isJson e.1 = true →
            writeFails env (madeFS env outdir cm w) (Join [dirOf outdir cm, e.1]) = true := by
  unfold staleOrder afterWrites
  rw [(rangeOrder_perm env _).mem_iff, writeEntries_mem, listed_mem]
  rfl

theorem staleOrder_nodup (env : Env) (outdir : Str) (cm : ConfigMap) (w : World) :
    (staleOrder env outdir cm w).Nodup :=
  (rangeOrder_perm env _).nodup_iff.2
    (writeEntries_nodup env _ cm.Data _ _ (listed_nodup env outdir cm w))

theorem staleOrder_plain (env : Env) (outdir : Str) (cm : ConfigMap) (w : World)
    (hnames : NamesOK w.fs (resolve w.fs.cwd (dirOf outdir cm))) :
    ∀ g ∈ staleOrder env outdir cm w, PlainName g :=
  fun g hg => hnames g ((staleOrder_mem env outdir cm w g).1 hg).1

theorem afterWrites_createErrors (env : Env) (outdir : Str) (cm : ConfigMap) (w : World) :
    (afterWrites env outdir cm w).1.createErrors
      = w.createErrors
        + (failedWrites env (madeFS env outdir cm w) (dirOf outdir cm) cm.Data).length :=
  writeEntries_createErrors env _ cm.Data (loopStart env outdir cm w) _

theorem afterWrites_deleteErrors (env : Env) (outdir : Str) (cm : ConfigMap) (w : World) :
    (afterWrites env outdir cm w).1.deleteErrors = w.deleteErrors :=
  writeEntries_deleteErrors env _ cm.Data (loopStart env outdir cm w) _

/-- The path of a `.json` entry without separators. -/
theorem resolve_json (cwd : AbsPath) (dir k : Str) (hd : dir ≠ []) (hj : isJson k = true)
    (hs : '/' ∉ k) : resolve cwd (Join [dir, k]) = resolve cwd dir ++ [k] :=
  resolve_Join_child cwd dir k hd (plainName_of_json k (by simpa [isJson] using hj) hs)

theorem failedWrites_nil_iff (env : Env) (s : FS) (dir : Str) (entries : List (Str × Str)) :
    (failedWrites env s dir entries).length = 0 ↔
      ∀ e ∈ entries, isJson e.1 = true → writeFails env s (Join [dir, e.1]) = false := by
  unfold failedWrites
  rw [List.length_eq_zero, List.filter_eq_nil_iff]
  simp

theorem failedRemoves_nil_iff (env : Env) (s : FS) (dir : Str) (names : List Str) :
    (failedRemoves env s dir names).length = 0 ↔
      ∀ f ∈ names, removeFails env s (Join [dir, f]) = false := by
  unfold failedRemoves
  rw [List.length_eq_zero, List.filter_eq_nil_iff]
  simp

theorem failedRemoves_pos (env : Env) (s : FS) (dir : Str) (names : List Str) (f : Str)
    (hf : f ∈ names) (hfail : removeFails env s (Join [dir, f]) = true) :
    1 ≤ (failedRemoves env s dir names).length := by
  have : f ∈ failedRemoves env s dir names := by
    unfold failedRemoves
    exact List.mem_filter.2 ⟨hf, hfail⟩
  exact List.length_pos_of_mem this

theorem failedWrites_pos (env : Env) (s : FS) (dir : Str) (entries : List (Str × Str))
    (e : Str × Str) (he : e ∈ entries) (hj : isJson e.1 = true)
    (hfail : writeFails env s (Join [dir, e.1]) = true) :
    1 ≤ (failedWrites env s dir entries).length := by
  have : e ∈ failedWrites env s dir entries := by
    unfold failedWrites
    exact List.mem_filter.2 ⟨he, by simp [hj, hfail]⟩
  exact List.length_pos_of_mem this

/-! ## A run of `addConfigMap` in which nothing fails -/

/-- The core of exact mirroring. When neither error counter moves, the call
returns `nil`, every `.json` entry is a file of the directory with the entry's
content, no other name is left in the directory, and nothing outside the
directory's entries changes after the directory was made. -/
theorem addConfigMap_mirror (env : Env) (outdir : Str) (cm : ConfigMap) (w : World)
    (hkeys : ∀ e ∈ cm.Data, isJson e.1 = true → '/' ∉ e.1)
    (hnd : (cm.Data.map Prod.fst).Nodup)
    (hnames : NamesOK w.fs (resolve w.fs.cwd (dirOf outdir cm)))
    (hc : (addConfigMap env outdir cm w).2.createErrors = w.createErrors)
    (hdel : (addConfigMap env outdir cm w).2.deleteErrors = w.deleteErrors) :
    (addConfigMap env outdir cm w).1 = none
      ∧ setupError env outdir cm w = none
      ∧ (addConfigMap env outdir cm w).2.fs.cwd = w.fs.cwd
      ∧ (∀ k v, (k, v) ∈ cm.Data → isJson k = true →
          (addConfigMap env outdir cm w).2.fs.get (resolve w.fs.cwd (dirOf outdir cm) ++ [k])
            = some (Node.file v))
      ∧ (∀ n, (∀ v, (n, v) ∈ cm.Data → isJson n = false) →
          (addConfigMap env outdir cm w).2.fs.get (resolve w.fs.cwd (dirOf outdir cm) ++ [n])
            = none)
      ∧ (∀ q, (∀ n, q ≠ resolve w.fs.cwd (dirOf outdir cm) ++ [n]) →
          (addConfigMap env outdir cm w).2.fs.get q = (madeFS env outdir cm w).get q) := by
  rcases addConfigMap_cases env outdir cm w with
    ⟨e, _, _, h⟩ | ⟨e, _, _, _, h⟩ | ⟨hmk, hD, hdir, hrd, hset, h⟩
  · rw [h] at hc
    simp at hc
  · rw [h] at hc
    simp at hc
  · rw [h] at hc hdel ⊢
    simp only at hc hdel ⊢
    have hcwd2 := afterWrites_cwd env outdir cm w
    have hLp := staleOrder_plain env outdir cm w hnames
    have hLn := staleOrder_nodup env outdir cm w
    have hcwd0 : (loopStart env outdir cm w).fs.cwd = w.fs.cwd := madeFS_cwd env outdir cm w
    rw [removeFiles_createErrors, afterWrites_createErrors] at hc
    rw [removeFiles_deleteErrors env _ _ _ hD hLp hLn, afterWrites_deleteErrors] at hdel
    have hW := (failedWrites_nil_iff env _ _ _).1 (by omega : (failedWrites env
      (madeFS env outdir cm w) (dirOf outdir cm) cm.Data).length = 0)
    have hR := (failedRemoves_nil_iff env _ _ _).1 (by omega : (failedRemoves env
      (afterWrites env outdir cm w).1.fs (dirOf outdir cm) (staleOrder env outdir cm w)).length
        = 0)
    have htarget : ∀ e ∈ cm.Data, isJson e.1 = true →
        resolve (loopStart env outdir cm w).fs.cwd (Join [dirOf outdir cm, e.1])
          = resolve w.fs.cwd (dirOf outdir cm) ++ [e.1] := by
      intro e he hje
      rw [hcwd0]
      exact resolve_json _ _ _ hD hje (hkeys e he hje)
    refine ⟨trivial, hset, ?_, ?_, ?_, ?_⟩
    · rw [removeFiles_cwd, hcwd2]
    · intro k v hkv hj
      rw [removeFiles_get_other env _ _ _ hD hLp hLn]
      · have := writeEntries_get_written env (dirOf outdir cm) cm.Data
          (loopStart env outdir cm w) (listed env outdir cm w) hD hkeys hnd k v hkv hj
          (hW (k, v) hkv hj)
        rw [hcwd0] at this
        exact this
      · intro f hf _
        rw [hcwd2]
        intro heq
        have hkf : k = f := by simpa using heq
        subst hkf
        have := ((staleOrder_mem env outdir cm w k).1 hf).2 (k, v) hkv rfl hj
        rw [hW (k, v) hkv hj] at this
        cases this
    · intro n hn
      by_cases hmem : n ∈ staleOrder env outdir cm w
      · have := removeFiles_get_removed env _ _ (afterWrites env outdir cm w).1 hD hLp hLn n
          hmem (hR n hmem)
        rw [hcwd2] at this
        exact this
      · rw [removeFiles_get_other env _ _ _ hD hLp hLn]
        · unfold afterWrites
          rw [writeEntries_get_other]
          · show (madeFS env outdir cm w).get _ = none
            unfold madeFS
            rw [mkdirAll_get_child]
            by_contra hne
            apply hmem
            rw [staleOrder_mem]
            refine ⟨hne, fun e he hen hje => ?_⟩
            have := hn e.2 (by rw [← hen]; exact he)
            rw [← hen, hje] at this
            cases this
          · intro e he hje
            rw [htarget e he hje]
            intro heq
            have hen : e.1 = n := by simpa using heq
            have := hn e.2 (by rw [← hen]; exact he)
            rw [← hen, hje] at this
            cases this
        · intro f hf _
          rw [hcwd2]
          intro heq
          have hnf : n = f := by simpa using heq
          exact hmem (hnf ▸ hf)
    · intro q hq
      rw [removeFiles_get_other env _ _ _ hD hLp hLn]
      · unfold afterWrites
        rw [writeEntries_get_other]
        · rfl
        · intro e he hje
          rw [htarget e he hje]
          exact fun heq => hq e.1 heq.symm
      · intro f _ _
        rw [hcwd2]
        exact hq f

theorem newCalls_append (w w' : World) (new : List Call) (h : w'.calls = w.calls ++ new) :
    newCalls w w' = new := by
  unfold newCalls
  rw [h, List.drop_left]

/-- The calls of a run that reaches the loops: `os.MkdirAll`, `ioutil.ReadDir`,
then the writes, then the removals. -/
theorem addConfigMap_calls (env : Env) (outdir : Str) (cm : ConfigMap) (w : World)
    (hset : setupError env outdir cm w = none)
    (hnames : NamesOK w.fs (resolve w.fs.cwd (dirOf outdir cm))) :
    ∃ newW newR,
      newCalls w (addConfigMap env outdir cm w).2
          = [Call.mkdirAll (dirOf outdir cm) none, Call.readDir (dirOf outdir cm) none]
              ++ newW ++ newR
        ∧ (∀ c ∈ newW, ∃ e ∈ cm.Data, isJson e.1 = true ∧ ∃ err,
              c = Call.writeFile (Join [dirOf outdir cm, e.1]) e.2 err
                ∧ (err = none ↔
                    writeFails env (madeFS env outdir cm w) (Join [dirOf outdir cm, e.1]) = false))
        ∧ (∀ e ∈ cm.Data, isJson e.1 = true → ∃ err,
              Call.writeFile (Join [dirOf outdir cm, e.1]) e.2 err ∈ newW
                ∧ (err = none ↔
                    writeFails env (madeFS env outdir cm w) (Join [dirOf outdir cm, e.1]) = false))
        ∧ (∀ c ∈ newR, ∃ f ∈ staleOrder env outdir cm w, ∃ err,
              c = Call.remove (Join [dirOf outdir cm, f]) err
                ∧ (err = none ↔
                    removeFails env (afterWrites env outdir cm w).1.fs
                      (Join [dirOf outdir cm, f]) = false))
        ∧ (∀ f ∈ staleOrder env outdir cm w, ∃ err,
              Call.remove (Join [dirOf outdir cm, f]) err ∈ newR
                ∧ (err = none ↔
                    removeFails env (afterWrites env outdir cm w).1.fs
                      (Join [dirOf outdir cm, f]) = false)) := by
  rcases addConfigMap_cases env outdir cm w with
    ⟨e, _, h1, _⟩ | ⟨e, _, _, h1, _⟩ | ⟨hmk, hD, hdir, hrd, _, h⟩
  · rw [hset] at h1; cases h1
  · rw [hset] at h1; cases h1
  · obtain ⟨newW, hw1, hw2, hw3⟩ := writeEntries_calls env (dirOf outdir cm) cm.Data
      (loopStart env outdir cm w) (listed env outdir cm w)
    obtain ⟨newR, hr1, hr2, hr3⟩ := removeFiles_calls env (dirOf outdir cm)
      (staleOrder env outdir cm w) (afterWrites env outdir cm w).1 hD
      (staleOrder_plain env outdir cm w hnames) (staleOrder_nodup env outdir cm w)
    refine ⟨newW, newR, ?_, hw2, hw3, hr2, hr3⟩
    apply newCalls_append
    rw [h]
    simp only
    rw [hr1]
    unfold afterWrites
    rw [hw1]
    simp [loopStart]

/-- A run all of whose calls succeed moves neither error counter. -/
theorem counters_of_calls_ok (env : Env) (outdir : Str) (cm : ConfigMap) (w : World)
    (hnames : NamesOK w.fs (resolve w.fs.cwd (dirOf outdir cm)))
    (hok : ∀ c ∈ newCalls w (addConfigMap env outdir cm w).2, c.err = none) :
    (addConfigMap env outdir cm w).2.createErrors = w.createErrors
      ∧ (addConfigMap env outdir cm w).2.deleteErrors = w.deleteErrors := by
  rcases addConfigMap_cases env outdir cm w with
    ⟨e, _, _, h⟩ | ⟨e, _, _, _, h⟩ | ⟨hmk, hD, hdir, hrd, hset, h⟩
  · have hn : newCalls w (addConfigMap env outdir cm w).2
        = [Call.mkdirAll (dirOf outdir cm) (some e)] := by
      apply newCalls_append; rw [h]
    have := hok (Call.mkdirAll (dirOf outdir cm) (some e)) (by rw [hn]; simp)
    cases this
  · have hn : newCalls w (addConfigMap env outdir cm w).2
        = [Call.mkdirAll (dirOf outdir cm) none, Call.readDir (dirOf outdir cm) (some e)] := by
      apply newCalls_append; rw [h]
    have := hok (Call.readDir (dirOf outdir cm) (some e)) (by rw [hn]; simp)
    cases this
  · obtain ⟨newW, newR, hn, _, hw, _, hr⟩ := addConfigMap_calls env outdir cm w hset hnames
    rw [hn] at hok
    have hLp := staleOrder_plain env outdir cm w hnames
    have hLn := staleOrder_nodup env outdir cm w
    have hW : (failedWrites env (madeFS env outdir cm w) (dirOf outdir cm) cm.Data).length = 0 := by
      rw [failedWrites_nil_iff]
      intro e he hje
      obtain ⟨err, hc, hiff⟩ := hw e he hje
      have := hok _ (List.mem_append_left _ (List.mem_append_right _ hc))
      exact hiff.1 this
    have hR : (failedRemoves env (afterWrites env outdir cm w).1.fs (dirOf outdir cm)
        (staleOrder env outdir cm w)).length = 0 := by
      rw [failedRemoves_nil_iff]
      intro f hf
      obtain ⟨err, hc, hiff⟩ := hr f hf
      have := hok _ (List.mem_append_right _ hc)
      exact hiff.1 this
    rw [h]
    simp only
    rw [removeFiles_createErrors, afterWrites_createErrors,
      removeFiles_deleteErrors env _ _ _ hD hLp hLn, afterWrites_deleteErrors, hW, hR]
    simp

/-- Claim C1 (exact mirroring). For every resource, every entry map whose keys hold no
path separator (and are distinct, as the keys of a Go map are) and every initial
file system with valid names, if no file system call of `addConfigMap` fails then
afterwards the resource's directory exists, the names of its entries are exactly
the keys with extension `.json`, and each such file holds the value of its key;
so whatever else was in the directory is gone. That the directory was absent or
held only regular files is not needed. -/
theorem addConfigMap_exact_mirror (env : Env) (outdir : Str) (cm : ConfigMap) (w : World)
    (hkeys : ∀ e ∈ cm.Data, '/' ∉ e.1)
    (hnd : (cm.Data.map Prod.fst).Nodup)
    (hvalid : w.fs.ValidNames)
    (hok : ∀ c ∈ newCalls w (addConfigMap env outdir cm w).2, c.err = none) :
    (addConfigMap env outdir cm w).2.fs.get (resolve w.fs.cwd (dirOf outdir cm))
        = some Node.dir
      ∧ (∀ n, n ∈ (addConfigMap env outdir cm w).2.fs.children
                (resolve w.fs.cwd (dirOf outdir cm))
            ↔ ∃ v, (n, v) ∈ cm.Data ∧ Ext n = jsonExt)
      ∧ (∀ k v, (k, v) ∈ cm.Data → Ext k = jsonExt →
          (addConfigMap env outdir cm w).2.fs.get (resolve w.fs.cwd (dirOf outdir cm) ++ [k])
            = some (Node.file v)) := by
  have hnames := namesOK_of_validNames w.fs (resolve w.fs.cwd (dirOf outdir cm)) hvalid
  obtain ⟨hc, hdel⟩ := counters_of_calls_ok env outdir cm w hnames hok
  obtain ⟨_, hset, _, hjson, hother, hframe⟩ := addConfigMap_mirror env outdir cm w
    (fun e he _ => hkeys e he) hnd hnames hc hdel
  refine ⟨?_, ?_, ?_⟩
  · rw [hframe _ (fun n => by simp)]
    rcases addConfigMap_cases env outdir cm w with
      ⟨e, _, h1, _⟩ | ⟨e, _, _, h1, _⟩ | ⟨_, _, hdir, _⟩
    · rw [hset] at h1; cases h1
    · rw [hset] at h1; cases h1
    · exact hdir
  · intro n
    rw [FS.mem_children]
    constructor
    · intro hne
      by_contra hno
      apply hne
      apply hother
      intro v hv
      cases hj : isJson n with
      | false => rfl
      | true => exact absurd ⟨v, hv, by simpa [isJson] using hj⟩ hno
    · rintro ⟨v, hv, hj⟩
      rw [hjson n v hv (by simpa [isJson] using hj)]
      simp
  · intro k v hkv hj
    exact hjson k v hkv (by simpa [isJson] using hj)

/-- Claim C1 at the scenario of the specification, started from a directory that
holds a stale dashboard and a text file. -/
theorem addConfigMap_exact_mirror_witness :
    (∀ e ∈ demoCM.Data, '/' ∉ e.1) ∧ (demoCM.Data.map Prod.fst).Nodup ∧ staleWorld.fs.ValidNames
      ∧ (∀ c ∈ newCalls staleWorld (addConfigMap calmEnv demoOut demoCM staleWorld).2,
          c.err = none)
      ∧ (addConfigMap calmEnv demoOut demoCM staleWorld).2.fs.get
          (resolve staleWorld.fs.cwd (dirOf demoOut demoCM) ++ ["a.json".toList])
            = some (Node.file "\x7b\x7d".toList) :=
  ⟨by decide, by decide, by decide, by decide,
    (addConfigMap_exact_mirror calmEnv demoOut demoCM staleWorld (by decide) (by decide)
      (by decide) (by decide)).2.2 "a.json".toList "\x7b\x7d".toList (by decide) (by decide)⟩

theorem mkdirAll_ok_fault (env : Env) (s : FS) (dir : Str)
    (h : (mkdirAll env s dir).1 = none) : env.mkdirAll (resolve s.cwd dir) = none := by
  unfold mkdirAll at h
  split at h
  · cases h
  · cases hf : env.mkdirAll (resolve s.cwd dir) with
    | none => rfl
    | some e => rw [hf] at h; cases h

/-- Claim C2, amended (idempotence). For an entry map whose keys hold no path
separator (and are distinct), on a file system with valid names: when no file
system call fails in either of two consecutive calls of
`addConfigMap` for the same resource and entries (the second call may visit the
entries of the map in another order), every path names after the second call
what it named after the first. -/
theorem addConfigMap_idempotent (env : Env) (outdir : Str) (cm cm' : ConfigMap) (w : World)
    (hkeys : ∀ e ∈ cm.Data, '/' ∉ e.1)
    (hnd : (cm.Data.map Prod.fst).Nodup)
    (hvalid : w.fs.ValidNames)
    (hns : cm'.Namespace = cm.Namespace) (hname : cm'.Name = cm.Name)
    (hperm : cm'.Data.Perm cm.Data)
    (hok1 : ∀ c ∈ newCalls w (addConfigMap env outdir cm w).2, c.err = none)
    (hok2 : ∀ c ∈ newCalls (addConfigMap env outdir cm w).2
        (addConfigMap env outdir cm' (addConfigMap env outdir cm w).2).2, c.err = none) :
    (addConfigMap env outdir cm' (addConfigMap env outdir cm w).2).2.fs.cwd
        = (addConfigMap env outdir cm w).2.fs.cwd
      ∧ ∀ q, (addConfigMap env outdir cm' (addConfigMap env outdir cm w).2).2.fs.get q
          = (addConfigMap env outdir cm w).2.fs.get q := by
  have hnames := namesOK_of_validNames w.fs (resolve w.fs.cwd (dirOf outdir cm)) hvalid
  obtain ⟨hc, hdel⟩ := counters_of_calls_ok env outdir cm w hnames hok1
  obtain ⟨_, hset1, hcwd1, hjson1, hother1, hframe1⟩ := addConfigMap_mirror env outdir cm w
    (fun e he _ => hkeys e he) hnd hnames hc hdel
  have hdir_eq : dirOf outdir cm' = dirOf outdir cm := by unfold dirOf; rw [hns, hname]
  -- the first call left a directory whose entries have plain names
  have hD : dirOf outdir cm ≠ [] ∧ (mkdirAll env w.fs (dirOf outdir cm)).1 = none
      ∧ (madeFS env outdir cm w).get (resolve w.fs.cwd (dirOf outdir cm)) = some Node.dir := by
    rcases addConfigMap_cases env outdir cm w with
      ⟨e, _, h1, _⟩ | ⟨e, _, _, h1, _⟩ | ⟨hmk, hD, hdir, _⟩
    · rw [hset1] at h1; cases h1
    · rw [hset1] at h1; cases h1
    · exact ⟨hD, hmk, hdir⟩
  have hdir1 : (addConfigMap env outdir cm w).2.fs.get (resolve w.fs.cwd (dirOf outdir cm))
      = some Node.dir := by
    rw [hframe1 _ (fun n => by simp)]
    exact hD.2.2
  have hnames1 : NamesOK (addConfigMap env outdir cm w).2.fs
      (resolve (addConfigMap env outdir cm w).2.fs.cwd (dirOf outdir cm')) := by
    rw [hcwd1, hdir_eq]
    intro n hn
    cases hj : isJson n with
    | true =>
      by_contra hnp
      apply hn
      apply hother1
      intro v hv
      exact absurd (plainName_of_json n (by simpa [isJson] using hj) (hkeys (n, v) hv)) hnp
    | false =>
      exact absurd (hother1 n (fun _ _ => hj)) hn
  obtain ⟨hc2, hdel2⟩ := counters_of_calls_ok env outdir cm' _ hnames1 hok2
  obtain ⟨_, _, hcwd2, hjson2, hother2, hframe2⟩ := addConfigMap_mirror env outdir cm'
    (addConfigMap env outdir cm w).2
    (fun e he _ => hkeys e (hperm.mem_iff.1 he))
    ((hperm.map Prod.fst).nodup_iff.2 hnd) hnames1 hc2 hdel2
  rw [hcwd1, hdir_eq] at hjson2 hother2 hframe2
  refine ⟨hcwd2, fun q => ?_⟩
  by_cases hq : ∃ n, q = resolve w.fs.cwd (dirOf outdir cm) ++ [n]
  · obtain ⟨n, rfl⟩ := hq
    by_cases hkey : ∃ v, (n, v) ∈ cm.Data ∧ isJson n = true
    · obtain ⟨v, hv, hj⟩ := hkey
      rw [hjson2 n v (hperm.mem_iff.2 hv) hj, hjson1 n v hv hj]
    · have hno : ∀ v, (n, v) ∈ cm.Data → isJson n = false := by
        intro v hv
        cases hj : isJson n with
        | false => rfl
        | true => exact absurd ⟨v, hv, hj⟩ hkey
      rw [hother2 n (fun v hv => hno v (hperm.mem_iff.1 hv)), hother1 n hno]
  · have hq' : ∀ n, q ≠ resolve w.fs.cwd (dirOf outdir cm) ++ [n] := fun n e => hq ⟨n, e⟩
    rw [hframe2 q hq']
    unfold madeFS
    rw [hdir_eq, mkdirAll_of_dir env _ _ hD.1 (by rw [hcwd1]; exact hdir1)
      (by rw [hcwd1]; exact mkdirAll_ok_fault env w.fs _ hD.2.1)]

/-- Claim C2 (amended) at the scenario of the specification. -/
theorem addConfigMap_idempotent_witness :
    (∀ e ∈ demoCM.Data, '/' ∉ e.1) ∧ staleWorld.fs.ValidNames
      ∧ ∀ q, (addConfigMap calmEnv demoOut demoCM
            (addConfigMap calmEnv demoOut demoCM staleWorld).2).2.fs.get q
          = (addConfigMap calmEnv demoOut demoCM staleWorld).2.fs.get q :=
  ⟨by decide, by decide,
    (addConfigMap_idempotent calmEnv demoOut demoCM demoCM staleWorld (by decide) (by decide)
      (by decide) rfl rfl (List.Perm.refl _) (by decide) (by decide)).2⟩

/-- Claim C2 as stated fails: with the single key `./foo.json` and an empty directory,
no call fails in either run, the first run leaves the file `foo.json` and the
second run removes it. -/
theorem addConfigMap_not_idempotent :
    (dotSlashCM.Data.map Prod.fst).Nodup ∧ demoWorld.fs.ValidNames
      ∧ (∀ c ∈ newCalls demoWorld (addConfigMap calmEnv demoOut dotSlashCM demoWorld).2,
          c.err = none)
      ∧ (∀ c ∈ newCalls (addConfigMap calmEnv demoOut dotSlashCM demoWorld).2
            (addConfigMap calmEnv demoOut dotSlashCM
              (addConfigMap calmEnv demoOut dotSlashCM demoWorld).2).2, c.err = none)
      ∧ (addConfigMap calmEnv demoOut dotSlashCM demoWorld).2.fs.get
          (demoDir ++ ["foo.json".toList]) = some (Node.file "x".toList)
      ∧ (addConfigMap calmEnv demoOut dotSlashCM
            (addConfigMap calmEnv demoOut dotSlashCM demoWorld).2).2.fs.get
          (demoDir ++ ["foo.json".toList]) = none := by
  refine ⟨by decide, by decide, by decide, by decide, by decide, by decide⟩

/-! ## Failure of the set-up calls, and the returned error -/

/-- Claim C7 (directory-create failure aborts the add). If `os.MkdirAll` on the
resource's directory fails, `addConfigMap` returns that error and makes no other
call: whatever the file system held it still holds, no regular file is made or
changed, the create-error counter grows by exactly one and the delete-error
counter stays. -/
theorem addConfigMap_mkdir_failure (env : Env) (outdir : Str) (cm : ConfigMap) (w : World)
    (e : Errno) (h : (mkdirAll env w.fs (dirOf outdir cm)).1 = some e) :
    (addConfigMap env outdir cm w).1 = some e
      ∧ newCalls w (addConfigMap env outdir cm w).2 = [Call.mkdirAll (dirOf outdir cm) (some e)]
      ∧ (∀ q, w.fs.get q ≠ none → (addConfigMap env outdir cm w).2.fs.get q = w.fs.get q)
      ∧ (∀ q c, (addConfigMap env outdir cm w).2.fs.get q = some (Node.file c)
            ↔ w.fs.get q = some (Node.file c))
      ∧ (addConfigMap env outdir cm w).2.createErrors = w.createErrors + 1
      ∧ (addConfigMap env outdir cm w).2.deleteErrors = w.deleteErrors := by
  rcases addConfigMap_cases env outdir cm w with
    ⟨e', h1, _, h2⟩ | ⟨e', h1, _⟩ | ⟨h1, _⟩
  · rw [h] at h1
    cases h1
    rw [h2]
    refine ⟨rfl, newCalls_append _ _ _ rfl, ?_, ?_, rfl, rfl⟩
    · exact (mkdirAll_spec env w.fs (dirOf outdir cm)).2.1
    · exact fun q c => mkdirAll_file_iff env w.fs (dirOf outdir cm) q c
  · rw [h] at h1; cases h1
  · rw [h] at h1; cases h1

/-- Claim C7 on the demo tree, where the directory of `default/demo` is missing
and no directory can be made. -/
theorem addConfigMap_mkdir_failure_witness :
    (mkdirAll denyMkdir demoWorld.fs (dirOf demoOut demoCM)).1 = some Errno.EACCES
      ∧ (addConfigMap denyMkdir demoOut demoCM demoWorld).1 = some Errno.EACCES
      ∧ (addConfigMap denyMkdir demoOut demoCM demoWorld).2.createErrors
          = demoWorld.createErrors + 1 :=
  ⟨by decide,
    (addConfigMap_mkdir_failure denyMkdir demoOut demoCM demoWorld Errno.EACCES (by decide)).1,
    (addConfigMap_mkdir_failure denyMkdir demoOut demoCM demoWorld Errno.EACCES
      (by decide)).2.2.2.2.1⟩

/-- Claim C6, amended (the returned error). `addConfigMap` returns exactly the
error of its set-up calls: the error of `os.MkdirAll`, else the error of
`ioutil.ReadDir`, else `nil`; and when it returns an error the create-error
counter has grown by one and the delete-error counter has not moved. A failed
write or a failed removal is recorded in the counters only, and the call still
returns `nil`: then the create-error counter has grown by the number of `.json`
entries whose write fails and (names in the file system being valid) the
delete-error counter by the number of stale names whose removal fails; a failed
`ioutil.WriteFile` on record means `nil` and a larger create-error counter, a
failed `os.Remove` on record means `nil` and a larger delete-error counter. -/
theorem addConfigMap_returns_setupError (env : Env) (outdir : Str) (cm : ConfigMap)
    (w : World) :
    (addConfigMap env outdir cm w).1 = setupError env outdir cm w
      ∧ ((addConfigMap env outdir cm w).1 ≠ none →
          (addConfigMap env outdir cm w).2.createErrors = w.createErrors + 1
            ∧ (addConfigMap env outdir cm w).2.deleteErrors = w.deleteErrors)
      ∧ ((addConfigMap env outdir cm w).1 = none →
          (addConfigMap env outdir cm w).2.createErrors
            = w.createErrors
              + (failedWrites env (madeFS env outdir cm w) (dirOf outdir cm) cm.Data).length)
      ∧ (w.fs.ValidNames → (addConfigMap env outdir cm w).1 = none →
          (addConfigMap env outdir cm w).2.deleteErrors
            = w.deleteErrors
              + (failedRemoves env (afterWrites env outdir cm w).1.fs (dirOf outdir cm)
                  (staleOrder env outdir cm w)).length)
      ∧ (w.fs.ValidNames → ∀ p data e,
          Call.writeFile p data (some e) ∈ newCalls w (addConfigMap env outdir cm w).2 →
          (addConfigMap env outdir cm w).1 = none
            ∧ w.createErrors < (addConfigMap env outdir cm w).2.createErrors)
      ∧ (w.fs.ValidNames → ∀ p e,
          Call.remove p (some e) ∈ newCalls w (addConfigMap env outdir cm w).2 →
          (addConfigMap env outdir cm w).1 = none
            ∧ w.deleteErrors < (addConfigMap env outdir cm w).2.deleteErrors) := by
  rcases addConfigMap_cases env outdir cm w with
    ⟨e, _, h1, h2⟩ | ⟨e, _, _, h1, h2⟩ | ⟨_, hD, _, _, h1, h2⟩
  · have hn : newCalls w (addConfigMap env outdir cm w).2
        = [Call.mkdirAll (dirOf outdir cm) (some e)] := newCalls_append _ _ _ (by rw [h2])
    rw [hn, h1, h2]
    refine ⟨rfl, fun _ => ⟨rfl, rfl⟩, (fun h => by cases h), (fun _ h => by cases h), ?_, ?_⟩
    · intro _ p data e' hmem
      simp at hmem
    · intro _ p e' hmem
      simp at hmem
  · have hn : newCalls w (addConfigMap env outdir cm w).2
        = [Call.mkdirAll (dirOf outdir cm) none, Call.readDir (dirOf outdir cm) (some e)] :=
      newCalls_append _ _ _ (by rw [h2])
    rw [hn, h1, h2]
    refine ⟨rfl, fun _ => ⟨rfl, rfl⟩, (fun h => by cases h), (fun _ h => by cases h), ?_, ?_⟩
    · intro _ p data e' hmem
      simp at hmem
    · intro _ p e' hmem
      simp at hmem
  · have hc : (addConfigMap env outdir cm w).2.createErrors
        = w.createErrors
          + (failedWrites env (madeFS env outdir cm w) (dirOf outdir cm) cm.Data).length := by
      rw [h2]
      simp only
      rw [removeFiles_createErrors, afterWrites_createErrors]
    have hdel : w.fs.ValidNames → (addConfigMap env outdir cm w).2.deleteErrors
        = w.deleteErrors
          + (failedRemoves env (afterWrites env outdir cm w).1.fs (dirOf outdir cm)
              (staleOrder env outdir cm w)).length := by
      intro hvalid
      have hnames := namesOK_of_validNames w.fs (resolve w.fs.cwd (dirOf outdir cm)) hvalid
      rw [h2]
      simp only
      rw [removeFiles_deleteErrors env _ _ _ hD (staleOrder_plain env outdir cm w hnames)
        (staleOrder_nodup env outdir cm w), afterWrites_deleteErrors]
    have hnil : (addConfigMap env outdir cm w).1 = none := by rw [h2]
    refine ⟨by rw [h1, hnil], fun h => absurd hnil h, fun _ => hc, fun hvalid _ => hdel hvalid,
      ?_, ?_⟩
    · intro hvalid p data e hmem
      have hnames := namesOK_of_validNames w.fs (resolve w.fs.cwd (dirOf outdir cm)) hvalid
      obtain ⟨newW, newR, hn, hw, _, hr, _⟩ := addConfigMap_calls env outdir cm w h1 hnames
      refine ⟨hnil, ?_⟩
      rw [hn] at hmem
      rcases List.mem_append.1 hmem with h3 | h3
      · rcases List.mem_append.1 h3 with h4 | h4
        · simp at h4
        · obtain ⟨en, hen, hje, err, hcall, hiff⟩ := hw _ h4
          simp only [Call.writeFile.injEq] at hcall
          obtain ⟨_, _, herr⟩ := hcall
          have hfail : writeFails env (madeFS env outdir cm w) (Join [dirOf outdir cm, en.1])
              = true := by
            cases hf : writeFails env (madeFS env outdir cm w) (Join [dirOf outdir cm, en.1]) with
            | true => rfl
            | false =>
              rw [hiff.2 hf] at herr
              cases herr
          have := failedWrites_pos env _ (dirOf outdir cm) cm.Data en hen hje hfail
          omega
      · obtain ⟨f, _, err, hcall, _⟩ := hr _ h3
        cases hcall
    · intro hvalid p e hmem
      have hnames := namesOK_of_validNames w.fs (resolve w.fs.cwd (dirOf outdir cm)) hvalid
      obtain ⟨newW, newR, hn, hw, _, hr, _⟩ := addConfigMap_calls env outdir cm w h1 hnames
      refine ⟨hnil, ?_⟩
      rw [hn] at hmem
      rcases List.mem_append.1 hmem with h3 | h3
      · rcases List.mem_append.1 h3 with h4 | h4
        · simp at h4
        · obtain ⟨en, _, _, err, hcall, _⟩ := hw _ h4
          cases hcall
      · obtain ⟨f, hf, err, hcall, hiff⟩ := hr _ h3
        simp only [Call.remove.injEq] at hcall
        obtain ⟨_, herr⟩ := hcall
        have hfail : removeFails env (afterWrites env outdir cm w).1.fs
            (Join [dirOf outdir cm, f]) = true := by
          cases hrf : removeFails env (afterWrites env outdir cm w).1.fs
              (Join [dirOf outdir cm, f]) with
          | true => rfl
          | false =>
            rw [hiff.2 hrf] at herr
            cases herr
        have := failedRemoves_pos env _ (dirOf outdir cm) _ f hf hfail
        have := hdel hvalid
        omega

/-- Claim C6 where the write of `a.json` is refused, and where no file can be
removed: the failures are counted and `nil` is returned. -/
theorem addConfigMap_returns_setupError_witness :
    (addConfigMap denyWrite demoOut demoCM demoWorld).1 = none
      ∧ (addConfigMap denyWrite demoOut demoCM demoWorld).2.createErrors
          = demoWorld.createErrors + 1
      ∧ staleWorld.fs.ValidNames
      ∧ (addConfigMap denyRemove demoOut demoCM staleWorld).1 = none
      ∧ (addConfigMap denyRemove demoOut demoCM staleWorld).2.deleteErrors
          = staleWorld.deleteErrors + 2 :=
  ⟨(addConfigMap_returns_setupError denyWrite demoOut demoCM demoWorld).1.trans (by decide),
    ((addConfigMap_returns_setupError denyWrite demoOut demoCM demoWorld).2.2.1
      (by decide)).trans (by decide),
    by decide,
    (addConfigMap_returns_setupError denyRemove demoOut demoCM staleWorld).1.trans (by decide),
    ((addConfigMap_returns_setupError denyRemove demoOut demoCM staleWorld).2.2.2.1
      (by decide) (by decide)).trans (by decide)⟩

/-- Claim C6 as stated fails: a failed write and a failed removal are recorded
(each counter grows, each failing call is on record) and the call returns
`nil`. -/
theorem addConfigMap_nil_despite_failures :
    (addConfigMap denyWrite demoOut demoCM demoWorld).1 = none
      ∧ (addConfigMap denyWrite demoOut demoCM demoWorld).2.createErrors = 1
      ∧ Call.writeFile "/tmp/dashboards/default/demo/a.json".toList "\x7b\x7d".toList
            (some Errno.EACCES)
          ∈ newCalls demoWorld (addConfigMap denyWrite demoOut demoCM demoWorld).2
      ∧ (addConfigMap denyRemove demoOut demoCM staleWorld).1 = none
      ∧ (addConfigMap denyRemove demoOut demoCM staleWorld).2.deleteErrors = 2
      ∧ Call.remove "/tmp/dashboards/default/demo/old.json".toList (some Errno.EACCES)
          ∈ newCalls staleWorld (addConfigMap denyRemove demoOut demoCM staleWorld).2 := by
  refine ⟨by decide, by decide, by decide, by decide, by decide, by decide⟩

/-! ## `deleteConfigMap` -/

theorem removeAll_ok (env : Env) (s : FS) (p : Str) (h : (removeAll env s p).1 = none) :
    (p = [] ∧ (removeAll env s p).2 = s)
      ∨ (p ≠ [] ∧ resolve s.cwd p ≠ [] ∧ endsWithDot p = false
          ∧ env.removeAll (resolve s.cwd p) = none
          ∧ (removeAll env s p).2 = s.eraseTree (resolve s.cwd p)) := by
  unfold removeAll at h ⊢
  by_cases hp : p = []
  · left
    rw [if_pos hp]
    exact ⟨hp, rfl⟩
  · right
    rw [if_neg hp] at h ⊢
    by_cases hr : resolve s.cwd p = []
    · rw [if_pos hr] at h; cases h
    · rw [if_neg hr] at h ⊢
      by_cases hdot : endsWithDot p = true
      · rw [if_pos hdot] at h; cases h
      · rw [if_neg hdot] at h ⊢
        cases hf : env.removeAll (resolve s.cwd p) with
        | some e => rw [hf] at h; cases h
        | none => exact ⟨hp, hr, by simpa using hdot, rfl, rfl⟩

theorem removeAll_of_ok (env : Env) (s : FS) (p : Str) (hp : p ≠ [])
    (hr : resolve s.cwd p ≠ []) (hdot : endsWithDot p = false)
    (hf : env.removeAll (resolve s.cwd p) = none) :
    removeAll env s p = (none, s.eraseTree (resolve s.cwd p)) := by
  unfold removeAll
  rw [if_neg hp, if_neg hr, if_neg (by simp [hdot]), hf]

theorem FS.eraseTree_eraseTree (s : FS) (p : AbsPath) :
    (s.eraseTree p).eraseTree p = s.eraseTree p := by
  unfold FS.eraseTree
  simp [List.filter_filter]

theorem deleteConfigMap_of_removeAll (env : Env) (outdir s : Str) (w : World) (s1 : FS)
    (hr : removeAll env w.fs (Join [outdir, s]) = (none, s1)) :
    deleteConfigMap env outdir s w
      = (none, { w with fs := s1, calls := w.calls ++ [Call.removeAll (Join [outdir, s]) none] }) := by
  unfold deleteConfigMap
  rw [hr]

/-- What `deleteConfigMap` does when the removal succeeds. -/
theorem deleteConfigMap_ok (env : Env) (outdir s : Str) (w : World)
    (h : (deleteConfigMap env outdir s w).1 = none) :
    ∃ s1, removeAll env w.fs (Join [outdir, s]) = (none, s1)
      ∧ ((Join [outdir, s] = [] ∧ s1 = w.fs)
        ∨ (Join [outdir, s] ≠ [] ∧ resolve w.fs.cwd (Join [outdir, s]) ≠ []
            ∧ endsWithDot (Join [outdir, s]) = false
            ∧ env.removeAll (resolve w.fs.cwd (Join [outdir, s])) = none
            ∧ s1 = w.fs.eraseTree (resolve w.fs.cwd (Join [outdir, s])))) := by
  cases hr : removeAll env w.fs (Join [outdir, s]) with
  | mk e1 s1 =>
    cases e1 with
    | some e =>
      unfold deleteConfigMap at h
      rw [hr] at h
      cases h
    | none =>
      refine ⟨s1, rfl, ?_⟩
      have := removeAll_ok env w.fs (Join [outdir, s]) (by rw [hr])
      rw [hr] at this
      rcases this with ⟨h1, h2⟩ | ⟨h1, h2, h3, h4, h5⟩
      · exact Or.inl ⟨h1, h2⟩
      · exact Or.inr ⟨h1, h2, h3, h4, h5⟩

/-- Claim C4 (deletion completeness). If the recursive removal does not fail,
`deleteConfigMap` returns `nil`, leaves the counters alone, and afterwards the
resource's directory and every path beneath it name nothing. A second call then
returns `nil` again, leaves the file system as it is and does not touch the
delete-error counter. -/
theorem deleteConfigMap_complete (env : Env) (outdir s : Str) (w : World)
    (h : (deleteConfigMap env outdir s w).1 = none) :
    (Join [outdir, s] ≠ [] → ∀ q, resolve w.fs.cwd (Join [outdir, s]) <+: q →
        (deleteConfigMap env outdir s w).2.fs.get q = none)
      ∧ (deleteConfigMap env outdir s w).2.deleteErrors = w.deleteErrors
      ∧ (deleteConfigMap env outdir s (deleteConfigMap env outdir s w).2).1 = none
      ∧ (deleteConfigMap env outdir s (deleteConfigMap env outdir s w).2).2.fs
          = (deleteConfigMap env outdir s w).2.fs
      ∧ (deleteConfigMap env outdir s (deleteConfigMap env outdir s w).2).2.deleteErrors
          = (deleteConfigMap env outdir s w).2.deleteErrors
      ∧ (deleteConfigMap env outdir s (deleteConfigMap env outdir s w).2).2.createErrors
          = w.createErrors := by
  obtain ⟨s1, hr, hfs⟩ := deleteConfigMap_ok env outdir s w h
  have hfirst := deleteConfigMap_of_removeAll env outdir s w s1 hr
  have hr2 : removeAll env s1 (Join [outdir, s]) = (none, s1) := by
    rcases hfs with ⟨h1, _⟩ | ⟨h1, h2, h3, h4, h5⟩
    · rw [h1]
      rfl
    · have hcwd : s1.cwd = w.fs.cwd := by rw [h5]; rfl
      rw [removeAll_of_ok env s1 _ h1 (by rw [hcwd]; exact h2) h3 (by rw [hcwd]; exact h4),
        hcwd, h5, FS.eraseTree_eraseTree]
  rw [hfirst]
  rw [deleteConfigMap_of_removeAll env outdir s _ s1 hr2]
  refine ⟨?_, rfl, rfl, rfl, rfl, rfl⟩
  intro hne q hq
  rcases hfs with ⟨h1, _⟩ | ⟨_, h2, _, _, h5⟩
  · exact absurd h1 hne
  · simp only [h5]
    rw [FS.get_eraseTree, if_neg, if_pos hq]
    intro hq0
    rw [hq0] at hq
    exact h2 (List.prefix_nil.1 hq)

/-- Claim C4 on the stale tree: the directory of `default/demo` and the two
files in it are gone. -/
theorem deleteConfigMap_complete_witness :
    (deleteConfigMap calmEnv demoOut "default/demo".toList staleWorld).1 = none
      ∧ (deleteConfigMap calmEnv demoOut "default/demo".toList staleWorld).2.fs.get
          (demoDir ++ ["old.json".toList]) = none :=
  ⟨by decide,
    (deleteConfigMap_complete calmEnv demoOut "default/demo".toList staleWorld (by decide)).1
      (by decide) (demoDir ++ ["old.json".toList]) (by decide)⟩

/-! ## Add and delete address the same directory -/

theorem Clean_ne_nil (p : Str) : Clean p ≠ [] := by
  unfold Clean
  split
  · decide
  · have hok := cleanStack_ok p
    unfold render
    split
    · simp
    · split
      · decide
      · rename_i hne
        cases hX : (List.foldl (cleanStep (isRooted p)) [] (splitSlash p)).reverse with
        | nil => exact absurd hX hne
        | cons x xs =>
          apply joinSlash_cons_ne_nil
          have hx : x ∈ cleanStack p := by
            unfold cleanStack
            rw [← List.mem_reverse, hX]
            exact List.mem_cons_self _ _
          exact (hok.1 x hx).1

theorem Join_ne_nil (e : Str) (rest : List Str) (he : e ≠ []) : Join (e :: rest) ≠ [] := by
  rw [Join, if_neg he]
  exact Clean_ne_nil _

theorem addConfigMap_cwd (env : Env) (outdir : Str) (cm : ConfigMap) (w : World) :
    (addConfigMap env outdir cm w).2.fs.cwd = w.fs.cwd := by
  rcases addConfigMap_cases env outdir cm w with
    ⟨e, _, _, h⟩ | ⟨e, _, _, _, h⟩ | ⟨_, _, _, _, _, h⟩
  · rw [h]; exact madeFS_cwd env outdir cm w
  · rw [h]; exact madeFS_cwd env outdir cm w
  · rw [h]
    simp only
    rw [removeFiles_cwd, afterWrites_cwd]

theorem deleteConfigMap_calls (env : Env) (outdir s : Str) (w : World) :
    newCalls w (deleteConfigMap env outdir s w).2
      = [Call.removeAll (Join [outdir, s]) (deleteConfigMap env outdir s w).1] := by
  apply newCalls_append
  unfold deleteConfigMap
  cases hr : removeAll env w.fs (Join [outdir, s]) with
  | mk e1 s1 =>
    cases e1 with
    | some e => rfl
    | none => rfl

/-- The first call `addConfigMap` makes is `os.MkdirAll` on the resource's
directory. -/
theorem addConfigMap_first_call (env : Env) (outdir : Str) (cm : ConfigMap) (w : World)
    (hnames : NamesOK w.fs (resolve w.fs.cwd (dirOf outdir cm))) :
    ∃ err rest, newCalls w (addConfigMap env outdir cm w).2
      = Call.mkdirAll (dirOf outdir cm) err :: rest := by
  rcases addConfigMap_cases env outdir cm w with
    ⟨e, _, _, h⟩ | ⟨e, _, _, _, h⟩ | ⟨_, _, _, _, hset, _⟩
  · exact ⟨some e, [], newCalls_append _ _ _ (by rw [h])⟩
  · exact ⟨none, [Call.readDir (dirOf outdir cm) (some e)], newCalls_append _ _ _ (by rw [h])⟩
  · obtain ⟨newW, newR, hn, _⟩ := addConfigMap_calls env outdir cm w hset hnames
    exact ⟨none, Call.readDir (dirOf outdir cm) none :: (newW ++ newR), by rw [hn]; simp⟩

/-- Every write `addConfigMap` makes is the write of an entry of the map to its
path inside the resource's directory. -/
theorem addConfigMap_write_paths (env : Env) (outdir : Str) (cm : ConfigMap) (w : World)
    (hnames : NamesOK w.fs (resolve w.fs.cwd (dirOf outdir cm)))
    (p data : Str) (err : Option Errno)
    (hmem : Call.writeFile p data err ∈ newCalls w (addConfigMap env outdir cm w).2) :
    ∃ e ∈ cm.Data, p = Join [dirOf outdir cm, e.1] ∧ data = e.2 := by
  rcases addConfigMap_cases env outdir cm w with
    ⟨e, _, _, h⟩ | ⟨e, _, _, _, h⟩ | ⟨_, _, _, _, hset, _⟩
  · rw [newCalls_append w _ [Call.mkdirAll (dirOf outdir cm) (some e)] (by rw [h])] at hmem
    simp at hmem
  · rw [newCalls_append w _ [Call.mkdirAll (dirOf outdir cm) none,
      Call.readDir (dirOf outdir cm) (some e)] (by rw [h])] at hmem
    simp at hmem
  · obtain ⟨newW, newR, hn, hw, _, hr, _⟩ := addConfigMap_calls env outdir cm w hset hnames
    rw [hn] at hmem
    rcases List.mem_append.1 hmem with h3 | h3
    · rcases List.mem_append.1 h3 with h4 | h4
      · simp at h4
      · obtain ⟨en, hen, _, err', hcall, _⟩ := hw _ h4
        simp only [Call.writeFile.injEq] at hcall
        exact ⟨en, hen, hcall.1, hcall.2.1⟩
    · obtain ⟨f, _, err', hcall, _⟩ := hr _ h3
      cases hcall

/-- When `addConfigMap` returns `nil` the resource's directory exists. -/
theorem addConfigMap_dir_exists (env : Env) (outdir : Str) (cm : ConfigMap) (w : World)
    (hnames : NamesOK w.fs (resolve w.fs.cwd (dirOf outdir cm)))
    (hnil : (addConfigMap env outdir cm w).1 = none) :
    (addConfigMap env outdir cm w).2.fs.get (resolve w.fs.cwd (dirOf outdir cm))
      = some Node.dir := by
  rcases addConfigMap_cases env outdir cm w with
    ⟨e, _, _, h⟩ | ⟨e, _, _, _, h⟩ | ⟨_, hD, hdir, _, _, h⟩
  · rw [h] at hnil; cases hnil
  · rw [h] at hnil; cases hnil
  · rw [h]
    simp only
    rw [removeFiles_get_other env _ _ _ hD (staleOrder_plain env outdir cm w hnames)
      (staleOrder_nodup env outdir cm w)]
    · exact ((afterWrites_sameDirs env outdir cm w).2 _).1 hdir
    · intro f _ _
      rw [afterWrites_cwd]
      simp

/-- Claim C9 (add and delete address the same directory). For a non-empty output
root (and valid names in the file system), the directory of a resource,
`filepath.Join(outdir, namespace, name)`, is the path `filepath.Join(outdir,
"namespace/name")`. `addConfigMap` calls `os.MkdirAll` on it first, writes every
entry to a path joined onto it, and leaves it a directory when it returns `nil`;
`deleteConfigMap`, given the key `namespace/name`, makes one call, `os.RemoveAll`
on that same path; so when the delete that follows an add does not fail, the
directory the add made and everything beneath it name nothing afterwards. -/
theorem add_delete_same_directory (env : Env) (outdir : Str) (cm : ConfigMap) (w : World)
    (hout : outdir ≠ []) (hvalid : w.fs.ValidNames) :
    dirOf outdir cm = Join [outdir, cm.Namespace ++ '/' :: cm.Name]
      ∧ (∃ err rest, newCalls w (addConfigMap env outdir cm w).2
            = Call.mkdirAll (dirOf outdir cm) err :: rest)
      ∧ (∀ p data err,
          Call.writeFile p data err ∈ newCalls w (addConfigMap env outdir cm w).2 →
          ∃ e ∈ cm.Data, p = Join [dirOf outdir cm, e.1] ∧ data = e.2)
      ∧ ((addConfigMap env outdir cm w).1 = none →
          (addConfigMap env outdir cm w).2.fs.get (resolve w.fs.cwd (dirOf outdir cm))
            = some Node.dir)
      ∧ newCalls (addConfigMap env outdir cm w).2
            (deleteConfigMap env outdir (cm.Namespace ++ '/' :: cm.Name)
              (addConfigMap env outdir cm w).2).2
          = [Call.removeAll (dirOf outdir cm)
              (deleteConfigMap env outdir (cm.Namespace ++ '/' :: cm.Name)
                (addConfigMap env outdir cm w).2).1]
      ∧ ((deleteConfigMap env outdir (cm.Namespace ++ '/' :: cm.Name)
            (addConfigMap env outdir cm w).2).1 = none →
          ∀ q, resolve w.fs.cwd (dirOf outdir cm) <+: q →
            (deleteConfigMap env outdir (cm.Namespace ++ '/' :: cm.Name)
              (addConfigMap env outdir cm w).2).2.fs.get q = none) := by
  have hnames := namesOK_of_validNames w.fs (resolve w.fs.cwd (dirOf outdir cm)) hvalid
  have hjoin : dirOf outdir cm = Join [outdir, cm.Namespace ++ '/' :: cm.Name] := by
    simp [dirOf, Join, hout, joinSlash]
  refine ⟨hjoin, addConfigMap_first_call env outdir cm w hnames,
    fun p data err h => addConfigMap_write_paths env outdir cm w hnames p data err h,
    addConfigMap_dir_exists env outdir cm w hnames, ?_, fun h q hq => ?_⟩
  · rw [deleteConfigMap_calls, ← hjoin]
  · obtain ⟨s1, hr, hfs⟩ := deleteConfigMap_ok env outdir _ _ h
    rw [deleteConfigMap_of_removeAll env outdir _ _ s1 hr]
    rw [addConfigMap_cwd, ← hjoin] at hfs
    rcases hfs with ⟨h1, _⟩ | ⟨_, h2, _, _, h5⟩
    · exact absurd h1 (by rw [hjoin]; exact Join_ne_nil outdir _ hout)
    · simp only [h5]
      rw [FS.get_eraseTree, if_neg, if_pos hq]
      intro hq0
      rw [hq0] at hq
      exact h2 (List.prefix_nil.1 hq)

/-- Claim C9 at the scenario of the specification: the add of `default/demo`
leaves its directory with `a.json` in it, and after the delete that follows both
are gone. -/
theorem add_delete_same_directory_witness :
    demoOut ≠ [] ∧ demoWorld.fs.ValidNames
      ∧ resolve demoWorld.fs.cwd (dirOf demoOut demoCM) = demoDir
      ∧ (addConfigMap calmEnv demoOut demoCM demoWorld).2.fs.get
          (resolve demoWorld.fs.cwd (dirOf demoOut demoCM)) = some Node.dir
      ∧ (addConfigMap calmEnv demoOut demoCM demoWorld).2.fs.get
          (demoDir ++ ["a.json".toList]) = some (Node.file "\x7b\x7d".toList)
      ∧ (deleteConfigMap calmEnv demoOut "default/demo".toList
            (addConfigMap calmEnv demoOut demoCM demoWorld).2).2.fs.get demoDir = none
      ∧ (deleteConfigMap calmEnv demoOut "default/demo".toList
            (addConfigMap calmEnv demoOut demoCM demoWorld).2).2.fs.get
          (demoDir ++ ["a.json".toList]) = none :=
  ⟨by decide, by decide, by decide,
    (add_delete_same_directory calmEnv demoOut demoCM demoWorld (by decide)
      (by decide)).2.2.2.1 (by decide),
    by decide,
    (add_delete_same_directory calmEnv demoOut demoCM demoWorld (by decide)
      (by decide)).2.2.2.2.2 (by decide) demoDir (by decide),
    (add_delete_same_directory calmEnv demoOut demoCM demoWorld (by decide)
      (by decide)).2.2.2.2.2 (by decide) (demoDir ++ ["a.json".toList]) (by decide)⟩

/-! ## The path mapping -/

theorem cleanStep_dotdot_ne_cons (r : Bool) (S : List Str) (k : Str) (hk : k ≠ dotdot) :
    cleanStep r S dotdot ≠ k :: S := by
  intro h
  unfold cleanStep at h
  rw [if_neg (by decide), if_pos rfl] at h
  cases S with
  | nil =>
    cases r with
    | true => simp at h
    | false =>
      simp only [Bool.false_eq_true, if_false, List.cons.injEq, and_true] at h
      exact hk h.symm
  | cons top rest =>
    simp only at h
    split at h
    · cases r with
      | true =>
        have := congrArg List.length h
        simp at this
      | false =>
        simp only [Bool.false_eq_true, if_false, List.cons.injEq, and_true, true_and] at h
        exact hk h.symm
    · have := congrArg List.length h
      simp only [List.length_cons] at this
      omega

theorem cleanStep_elem_injective (r : Bool) (S : List Str) (k1 k2 : Str)
    (h1 : OutElem k1) (h2 : OutElem k2) (h : cleanStep r S k1 = cleanStep r S k2) : k1 = k2 := by
  by_cases hd1 : k1 = dotdot <;> by_cases hd2 : k2 = dotdot
  · rw [hd1, hd2]
  · rw [hd1, cleanStep_plain r S k2 ⟨h2.1, h2.2.1, hd2, h2.2.2⟩] at h
    exact absurd h (cleanStep_dotdot_ne_cons r S k2 hd2)
  · rw [hd2, cleanStep_plain r S k1 ⟨h1.1, h1.2.1, hd1, h1.2.2⟩] at h
    exact absurd h.symm (cleanStep_dotdot_ne_cons r S k1 hd1)
  · rw [cleanStep_plain r S k1 ⟨h1.1, h1.2.1, hd1, h1.2.2⟩,
      cleanStep_plain r S k2 ⟨h2.1, h2.2.1, hd2, h2.2.2⟩] at h
    exact (List.cons.inj h).1

/-- Claim C8, amended (the path mapping is injective). For a fixed output root,
two resources whose namespaces and names are plain names (not empty, not `.`, not
`..`, no path separator) and that have the same directory are the same resource;
and within one directory two keys that are not empty, not `.` and hold no path
separator and that have the same file path are the same key. -/
theorem path_mapping_injective (outdir ns1 name1 ns2 name2 dir k1 k2 : Str)
    (hns1 : PlainName ns1) (hname1 : PlainName name1)
    (hns2 : PlainName ns2) (hname2 : PlainName name2)
    (hk1 : OutElem k1) (hk2 : OutElem k2) :
    (Join [outdir, ns1, name1] = Join [outdir, ns2, name2] → ns1 = ns2 ∧ name1 = name2)
      ∧ (Join [dir, k1] = Join [dir, k2] → k1 = k2) := by
  constructor
  · intro h
    rw [Join_triple outdir ns1 name1 hns1 hname1, Join_triple outdir ns2 name2 hns2 hname2] at h
    have hbase := baseOf_ok outdir
    have hvalid : ∀ a b : Str, PlainName a → PlainName b →
        ∀ c ∈ (baseOf outdir).2.reverse ++ [a, b], OutElem c := by
      intro a b ha hb c hc
      rcases List.mem_append.1 hc with h1 | h1
      · exact hbase.1 c (List.mem_reverse.1 h1)
      · simp only [List.mem_cons, List.mem_singleton, List.not_mem_nil, or_false] at h1
        rcases h1 with h1 | h1
        · exact h1 ▸ ha.outElem
        · exact h1 ▸ hb.outElem
    have := render_injective _ _ _ (hvalid ns1 name1 hns1 hname1) (hvalid ns2 name2 hns2 hname2) h
    have := List.append_cancel_left this
    simp only [List.cons.injEq, and_true] at this
    exact this
  · intro h
    rw [Join_pair dir k1 hk1.1 hk1.2.2, Join_pair dir k2 hk2.1 hk2.2.2] at h
    have hbase := baseOf_ok dir
    have hv1 := cleanStep_ok _ _ k1 hbase hk1.2.2
    have hv2 := cleanStep_ok _ _ k2 hbase hk2.2.2
    have := render_injective _ _ _ (fun c hc => hv1.1 c (List.mem_reverse.1 hc))
      (fun c hc => hv2.1 c (List.mem_reverse.1 hc)) h
    exact cleanStep_elem_injective _ _ k1 k2 hk1 hk2 (List.reverse_injective this)

/-- Claim C8 (amended) at `default/demo` against `default/demos`, and at the keys
`a.json` and `..`: the paths differ. -/
theorem path_mapping_injective_witness :
    PlainName "default".toList ∧ PlainName "demo".toList ∧ PlainName "demos".toList
      ∧ OutElem "a.json".toList ∧ OutElem dotdot
      ∧ Join [demoOut, "default".toList, "demo".toList]
          ≠ Join [demoOut, "default".toList, "demos".toList]
      ∧ Join ["/tmp/dashboards/default/demo".toList, "a.json".toList]
          ≠ Join ["/tmp/dashboards/default/demo".toList, dotdot] :=
  ⟨by decide, by decide, by decide, by decide, by decide,
    fun h => absurd ((path_mapping_injective demoOut "default".toList "demo".toList
      "default".toList "demos".toList "/tmp/dashboards/default/demo".toList "a.json".toList
      dotdot (by decide) (by decide) (by decide) (by decide) (by decide) (by decide)).1 h).2
      (by decide),
    fun h => absurd ((path_mapping_injective demoOut "default".toList "demo".toList
      "default".toList "demos".toList "/tmp/dashboards/default/demo".toList "a.json".toList
      dotdot (by decide) (by decide) (by decide) (by decide) (by decide) (by decide)).2 h)
      (by decide)⟩

/-- Claim C8 as stated fails: the resources (`.`, `a`) and (`a`, `.`), whose
components hold no path separator and no `..`, have the same directory; and in
the directory of `default/demo` the empty key and the key `.` have the same
path. -/
theorem path_mapping_not_injective :
    Join [demoOut, dot, "a".toList] = Join [demoOut, "a".toList, dot]
      ∧ dot ≠ "a".toList
      ∧ '/' ∉ dot ∧ dot ≠ dotdot ∧ '/' ∉ "a".toList ∧ "a".toList ≠ dotdot
      ∧ Join ["/tmp/dashboards/default/demo".toList, []]
          = Join ["/tmp/dashboards/default/demo".toList, dot]
      ∧ ([] : Str) ≠ dot ∧ '/' ∉ ([] : Str) := by
  refine ⟨by decide, by decide, by decide, by decide, by decide, by decide, by decide,
    by decide, by decide⟩

/-! ## Failures inside the loops -/

/-- Claim C5, amended (partial-failure isolation). Assume the directory was made
and listed and the `.json` keys of the map hold no path separator (the keys of
the map are distinct and the names in the file system are valid). Then every
`.json` entry gets its `ioutil.WriteFile` call with its content, and the call
returns `nil` exactly when the entry is not among those whose write fails; an
entry whose write does not fail is a file of the directory holding the entry's
content after the call; every name the directory had that is not a successfully
written key is handed to `os.Remove`, and is gone when that removal succeeds; and
the create-error counter grows by exactly the number of `.json` entries whose
write fails. Whether a write fails is settled in the state after the directory
was made: the writes of one call do not change it. -/
theorem addConfigMap_partial_failure (env : Env) (outdir : Str) (cm : ConfigMap) (w : World)
    (hnd : (cm.Data.map Prod.fst).Nodup)
    (hvalid : w.fs.ValidNames)
    (hkeys : ∀ e ∈ cm.Data, Ext e.1 = jsonExt → '/' ∉ e.1)
    (hset : setupError env outdir cm w = none) :
    (∀ k v, (k, v) ∈ cm.Data → Ext k = jsonExt →
        ∃ err, Call.writeFile (Join [dirOf outdir cm, k]) v err
            ∈ newCalls w (addConfigMap env outdir cm w).2
          ∧ (err = none ↔
              writeFails env (madeFS env outdir cm w) (Join [dirOf outdir cm, k]) = false))
      ∧ (∀ k v, (k, v) ∈ cm.Data → Ext k = jsonExt →
          writeFails env (madeFS env outdir cm w) (Join [dirOf outdir cm, k]) = false →
          (addConfigMap env outdir cm w).2.fs.get
            (resolve w.fs.cwd (dirOf outdir cm) ++ [k]) = some (Node.file v))
      ∧ (∀ f, w.fs.get (resolve w.fs.cwd (dirOf outdir cm) ++ [f]) ≠ none →
          (¬ ∃ v, (f, v) ∈ cm.Data ∧ Ext f = jsonExt
              ∧ writeFails env (madeFS env outdir cm w) (Join [dirOf outdir cm, f]) = false) →
          ∃ err, Call.remove (Join [dirOf outdir cm, f]) err
              ∈ newCalls w (addConfigMap env outdir cm w).2
            ∧ (err = none →
                (addConfigMap env outdir cm w).2.fs.get
                  (resolve w.fs.cwd (dirOf outdir cm) ++ [f]) = none))
      ∧ (addConfigMap env outdir cm w).2.createErrors
          = w.createErrors
            + (failedWrites env (madeFS env outdir cm w) (dirOf outdir cm) cm.Data).length
      ∧ (addConfigMap env outdir cm w).1 = none := by
  have hnames := namesOK_of_validNames w.fs (resolve w.fs.cwd (dirOf outdir cm)) hvalid
  obtain ⟨newW, newR, hn, _, hw, _, hr⟩ := addConfigMap_calls env outdir cm w hset hnames
  rcases addConfigMap_cases env outdir cm w with
    ⟨e, _, h1, _⟩ | ⟨e, _, _, h1, _⟩ | ⟨_, hD, _, _, _, h⟩
  · rw [hset] at h1; cases h1
  · rw [hset] at h1; cases h1
  · have hcwd2 := afterWrites_cwd env outdir cm w
    have hLp := staleOrder_plain env outdir cm w hnames
    have hLn := staleOrder_nodup env outdir cm w
    have hcwd0 : (loopStart env outdir cm w).fs.cwd = w.fs.cwd := madeFS_cwd env outdir cm w
    refine ⟨?_, ?_, ?_, ?_, ?_⟩
    · intro k v hkv hj
      obtain ⟨err, hc, hiff⟩ := hw (k, v) hkv (by simpa [isJson] using hj)
      refine ⟨err, ?_, hiff⟩
      rw [hn]
      exact List.mem_append_left _ (List.mem_append_right _ hc)
    · intro k v hkv hj hok
      have hj' : isJson k = true := by simpa [isJson] using hj
      rw [h]
      simp only
      rw [removeFiles_get_other env _ _ _ hD hLp hLn]
      · have := writeEntries_get_written env (dirOf outdir cm) cm.Data
          (loopStart env outdir cm w) (listed env outdir cm w) hD
          (fun e he hje => hkeys e he (by simpa [isJson] using hje)) hnd k v hkv hj' hok
        rw [hcwd0] at this
        exact this
      · intro f hf _
        rw [hcwd2]
        intro heq
        have hkf : k = f := by simpa using heq
        subst hkf
        have := ((staleOrder_mem env outdir cm w k).1 hf).2 (k, v) hkv rfl hj'
        rw [hok] at this
        cases this
    · intro f hf hnot
      have hmem : f ∈ staleOrder env outdir cm w := by
        rw [staleOrder_mem]
        refine ⟨hf, fun e he hef hje => ?_⟩
        cases hfail : writeFails env (madeFS env outdir cm w) (Join [dirOf outdir cm, e.1]) with
        | true => rfl
        | false =>
          exfalso
          apply hnot
          refine ⟨e.2, ?_, ?_, ?_⟩
          · rw [← hef]; exact he
          · rw [← hef]; simpa [isJson] using hje
          · rw [← hef]; exact hfail
      obtain ⟨err, hc, hiff⟩ := hr f hmem
      refine ⟨err, ?_, fun herr => ?_⟩
      · rw [hn]
        exact List.mem_append_right _ hc
      · rw [h]
        simp only
        have := removeFiles_get_removed env _ _ (afterWrites env outdir cm w).1 hD hLp hLn f
          hmem (hiff.1 herr)
        rw [hcwd2] at this
        exact this
    · rw [h]
      simp only
      rw [removeFiles_createErrors, afterWrites_createErrors]
    · rw [h]

/-- Claim C5 (amended) where the write of `old.json` is refused: `a.json` is
written all the same and holds its content, and the create-error counter grows by
one. -/
theorem addConfigMap_partial_failure_witness :
    (twoCM.Data.map Prod.fst).Nodup ∧ staleWorld.fs.ValidNames
      ∧ (∀ e ∈ twoCM.Data, Ext e.1 = jsonExt → '/' ∉ e.1)
      ∧ setupError denyOld demoOut twoCM staleWorld = none
      ∧ (addConfigMap denyOld demoOut twoCM staleWorld).2.createErrors
          = staleWorld.createErrors + 1
      ∧ (addConfigMap denyOld demoOut twoCM staleWorld).2.fs.get
          (resolve staleWorld.fs.cwd (dirOf demoOut twoCM) ++ ["a.json".toList])
            = some (Node.file "A".toList) :=
  ⟨by decide, by decide, by decide, by decide,
    (addConfigMap_partial_failure denyOld demoOut twoCM staleWorld (by decide) (by decide)
      (by decide) (by decide)).2.2.2.1.trans (by decide),
    (addConfigMap_partial_failure denyOld demoOut twoCM staleWorld (by decide) (by decide)
      (by decide) (by decide)).2.1 "a.json".toList "A".toList (by decide) (by decide)
      (by decide)⟩

/-- Claim C5 as stated fails: with the two keys `a.json` and `./a.json` the
directory is made and listed, no call fails, so no key is in the set of failing
keys, and yet one of the two `.json` keys does not hold its content after the
call, whichever order the entries are visited in: the file of the key `a.json`
holds the content of `./a.json`, or the other way round. -/
theorem partial_failure_content_lost :
    (collideCM.Data.map Prod.fst).Nodup ∧ demoWorld.fs.ValidNames
      ∧ setupError calmEnv demoOut collideCM demoWorld = none
      ∧ (∀ c ∈ newCalls demoWorld (addConfigMap calmEnv demoOut collideCM demoWorld).2,
          c.err = none)
      ∧ failedWrites calmEnv (madeFS calmEnv demoOut collideCM demoWorld)
          (dirOf demoOut collideCM) collideCM.Data = []
      ∧ ("a.json".toList, "1".toList) ∈ collideCM.Data ∧ Ext "a.json".toList = jsonExt
      ∧ (addConfigMap calmEnv demoOut collideCM demoWorld).2.fs.get
          (resolve demoWorld.fs.cwd (Join [dirOf demoOut collideCM, "a.json".toList]))
            = some (Node.file "2".toList)
      ∧ (∀ c ∈ newCalls demoWorld (addConfigMap calmEnv demoOut collideCMrev demoWorld).2,
          c.err = none)
      ∧ ("./a.json".toList, "2".toList) ∈ collideCMrev.Data ∧ Ext "./a.json".toList = jsonExt
      ∧ (addConfigMap calmEnv demoOut collideCMrev demoWorld).2.fs.get
          (resolve demoWorld.fs.cwd (Join [dirOf demoOut collideCMrev, "./a.json".toList]))
            = some (Node.file "1".toList) := by
  refine ⟨by decide, by decide, by decide, by decide, by decide, by decide, by decide,
    by decide, by decide, by decide, by decide, by decide⟩

/-- A failed write on record means that the loops were reached and that the
write of that path fails. -/
theorem failed_write_on_record (env : Env) (outdir : Str) (cm : ConfigMap) (w : World)
    (hnames : NamesOK w.fs (resolve w.fs.cwd (dirOf outdir cm)))
    (p data : Str) (err : Errno)
    (h : Call.writeFile p data (some err) ∈ newCalls w (addConfigMap env outdir cm w).2) :
    setupError env outdir cm w = none ∧ writeFails env (madeFS env outdir cm w) p = true := by
  have hset : setupError env outdir cm w = none := by
    rcases addConfigMap_cases env outdir cm w with
      ⟨e, _, _, h2⟩ | ⟨e, _, _, _, h2⟩ | ⟨_, _, _, _, h1, _⟩
    · rw [newCalls_append w _ [Call.mkdirAll (dirOf outdir cm) (some e)] (by rw [h2])] at h
      simp at h
    · rw [newCalls_append w _ [Call.mkdirAll (dirOf outdir cm) none,
        Call.readDir (dirOf outdir cm) (some e)] (by rw [h2])] at h
      simp at h
    · exact h1
  refine ⟨hset, ?_⟩
  obtain ⟨newW, newR, hn, hw, _, hr, _⟩ := addConfigMap_calls env outdir cm w hset hnames
  rw [hn] at h
  rcases List.mem_append.1 h with h1 | h1
  · rcases List.mem_append.1 h1 with h2 | h2
    · simp at h2
    · obtain ⟨e, _, _, err', hc, hiff⟩ := hw _ h2
      simp only [Call.writeFile.injEq] at hc
      obtain ⟨hp, _, herr⟩ := hc
      rw [hp]
      cases hf : writeFails env (madeFS env outdir cm w) (Join [dirOf outdir cm, e.1]) with
      | true => rfl
      | false =>
        rw [hiff.2 hf] at herr
        cases herr
  · obtain ⟨f, _, err', hc, _⟩ := hr _ h1
    cases hc

/-- Claim C10 (a failed write does not keep the previous version of the file).
Let `k` be a `.json` key of the entry map for which the directory already holds a
file, and let the write of `k` fail. Then `k` stays in the set of names to
remove, `os.Remove` is called on the file, the file is absent after the call when
that removal succeeds, and when it fails the delete-error counter has grown, as
has the create-error counter. -/
theorem failed_write_removes_old_file (env : Env) (outdir : Str) (cm : ConfigMap) (w : World)
    (k v old : Str) (err : Errno)
    (hvalid : w.fs.ValidNames)
    (hmem : (k, v) ∈ cm.Data) (hj : Ext k = jsonExt)
    (hold : w.fs.get (resolve w.fs.cwd (dirOf outdir cm) ++ [k]) = some (Node.file old))
    (hfail : Call.writeFile (Join [dirOf outdir cm, k]) v (some err)
      ∈ newCalls w (addConfigMap env outdir cm w).2) :
    k ∈ staleOrder env outdir cm w
      ∧ w.createErrors < (addConfigMap env outdir cm w).2.createErrors
      ∧ ∃ rerr, Call.remove (Join [dirOf outdir cm, k]) rerr
            ∈ newCalls w (addConfigMap env outdir cm w).2
          ∧ (rerr = none →
              (addConfigMap env outdir cm w).2.fs.get
                (resolve w.fs.cwd (dirOf outdir cm) ++ [k]) = none)
          ∧ (rerr ≠ none →
              w.deleteErrors < (addConfigMap env outdir cm w).2.deleteErrors) := by
  have hnames := namesOK_of_validNames w.fs (resolve w.fs.cwd (dirOf outdir cm)) hvalid
  obtain ⟨hset, hwf⟩ := failed_write_on_record env outdir cm w hnames _ _ _ hfail
  have hj' : isJson k = true := by simpa [isJson] using hj
  have hstale : k ∈ staleOrder env outdir cm w := by
    rw [staleOrder_mem]
    refine ⟨by rw [hold]; simp, fun e _ hek _ => ?_⟩
    rw [hek]
    exact hwf
  obtain ⟨newW, newR, hn, _, _, _, hr⟩ := addConfigMap_calls env outdir cm w hset hnames
  rcases addConfigMap_cases env outdir cm w with
    ⟨e, _, h1, _⟩ | ⟨e, _, _, h1, _⟩ | ⟨_, hD, _, _, _, h⟩
  · rw [hset] at h1; cases h1
  · rw [hset] at h1; cases h1
  · have hcwd2 := afterWrites_cwd env outdir cm w
    have hLp := staleOrder_plain env outdir cm w hnames
    have hLn := staleOrder_nodup env outdir cm w
    obtain ⟨rerr, hc, hiff⟩ := hr k hstale
    refine ⟨hstale, ?_, rerr, ?_, ?_, ?_⟩
    · rw [h]
      simp only
      rw [removeFiles_createErrors, afterWrites_createErrors]
      have := failedWrites_pos env (madeFS env outdir cm w) (dirOf outdir cm) cm.Data (k, v)
        hmem hj' hwf
      omega
    · rw [hn]
      exact List.mem_append_right _ hc
    · intro hnone
      rw [h]
      simp only
      have := removeFiles_get_removed env _ _ (afterWrites env outdir cm w).1 hD hLp hLn k
        hstale (hiff.1 hnone)
      rw [hcwd2] at this
      exact this
    · intro hsome
      rw [h]
      simp only
      rw [removeFiles_deleteErrors env _ _ _ hD hLp hLn, afterWrites_deleteErrors]
      have hrf : removeFails env (afterWrites env outdir cm w).1.fs (Join [dirOf outdir cm, k])
          = true := by
        cases hf : removeFails env (afterWrites env outdir cm w).1.fs
            (Join [dirOf outdir cm, k]) with
        | true => rfl
        | false => exact absurd (hiff.2 hf) hsome
      have := failedRemoves_pos env _ (dirOf outdir cm) _ k hstale hrf
      omega

/-- Claim C10 where `old.json` cannot be written but can be removed: after the
call the directory holds no `old.json`, neither the old nor the new one. -/
theorem failed_write_removes_old_file_witness :
    staleWorld.fs.ValidNames
      ∧ staleWorld.fs.get (resolve staleWorld.fs.cwd (dirOf demoOut twoCM) ++ ["old.json".toList])
          = some (Node.file "[1]".toList)
      ∧ Call.writeFile (Join [dirOf demoOut twoCM, "old.json".toList]) "B".toList
            (some Errno.EACCES)
          ∈ newCalls staleWorld (addConfigMap denyOld demoOut twoCM staleWorld).2
      ∧ "old.json".toList ∈ staleOrder denyOld demoOut twoCM staleWorld
      ∧ (addConfigMap denyOld demoOut twoCM staleWorld).2.fs.get
          (demoDir ++ ["old.json".toList]) = none :=
  ⟨by decide, by decide, by decide,
    (failed_write_removes_old_file denyOld demoOut twoCM staleWorld "old.json".toList
      "B".toList "[1]".toList Errno.EACCES (by decide) (by decide) (by decide) (by decide)
      (by decide)).1,
    by decide⟩

/-! ## Entries without the `.json` extension -/

theorem splitSlash_append_noSlash (a b : Str) (hb : '/' ∉ b) :
    ∃ A l0, splitSlash a = A ++ [l0] ∧ splitSlash (a ++ b) = A ++ [l0 ++ b] := by
  induction a with
  | nil => exact ⟨[], [], rfl, by simpa using splitSlash_of_noSlash b hb⟩
  | cons c cs ih =>
    obtain ⟨A, l0, h1, h2⟩ := ih
    by_cases hc : c = '/'
    · exact ⟨[] :: A, l0, by simp [splitSlash, hc, h1], by simp [splitSlash, hc, h2]⟩
    · cases A with
      | nil =>
        refine ⟨[], c :: l0, ?_, ?_⟩
        · simp only [splitSlash, if_neg hc, h1, List.nil_append]
        · have h2' : splitSlash (cs.append b) = [l0 ++ b] := h2
          simp only [List.cons_append, splitSlash, if_neg hc, h2', List.nil_append]
      | cons a0 A' =>
        refine ⟨(c :: a0) :: A', l0, ?_, ?_⟩
        · simp only [splitSlash, if_neg hc, h1, List.cons_append]
        · have h2' : splitSlash (cs.append b) = a0 :: A' ++ [l0 ++ b] := h2
          simp only [List.cons_append, splitSlash, if_neg hc, h2']

theorem Ext_append_json (x : Str) : Ext (x ++ jsonExt) = jsonExt := by
  have hj : jsonExt = ['.', 'j', 's', 'o', 'n'] := by decide
  rw [hj]
  simp [Ext, extScan]

/-- The path of an entry without separators inside a directory. -/
theorem resolve_Join_noSlash (cwd : AbsPath) (dir k : Str) (hd : dir ≠ []) (hk : '/' ∉ k) :
    resolve cwd (Join [dir, k]) = (resolveStep (resolve cwd dir).reverse k).reverse := by
  simp only [Join, if_neg hd, joinSlash]
  rw [resolve_Clean cwd _ (by simp)]
  unfold resolve
  rw [isRooted_append dir _ hd, splitSlash_append_slash, splitSlash_of_noSlash k hk,
    List.foldl_append]
  simp

/-- The path of a `.json` entry, whatever separators its key holds, ends in a
name with the `.json` extension. -/
theorem resolve_Join_json_last (cwd : AbsPath) (dir k : Str) (hd : dir ≠ [])
    (hj : Ext k = jsonExt) :
    ∃ X l, resolve cwd (Join [dir, k]) = X ++ [l] ∧ Ext l = jsonExt := by
  obtain ⟨q, hq⟩ := Ext_json_suffix k hj
  have hjs : '/' ∉ jsonExt := by decide
  obtain ⟨A, l0, h1, h2⟩ := splitSlash_append_noSlash q jsonExt hjs
  have hl0 : '/' ∉ l0 := splitSlash_noSlash q l0 (by rw [h1]; simp)
  have hplain : PlainName (l0 ++ jsonExt) :=
    plainName_of_json _ (Ext_append_json l0) (by
      intro h
      rcases List.mem_append.1 h with h | h
      · exact hl0 h
      · exact hjs h)
  simp only [Join, if_neg hd, joinSlash]
  rw [resolve_Clean cwd _ (by simp)]
  unfold resolve
  rw [isRooted_append dir _ hd, splitSlash_append_slash, hq, h2, ← List.append_assoc,
    List.foldl_append]
  simp only [List.foldl_cons, List.foldl_nil, resolveStep_plain _ _ hplain, List.reverse_cons]
  exact ⟨_, _, rfl, Ext_append_json l0⟩

/-- After the removal loop a path names nothing or what it named before. -/
theorem removeFiles_get_cases (env : Env) (dir : Str) (names : List Str) (w : World)
    (hd : dir ≠ []) (hplain : ∀ g ∈ names, PlainName g) (hnd : names.Nodup) (q : AbsPath) :
    (removeFiles env dir names w).fs.get q = none
      ∨ (removeFiles env dir names w).fs.get q = w.fs.get q := by
  by_cases h : ∃ f ∈ names, removeFails env w.fs (Join [dir, f]) = false
      ∧ q = resolve w.fs.cwd dir ++ [f]
  · obtain ⟨f, hf, hok, rfl⟩ := h
    exact Or.inl (removeFiles_get_removed env dir names w hd hplain hnd f hf hok)
  · right
    apply removeFiles_get_other env dir names w hd hplain hnd
    intro f hf hok heq
    exact h ⟨f, hf, hok, heq⟩

theorem mkdirAllRev_parent (env : Env) (s : FS) (c : Str) (parent : List Str)
    (hok : (mkdirAllRev env s (c :: parent)).1 = none)
    (hcl : s.get (c :: parent).reverse ≠ none → s.get parent.reverse = some Node.dir) :
    (mkdirAllRev env s (c :: parent)).2.get parent.reverse = some Node.dir := by
  unfold mkdirAllRev at hok ⊢
  cases hget : s.get (c :: parent).reverse with
  | some n =>
    rw [hget] at hok
    cases n with
    | dir => exact hcl (by rw [hget]; simp)
    | file x => cases hok
  | none =>
    rw [hget] at hok
    simp only at hok ⊢
    have hspec := (mkdirAllRev_spec env s parent).2.2.2
    cases hrec : mkdirAllRev env s parent with
    | mk e1 s1 =>
      rw [hrec] at hok hspec
      cases e1 with
      | some e => cases hok
      | none =>
        simp only at hok ⊢
        cases hmk : env.mkdir (c :: parent).reverse with
        | some e => rw [hmk] at hok; cases hok
        | none =>
          simp only [FS.get_put]
          by_cases h0 : parent.reverse = []
          · rw [if_pos h0]
          · rw [if_neg h0, if_neg (by
              intro h
              have := congrArg List.length h
              simp at this)]
            exact hspec rfl

theorem FS.parent_dir (s : FS) (h : s.ParentsAreDirs) (q : AbsPath) (hq : s.get q ≠ none) :
    s.get q.dropLast = some Node.dir := by
  by_cases h0 : q = []
  · subst h0
    simp [FS.get]
  · unfold FS.get at hq
    rw [if_neg h0, lookupNode_ne_none] at hq
    obtain ⟨n, hn⟩ := hq
    exact h _ hn

/-- After a successful `os.MkdirAll` on a well-formed tree the parent of the
target is a directory. -/
theorem mkdirAll_parent (env : Env) (s : FS) (dir : Str) (hcl : s.ParentsAreDirs)
    (hok : (mkdirAll env s dir).1 = none) :
    (mkdirAll env s dir).2.get (resolve s.cwd dir).dropLast = some Node.dir := by
  unfold mkdirAll at hok ⊢
  by_cases hd : dir = []
  · rw [if_pos hd] at hok; cases hok
  · rw [if_neg hd] at hok ⊢
    cases hf : env.mkdirAll (resolve s.cwd dir) with
    | some e => rw [hf] at hok; cases hok
    | none =>
      rw [hf] at hok
      simp only at hok ⊢
      cases hr : (resolve s.cwd dir).reverse with
      | nil =>
        have : resolve s.cwd dir = [] := by simpa using hr
        rw [this]
        simp [FS.get]
      | cons c parent =>
        have hrev : resolve s.cwd dir = (c :: parent).reverse := by
          rw [← hr, List.reverse_reverse]
        have hdl : (resolve s.cwd dir).dropLast = parent.reverse := by
          rw [hrev]; simp
        rw [hr] at hok
        rw [hdl]
        apply mkdirAllRev_parent env s c parent hok
        intro hne
        have := FS.parent_dir s hcl _ hne
        rw [← hrev, hdl] at this
        exact this

theorem not_plain_cases (k : Str) (hs : '/' ∉ k) (h : ¬ PlainName k) :
    k = [] ∨ k = dot ∨ k = dotdot := by
  unfold PlainName at h
  by_cases h1 : k = []
  · exact Or.inl h1
  · by_cases h2 : k = dot
    · exact Or.inr (Or.inl h2)
    · by_cases h3 : k = dotdot
      · exact Or.inr (Or.inr h3)
      · exact absurd ⟨h1, h2, h3, hs⟩ h

theorem reverse_tail_reverse (l : List Str) : l.reverse.tail.reverse = l.dropLast := by
  induction l using List.reverseRecOn with
  | nil => rfl
  | append_singleton xs x _ => simp

/-- Claim C3, amended (extension filtering). Let `k` be a name without path
separator that fails the test `filepath.Ext(k) == ".json"` (any such key of the
entry map, whatever its content), on a well-formed file system. Then
`addConfigMap` makes no successful write to `file_for(namespace, name, k)`; a
regular file at that path after the call was there before the call with the same
content; and when the directory was made and listed, such a file is there after
the call only if `os.Remove` was called on it and failed. -/
theorem non_json_key_not_written (env : Env) (outdir : Str) (cm : ConfigMap) (w : World)
    (k : Str) (hvalid : w.fs.ValidNames) (hclosed : w.fs.ParentsAreDirs)
    (hs : '/' ∉ k) (hj : Ext k ≠ jsonExt) :
    (∀ data, Call.writeFile (Join [dirOf outdir cm, k]) data none
        ∉ newCalls w (addConfigMap env outdir cm w).2)
      ∧ (∀ c, (addConfigMap env outdir cm w).2.fs.get
              (resolve w.fs.cwd (Join [dirOf outdir cm, k])) = some (Node.file c) →
            w.fs.get (resolve w.fs.cwd (Join [dirOf outdir cm, k])) = some (Node.file c))
      ∧ (setupError env outdir cm w = none →
          ∀ c, (addConfigMap env outdir cm w).2.fs.get
              (resolve w.fs.cwd (Join [dirOf outdir cm, k])) = some (Node.file c) →
            ∃ err, Call.remove (Join [dirOf outdir cm, k]) (some err)
              ∈ newCalls w (addConfigMap env outdir cm w).2) := by
  have hnames := namesOK_of_validNames w.fs (resolve w.fs.cwd (dirOf outdir cm)) hvalid
  rcases addConfigMap_cases env outdir cm w with
    ⟨e, _, h1, h2⟩ | ⟨e, _, _, h1, h2⟩ | ⟨hmk, hD, hdir, _, hset, h⟩
  · refine ⟨fun data hmem => ?_, fun c hc => ?_, fun hs0 => ?_⟩
    · rw [newCalls_append w _ [Call.mkdirAll (dirOf outdir cm) (some e)] (by rw [h2])] at hmem
      simp at hmem
    · rw [h2] at hc
      exact (mkdirAll_file_iff env w.fs (dirOf outdir cm) _ c).1 hc
    · rw [hs0] at h1; cases h1
  · refine ⟨fun data hmem => ?_, fun c hc => ?_, fun hs0 => ?_⟩
    · rw [newCalls_append w _ [Call.mkdirAll (dirOf outdir cm) none,
        Call.readDir (dirOf outdir cm) (some e)] (by rw [h2])] at hmem
      simp at hmem
    · rw [h2] at hc
      exact (mkdirAll_file_iff env w.fs (dirOf outdir cm) _ c).1 hc
    · rw [hs0] at h1; cases h1
  · obtain ⟨newW, newR, hn, hw, _, hr, hr2⟩ := addConfigMap_calls env outdir cm w hset hnames
    have hcwd2 := afterWrites_cwd env outdir cm w
    have hcwdm := madeFS_cwd env outdir cm w
    have hLp := staleOrder_plain env outdir cm w hnames
    have hLn := staleOrder_nodup env outdir cm w
    have hcwd0 : (loopStart env outdir cm w).fs.cwd = w.fs.cwd := hcwdm
    have hp := resolve_Join_noSlash w.fs.cwd (dirOf outdir cm) k hD hs
    -- a successful write on record is the write of a `.json` entry with this path
    have hwrite : ∀ data, Call.writeFile (Join [dirOf outdir cm, k]) data none
        ∈ newCalls w (addConfigMap env outdir cm w).2 →
        ∃ e ∈ cm.Data, isJson e.1 = true ∧ Join [dirOf outdir cm, e.1] = Join [dirOf outdir cm, k]
          ∧ writeFails env (madeFS env outdir cm w) (Join [dirOf outdir cm, k]) = false := by
      intro data hmem
      rw [hn] at hmem
      rcases List.mem_append.1 hmem with h1 | h1
      · rcases List.mem_append.1 h1 with h3 | h3
        · simp at h3
        · obtain ⟨e, he, hje, err, hc, hiff⟩ := hw _ h3
          simp only [Call.writeFile.injEq] at hc
          obtain ⟨hpath, _, herr⟩ := hc
          refine ⟨e, he, hje, hpath.symm, ?_⟩
          rw [hpath]
          exact hiff.1 herr.symm
      · obtain ⟨f, _, err, hc, _⟩ := hr _ h1
        cases hc
    have hfs : (addConfigMap env outdir cm w).2.fs
        = (removeFiles env (dirOf outdir cm) (staleOrder env outdir cm w)
            (afterWrites env outdir cm w).1).fs := by rw [h]
    rw [hfs]
    by_cases hplain : PlainName k
    · rw [resolveStep_plain _ _ hplain, List.reverse_cons, List.reverse_reverse] at hp
      rw [hp]
      have hne : ∀ e ∈ cm.Data, isJson e.1 = true →
          resolve w.fs.cwd (Join [dirOf outdir cm, e.1])
            ≠ resolve w.fs.cwd (dirOf outdir cm) ++ [k] := by
        intro e _ hje heq
        obtain ⟨X, l, hX, hl⟩ := resolve_Join_json_last w.fs.cwd (dirOf outdir cm) e.1 hD
          (by simpa [isJson] using hje)
        rw [hX] at heq
        have := (List.append_inj' heq rfl).2
        simp only [List.cons.injEq, and_true] at this
        exact hj (this ▸ hl)
      have hW2 : (afterWrites env outdir cm w).1.fs.get (resolve w.fs.cwd (dirOf outdir cm) ++ [k])
          = w.fs.get (resolve w.fs.cwd (dirOf outdir cm) ++ [k]) := by
        unfold afterWrites
        rw [writeEntries_get_other]
        · exact mkdirAll_get_child env w.fs (dirOf outdir cm) k
        · intro e he hje
          rw [hcwd0]
          exact hne e he hje
      have hfinal := removeFiles_get_cases env (dirOf outdir cm) (staleOrder env outdir cm w)
        (afterWrites env outdir cm w).1 hD hLp hLn (resolve w.fs.cwd (dirOf outdir cm) ++ [k])
      refine ⟨fun data hmem => ?_, fun c hc => ?_, fun _ c hc => ?_⟩
      · obtain ⟨e, he, hje, hpath, _⟩ := hwrite data hmem
        apply hne e he hje
        rw [hpath, resolve_Join_child w.fs.cwd _ k hD hplain]
      · rcases hfinal with h1 | h1
        · rw [h1] at hc; cases hc
        · rw [← hW2, ← h1]; exact hc
      · have hex : w.fs.get (resolve w.fs.cwd (dirOf outdir cm) ++ [k]) ≠ none := by
          rcases hfinal with h1 | h1
          · rw [h1] at hc; cases hc
          · rw [← hW2, ← h1, hc]; simp
        have hstale : k ∈ staleOrder env outdir cm w := by
          rw [staleOrder_mem]
          refine ⟨hex, fun e _ hek hje => ?_⟩
          rw [hek] at hje
          exact absurd (by simpa [isJson] using hje) hj
        obtain ⟨rerr, hcall, hiff⟩ := hr2 k hstale
        cases rerr with
        | some err =>
          refine ⟨err, ?_⟩
          rw [hn]
          exact List.mem_append_right _ hcall
        | none =>
          have := removeFiles_get_removed env _ _ (afterWrites env outdir cm w).1 hD hLp hLn k
            hstale (hiff.1 rfl)
          rw [hcwd2] at this
          rw [this] at hc
          cases hc
    · -- `k` is empty, `.` or `..`: the path is the directory or its parent
      have hpdir : (madeFS env outdir cm w).get (resolve w.fs.cwd (Join [dirOf outdir cm, k]))
            = some Node.dir
          ∧ ∀ f, resolve w.fs.cwd (Join [dirOf outdir cm, k])
              ≠ resolve w.fs.cwd (dirOf outdir cm) ++ [f] := by
        rcases not_plain_cases k hs hplain with hk | hk | hk
        · rw [hp, hk]
          simp only [resolveStep, true_or, if_true, List.reverse_reverse]
          exact ⟨hdir, fun f => by simp⟩
        · rw [hp, hk]
          simp only [resolveStep, or_true, if_true, List.reverse_reverse]
          exact ⟨hdir, fun f => by simp⟩
        · rw [hp, hk]
          have : resolveStep (resolve w.fs.cwd (dirOf outdir cm)).reverse dotdot
              = (resolve w.fs.cwd (dirOf outdir cm)).reverse.tail := by
            unfold resolveStep
            rw [if_neg (by decide), if_pos rfl]
          rw [this, reverse_tail_reverse]
          refine ⟨mkdirAll_parent env w.fs (dirOf outdir cm) hclosed hmk, fun f heq => ?_⟩
          have := congrArg List.length heq
          simp only [List.length_dropLast, List.length_append, List.length_singleton] at this
          omega
      have hfin : (removeFiles env (dirOf outdir cm) (staleOrder env outdir cm w)
          (afterWrites env outdir cm w).1).fs.get (resolve w.fs.cwd (Join [dirOf outdir cm, k]))
            = some Node.dir := by
        rw [removeFiles_get_other env _ _ _ hD hLp hLn]
        · exact ((afterWrites_sameDirs env outdir cm w).2 _).1 hpdir.1
        · intro f _ _
          rw [hcwd2]
          exact hpdir.2 f
      refine ⟨fun data hmem => ?_, fun c hc => ?_, fun _ c hc => ?_⟩
      · obtain ⟨_, _, _, _, hok⟩ := hwrite data hmem
        have := ((writeFails_eq_false_iff env _ _).1 hok).2.1
        rw [hcwdm] at this
        exact this hpdir.1
      · rw [hfin] at hc; cases hc
      · rw [hfin] at hc; cases hc

/-- Claim C3 (amended) on the stale tree with the text entry `readme.txt`: no
write is made to `readme.txt`, and no file of that name is there afterwards. -/
theorem non_json_key_not_written_witness :
    staleWorld.fs.ValidNames ∧ staleWorld.fs.ParentsAreDirs ∧ '/' ∉ "readme.txt".toList
      ∧ Ext "readme.txt".toList ≠ jsonExt
      ∧ Call.writeFile (Join [dirOf demoOut demoCM, "readme.txt".toList]) "hi".toList none
          ∉ newCalls staleWorld (addConfigMap calmEnv demoOut demoCM staleWorld).2 :=
  ⟨by decide, by decide, by decide, by decide,
    (non_json_key_not_written calmEnv demoOut demoCM staleWorld "readme.txt".toList (by decide)
      (by decide) (by decide) (by decide)).1 "hi".toList⟩

/-- Claim C3 as stated fails twice. With the keys `a.json/` and `a.json` on an
empty directory no call fails, and the path of the key `a.json/`, which has no
`.json` extension, is written to: it names a file afterwards that was not there
before. And when the directory cannot be listed, the old file of the text key
`notes.txt` is still there although no removal failed. -/
theorem non_json_key_written :
    Ext "a.json/".toList ≠ jsonExt
      ∧ (∀ c ∈ newCalls demoWorld (addConfigMap calmEnv demoOut slashCM demoWorld).2,
          c.err = none)
      ∧ demoWorld.fs.get (resolve demoWorld.fs.cwd (Join [dirOf demoOut slashCM, "a.json/".toList]))
          = none
      ∧ (addConfigMap calmEnv demoOut slashCM demoWorld).2.fs.get
          (resolve demoWorld.fs.cwd (Join [dirOf demoOut slashCM, "a.json/".toList]))
            = some (Node.file "y".toList)
      ∧ Call.writeFile (Join [dirOf demoOut slashCM, "a.json/".toList]) "y".toList none
          ∈ newCalls demoWorld (addConfigMap calmEnv demoOut slashCM demoWorld).2
      ∧ Ext "notes.txt".toList ≠ jsonExt
      ∧ (addConfigMap denyReadDir demoOut notesCM staleWorld).2.fs.get
          (resolve staleWorld.fs.cwd (Join [dirOf demoOut notesCM, "notes.txt".toList]))
            = some (Node.file "todo".toList)
      ∧ (∀ p e, Call.remove p (some e)
          ∉ newCalls staleWorld (addConfigMap denyReadDir demoOut notesCM staleWorld).2)
      ∧ (addConfigMap denyReadDir demoOut notesCM staleWorld).2.deleteErrors = 0 := by
  refine ⟨by decide, by decide, by decide, by decide, by decide, by decide, by decide, ?_,
    by decide⟩
  intro p e hmem
  have hcalls : newCalls staleWorld (addConfigMap denyReadDir demoOut notesCM staleWorld).2
      = [Call.mkdirAll (dirOf demoOut notesCM) none,
          Call.readDir (dirOf demoOut notesCM) (some Errno.EACCES)] := by decide
  rw [hcalls] at hmem
  simp at hmem

/-! ## Sample runs -/

/-- The first scenario of the specification: the directory of `default/demo`
holds exactly `a.json`. -/
theorem demo_run_children :
    (addConfigMap calmEnv demoOut demoCM demoWorld).2.fs.children demoDir
      = ["a.json".toList] := by
  decide

end GrafanaLoader
